import Mathlib

/-!
# nacfetch: the worker pool of `thread_pool.hpp`

A shallow embedding of `class ThreadPool` as a labelled transition system.

* The shared fields `workers`, `tasks`, `stop`, `activeTasks` are the fields of
  the C++ class.  Every block of the source that runs under `mutex` is one
  atomic step of the model; the task body runs outside the lock and is split
  from the steps around it.
* A worker blocked in `cv.wait(lock, pred)` is a worker at control point
  `waiting`; its step re-evaluates the predicate `stop || !tasks.empty()` under
  the lock, exactly as the wait loop of `std::condition_variable` does on every
  wake-up.
* The threads that called `wait()` are kept in `done`, the wait set of the
  condition variable `done`, so that `done.notify_one()` is a step of its own.
* `History` is ghost state: it only records which tasks were submitted,
  dequeued, started and completed, in the order in which that happened.
* The wait set of `cv` and the calls `cv.notify_one()` and `cv.notify_all()`
  are added in the section on the wait set of `cv` (namespace `Cv`), which is
  where the claims about progress are stated.
-/

namespace NacFetch

universe u

/-- Number of values of the C++ type `size_t` (64-bit target). -/
def SIZE_RANGE : Nat := 2 ^ 64

/-- Integral conversion of a signed value to `size_t`, as performed at a call
`ThreadPool(n)` with a signed argument: reduction modulo `2^64`. -/
def toSizeT (n : Int) : Nat := (n % (SIZE_RANGE : Int)).toNat

/-- Control point of one worker thread in the loop of lines 22-46. -/
inductive Worker (α : Type u) where
  /-- At `cv.wait` (line 27): not holding a task, lock not held. -/
  | waiting : Worker α
  /-- Lines 34-37 done: the head task was moved out and the lock released;
  `task()` has not been called yet. -/
  | holding (t : α) : Worker α
  /-- Inside `task()` (line 39). -/
  | running (t : α) : Worker α
  /-- The call `task()` returned; the decrement of lines 41-44 is still to come. -/
  | finished (t : α) : Worker α
  /-- The decrement is done; `done.notify_one()` (line 45) is still to come. -/
  | notifying : Worker α
  /-- The loop was left by the `return` of line 32. -/
  | exited : Worker α
  /-- The call `task()` raised; nothing in the loop catches it, the thread
  function is left abnormally. -/
  | faulted (t : α) : Worker α
  deriving DecidableEq, Repr

/-- State of one thread that called `wait()` (lines 70-75). -/
inductive Waiter where
  /-- Asleep in `done.wait`: the predicate was false when last evaluated. -/
  | blocked : Waiter
  /-- Woken (by a notification or spuriously); has to re-acquire the lock and
  re-evaluate the predicate. -/
  | woken : Waiter
  /-- The call `wait()` has returned. -/
  | returned : Waiter
  deriving DecidableEq, Repr

/-- The fields of `class ThreadPool` (lines 77-86).  `cv` carries no state of
its own here (see the header; its wait set is added in `Cv.State`); `done` is
the wait set of the second condition variable. -/
structure ThreadPool (α : Type u) where
  workers : List (Worker α)
  tasks : List α
  stop : Bool
  activeTasks : Nat
  done : List Waiter
  deriving DecidableEq, Repr

/-- The atomic steps of the system. -/
inductive Action (α : Type u) where
  /-- Some thread calls `enqueue(t)`. -/
  | enqueue (t : α) : Action α
  /-- Worker `i` performs the next step of its loop. -/
  | worker (i : Nat) : Action α
  /-- The task run by worker `i` raises instead of returning. -/
  | fault (i : Nat) : Action α
  /-- Worker `i` executes `done.notify_one()` and the thread woken is waiter `j`. -/
  | notify (i j : Nat) : Action α
  /-- The destructor takes the lock and sets `stop` (lines 52-55). -/
  | shutdown : Action α
  /-- A new thread calls `wait()`. -/
  | callWait : Action α
  /-- Waiter `j`, woken, re-acquires the lock and re-evaluates the predicate. -/
  | recheck (j : Nat) : Action α
  /-- Waiter `j` wakes up spuriously. -/
  | spurious (j : Nat) : Action α
  deriving DecidableEq, Repr

namespace ThreadPool

variable {α : Type u}

/-- Line 16: `threadCount = std::max<size_t>(1, threadCount)`. -/
def effectiveThreadCount (threadCount : Nat) : Nat := max 1 threadCount

/-- The constructor (lines 13-48): `stop(false)`, `activeTasks(0)`, an empty
queue and `max(1, threadCount)` workers, each entering its loop. -/
def create (threadCount : Nat) : ThreadPool α :=
  { workers := List.replicate (effectiveThreadCount threadCount) Worker.waiting
    tasks := []
    stop := false
    activeTasks := 0
    done := [] }

/-- Predicate of `cv.wait` in the worker loop (line 28). -/
def workPred (p : ThreadPool α) : Bool := p.stop || !p.tasks.isEmpty

/-- Predicate of `done.wait` in `wait()` (line 74). -/
def waitPred (p : ThreadPool α) : Bool := p.tasks.isEmpty && p.activeTasks == 0

/-- Lines 61-68: push the task at the tail of the queue under the lock. -/
def enqueue (p : ThreadPool α) (t : α) : ThreadPool α :=
  { p with tasks := p.tasks ++ [t] }

/-- Lines 52-55 of the destructor: set `stop` under the lock. -/
def shutdown (p : ThreadPool α) : ThreadPool α :=
  { p with stop := true }

/-- A worker thread that left its thread function through the `return` of
line 32. -/
def hasExited : Worker α → Bool
  | Worker.exited => true
  | _ => false

/-- The destructor can finish its joins (lines 57-58): every worker thread has
returned from its thread function. -/
def joined (p : ThreadPool α) : Bool := p.workers.all hasExited

/-- `activeTasks++` on a `size_t`. -/
def incr (n : Nat) : Nat := (n + 1) % SIZE_RANGE

/-- `activeTasks--` on a `size_t`. -/
def decr (n : Nat) : Nat := (n + (SIZE_RANGE - 1)) % SIZE_RANGE

/-- Lines 26-37, executed by worker `i` under the lock once `cv.wait` lets it
look at the state: leave when `stop && tasks.empty()`, otherwise take the head
task and count it; with the predicate of line 28 false the worker keeps
waiting and nothing changes. -/
def wake (p : ThreadPool α) (i : Nat) : ThreadPool α :=
  if p.stop && p.tasks.isEmpty then
    { p with workers := p.workers.set i Worker.exited }
  else
    match p.tasks with
    | [] => p
    | t :: rest =>
      { p with
        workers := p.workers.set i (Worker.holding t)
        tasks := rest
        activeTasks := incr p.activeTasks }

/-- One step of worker `i`, by control point. -/
def workerStep (p : ThreadPool α) (i : Nat) : Option (ThreadPool α) :=
  match p.workers[i]? with
  | none => none
  | some Worker.waiting => some (wake p i)
  | some (Worker.holding t) => some { p with workers := p.workers.set i (Worker.running t) }
  | some (Worker.running t) => some { p with workers := p.workers.set i (Worker.finished t) }
  | some (Worker.finished _) =>
    some { p with workers := p.workers.set i Worker.notifying, activeTasks := decr p.activeTasks }
  | some Worker.notifying =>
    if p.done.contains Waiter.blocked then none
    else some { p with workers := p.workers.set i Worker.waiting }
  | some Worker.exited => none
  | some (Worker.faulted _) => none

/-- The task of worker `i` raises: the worker leaves its loop without
reaching lines 41-45. -/
def faultStep (p : ThreadPool α) (i : Nat) : Option (ThreadPool α) :=
  match p.workers[i]? with
  | some (Worker.running t) => some { p with workers := p.workers.set i (Worker.faulted t) }
  | _ => none

/-- Line 45 with at least one thread asleep in `done.wait`: exactly one of
them, `j`, is woken. -/
def notifyStep (p : ThreadPool α) (i j : Nat) : Option (ThreadPool α) :=
  match p.workers[i]?, p.done[j]? with
  | some Worker.notifying, some Waiter.blocked =>
    some { p with workers := p.workers.set i Worker.waiting, done := p.done.set j Waiter.woken }
  | _, _ => none

/-- Lines 72-74 when `wait()` is entered: the predicate is evaluated under the
lock; the caller returns at once when it holds and goes to sleep otherwise. -/
def callWait (p : ThreadPool α) : ThreadPool α :=
  { p with done := p.done ++ [if p.waitPred then Waiter.returned else Waiter.blocked] }

/-- Waiter `j`, woken, evaluates the predicate of line 74 under the lock. -/
def recheckStep (p : ThreadPool α) (j : Nat) : Option (ThreadPool α) :=
  match p.done[j]? with
  | some Waiter.woken =>
    some { p with done := p.done.set j (if p.waitPred then Waiter.returned else Waiter.blocked) }
  | _ => none

/-- Spurious wake-up of waiter `j`. -/
def spuriousStep (p : ThreadPool α) (j : Nat) : Option (ThreadPool α) :=
  match p.done[j]? with
  | some Waiter.blocked => some { p with done := p.done.set j Waiter.woken }
  | _ => none

/-- The transition function: `none` when the action is not enabled. -/
def step (p : ThreadPool α) : Action α → Option (ThreadPool α)
  | Action.enqueue t => some (p.enqueue t)
  | Action.worker i => p.workerStep i
  | Action.fault i => p.faultStep i
  | Action.notify i j => p.notifyStep i j
  | Action.shutdown => some p.shutdown
  | Action.callWait => some p.callWait
  | Action.recheck j => p.recheckStep j
  | Action.spurious j => p.spuriousStep j

end ThreadPool

/-- Ghost record of what happened so far, each list in order of occurrence. -/
structure History (α : Type u) where
  /-- Tasks pushed by `enqueue` (line 65). -/
  submitted : List α
  /-- Tasks taken from the queue (lines 34-35). -/
  dequeued : List α
  /-- Tasks whose body was entered (line 39). -/
  started : List α
  /-- Tasks whose body returned. -/
  completed : List α
  deriving DecidableEq, Repr

namespace History

variable {α : Type u}

/-- Nothing has happened yet. -/
def empty : History α := { submitted := [], dequeued := [], started := [], completed := [] }

/-- The entry that action `a`, taken in pool state `p`, adds to the record. -/
def record (h : History α) (p : ThreadPool α) : Action α → History α
  | Action.enqueue t => { h with submitted := h.submitted ++ [t] }
  | Action.worker i =>
    match p.workers[i]? with
    | some Worker.waiting =>
      if p.stop && p.tasks.isEmpty then h
      else
        match p.tasks with
        | [] => h
        | t :: _ => { h with dequeued := h.dequeued ++ [t] }
    | some (Worker.holding t) => { h with started := h.started ++ [t] }
    | some (Worker.running t) => { h with completed := h.completed ++ [t] }
    | _ => h
  | _ => h

end History

/-- A pool together with the ghost record of its run. -/
structure Sys (α : Type u) where
  pool : ThreadPool α
  hist : History α
  deriving DecidableEq, Repr

namespace Sys

variable {α : Type u}

/-- The system right after the constructor returned. -/
def init (threadCount : Nat) : Sys α :=
  { pool := ThreadPool.create threadCount, hist := History.empty }

/-- One step of the instrumented system. -/
def step (s : Sys α) (a : Action α) : Option (Sys α) :=
  match s.pool.step a with
  | none => none
  | some p => some { pool := p, hist := s.hist.record s.pool a }

/-- Run a schedule; `none` when some action of it is not enabled. -/
def run (s : Sys α) : List (Action α) → Option (Sys α)
  | [] => some s
  | a :: as =>
    match s.step a with
    | none => none
    | some s1 => run s1 as

/-- States reachable from a pool constructed with `threadCount`. -/
def Reachable (threadCount : Nat) (s : Sys α) : Prop :=
  ∃ as : List (Action α), run (init threadCount) as = some s

/-- Tasks a worker has taken from the queue and whose body has not returned:
dequeued but not started, inside the body, or lost with a faulted body. -/
def heldBy : Worker α → Option α
  | Worker.holding t => some t
  | Worker.running t => some t
  | Worker.faulted t => some t
  | _ => none

/-- Tasks whose body has been entered and has not returned. -/
def inBody : Worker α → Option α
  | Worker.running t => some t
  | Worker.faulted t => some t
  | _ => none

/-- A worker between its dequeue (line 36) and its decrement (line 43). -/
def busy : Worker α → Bool
  | Worker.holding _ => true
  | Worker.running _ => true
  | Worker.finished _ => true
  | Worker.faulted _ => true
  | _ => false

/-- A worker that is executing a task body. -/
def executing : Worker α → Bool
  | Worker.running _ => true
  | _ => false

/-- The tasks held by the workers. -/
def held (p : ThreadPool α) : List α := p.workers.filterMap heldBy

/-- Number of workers between dequeue and decrement. -/
def busyCount (p : ThreadPool α) : Nat := p.workers.countP busy

/-- Number of tasks being executed. -/
def executingCount (p : ThreadPool α) : Nat := p.workers.countP executing

/-- An action that is a call of `enqueue`. -/
def isEnqueue : Action α → Bool
  | Action.enqueue _ => true
  | _ => false

/-- An action that is the destructor setting `stop`. -/
def isShutdown : Action α → Bool
  | Action.shutdown => true
  | _ => false

/-- The tasks whose body is being run or was left by a fault. -/
def bodies (p : ThreadPool α) : List α := p.workers.filterMap inBody

/-- The tasks a schedule submits, in order. -/
def submissions : List (Action α) → List α
  | [] => []
  | Action.enqueue t :: as => t :: submissions as
  | _ :: as => submissions as

/-- The bookkeeping invariant that links the pool to its ghost record. -/
structure Inv (s : Sys α) : Prop where
  /-- What left the queue, followed by what is still in it, is what was pushed. -/
  fifo : s.hist.dequeued ++ s.pool.tasks = s.hist.submitted
  /-- A dequeued task is held by a worker or has completed. -/
  deq : (s.hist.dequeued : Multiset α) = (s.hist.completed : Multiset α) + (held s.pool : Multiset α)
  /-- A started task is inside its body or has completed. -/
  run : (s.hist.started : Multiset α) = (s.hist.completed : Multiset α) + (bodies s.pool : Multiset α)
  /-- The counter counts the busy workers, as a `size_t`. -/
  active : s.pool.activeTasks = busyCount s.pool % SIZE_RANGE
  /-- A worker leaves its loop only after `stop` was set. -/
  exit : (s.pool.workers.any ThreadPool.hasExited = true) → s.pool.stop = true

/-- The task a worker has dequeued and not started yet. -/
def pending : Worker α → List α
  | Worker.holding t => [t]
  | _ => []

/-- The task whose body a worker has entered and not left by a return. -/
def entered : Worker α → List α
  | Worker.running t => [t]
  | Worker.faulted t => [t]
  | _ => []

/-- The invariant of a pool with a single worker: the records of dequeues,
starts and completions differ only by the task the worker has in hand. -/
def Single (s : Sys α) : Prop :=
  ∃ w, s.pool.workers = [w] ∧
    s.hist.dequeued = s.hist.started ++ pending w ∧
    s.hist.started = s.hist.completed ++ entered w

/-- After the destructor set `stop`: a worker has left its loop only when it
saw the queue empty, and the queue stays empty unless somebody enqueues. -/
def Draining (s : Sys α) : Prop :=
  s.pool.stop = true ∧ (s.pool.workers.any ThreadPool.hasExited = true → s.pool.tasks = [])

/-- Waiter `j` is inside `wait()` in `p` (or has not called it yet) and has
returned from it in `p1`. -/
def returnsAt (p p1 : ThreadPool α) (j : Nat) : Prop :=
  p.done[j]? ≠ some Waiter.returned ∧ p1.done[j]? = some Waiter.returned

/-! ## Sample runs -/

/-- A schedule for two workers: two tasks are taken and started in the
opposite order, one completes, a thread calls `wait()` and blocks, a third
task arrives. -/
def busySchedule : List (Action Nat) :=
  [Action.enqueue 7, Action.enqueue 8, Action.worker 0, Action.worker 1, Action.worker 1,
   Action.worker 0, Action.worker 1, Action.callWait, Action.enqueue 9]

/-- The state `busySchedule` leads to from `init 2`. -/
def busyState : Sys Nat :=
  { pool :=
      { workers := [Worker.running 7, Worker.finished 8]
        tasks := [9]
        stop := false
        activeTasks := 2
        done := [Waiter.blocked] }
    hist := { submitted := [7, 8, 9], dequeued := [7, 8], started := [8, 7], completed := [8] } }

/-- A schedule for one worker: a task runs to completion while a thread is
blocked in `wait()`; the worker notifies and the waiter is woken. -/
def wakeSchedule : List (Action Nat) :=
  [Action.enqueue 7, Action.worker 0, Action.callWait, Action.worker 0, Action.worker 0,
   Action.worker 0, Action.notify 0 0]

/-- The state `wakeSchedule` leads to from `init 1`. -/
def wokenState : Sys Nat :=
  { pool :=
      { workers := [Worker.waiting]
        tasks := []
        stop := false
        activeTasks := 0
        done := [Waiter.woken] }
    hist := { submitted := [7], dequeued := [7], started := [7], completed := [7] } }

/-- The state after the woken waiter of `wokenState` re-evaluated the predicate. -/
def quietState : Sys Nat :=
  { wokenState with pool := { wokenState.pool with done := [Waiter.returned] } }

/-- Two submissions before the destructor runs. -/
def drainPre : List (Action Nat) := [Action.enqueue 7, Action.enqueue 8]

/-- After `stop` was set the single worker runs both tasks (dequeue, start,
return, decrement, notify for each) and then leaves its loop. -/
def drainPost : List (Action Nat) := List.replicate 11 (Action.worker 0)

/-- The state reached from `init 1` by `drainPre`, the destructor and `drainPost`. -/
def drainedState : Sys Nat :=
  { pool :=
      { workers := [Worker.exited]
        tasks := []
        stop := true
        activeTasks := 0
        done := [] }
    hist := { submitted := [7, 8], dequeued := [7, 8], started := [7, 8], completed := [7, 8] } }

/-- A schedule for one worker: three submissions; the first task runs to
completion and the second is started. -/
def serialSchedule : List (Action Nat) :=
  [Action.enqueue 7, Action.enqueue 8, Action.enqueue 9] ++ List.replicate 7 (Action.worker 0)

/-- The state `serialSchedule` leads to from `init 1`. -/
def serialState : Sys Nat :=
  { pool :=
      { workers := [Worker.running 8]
        tasks := [9]
        stop := false
        activeTasks := 1
        done := [] }
    hist := { submitted := [7, 8, 9], dequeued := [7, 8], started := [7, 8], completed := [7] } }

end Sys

namespace ThreadPool

variable {α : Type u}

/-- The transitions of `step`, one constructor per kind of step, each with
the condition under which it is taken and the state it leads to. -/
inductive Move : ThreadPool α → Action α → ThreadPool α → Prop where
  /-- Lines 63-66. -/
  | enqueue (p : ThreadPool α) (t : α) : Move p (Action.enqueue t) (p.enqueue t)
  /-- Lines 52-55. -/
  | shutdown (p : ThreadPool α) : Move p Action.shutdown p.shutdown
  /-- Lines 72-74, first evaluation of the predicate. -/
  | callWait (p : ThreadPool α) : Move p Action.callWait p.callWait
  /-- Lines 73-74, evaluation of the predicate after a wake-up. -/
  | recheck (p : ThreadPool α) (j : Nat) (hj : p.done[j]? = some Waiter.woken) :
    Move p (Action.recheck j)
      { p with done := p.done.set j (if p.waitPred then Waiter.returned else Waiter.blocked) }
  /-- A spurious wake-up in `done.wait`. -/
  | spurious (p : ThreadPool α) (j : Nat) (hj : p.done[j]? = some Waiter.blocked) :
    Move p (Action.spurious j) { p with done := p.done.set j Waiter.woken }
  /-- Line 45, a sleeping waiter is woken. -/
  | notify (p : ThreadPool α) (i j : Nat) (hw : p.workers[i]? = some Worker.notifying)
    (hj : p.done[j]? = some Waiter.blocked) :
    Move p (Action.notify i j)
      { p with workers := p.workers.set i Worker.waiting, done := p.done.set j Waiter.woken }
  /-- Line 39, the task raises. -/
  | fault (p : ThreadPool α) (i : Nat) (t : α) (hw : p.workers[i]? = some (Worker.running t)) :
    Move p (Action.fault i) { p with workers := p.workers.set i (Worker.faulted t) }
  /-- Lines 31-32. -/
  | exit (p : ThreadPool α) (i : Nat) (hw : p.workers[i]? = some Worker.waiting)
    (hs : p.stop = true) (ht : p.tasks = []) :
    Move p (Action.worker i) { p with workers := p.workers.set i Worker.exited }
  /-- Lines 27-29 with the predicate false: the worker sleeps on. -/
  | block (p : ThreadPool α) (i : Nat) (hw : p.workers[i]? = some Worker.waiting)
    (hs : p.stop = false) (ht : p.tasks = []) :
    Move p (Action.worker i) p
  /-- Lines 34-36. -/
  | dequeue (p : ThreadPool α) (i : Nat) (t : α) (rest : List α)
    (hw : p.workers[i]? = some Worker.waiting) (ht : p.tasks = t :: rest) :
    Move p (Action.worker i)
      { p with workers := p.workers.set i (Worker.holding t), tasks := rest,
               activeTasks := incr p.activeTasks }
  /-- Line 39, the call. -/
  | start (p : ThreadPool α) (i : Nat) (t : α) (hw : p.workers[i]? = some (Worker.holding t)) :
    Move p (Action.worker i) { p with workers := p.workers.set i (Worker.running t) }
  /-- Line 39, the return. -/
  | finish (p : ThreadPool α) (i : Nat) (t : α) (hw : p.workers[i]? = some (Worker.running t)) :
    Move p (Action.worker i) { p with workers := p.workers.set i (Worker.finished t) }
  /-- Lines 41-44. -/
  | decrement (p : ThreadPool α) (i : Nat) (t : α)
    (hw : p.workers[i]? = some (Worker.finished t)) :
    Move p (Action.worker i)
      { p with workers := p.workers.set i Worker.notifying, activeTasks := decr p.activeTasks }
  /-- Line 45, nobody sleeps in `done.wait`. -/
  | notifyNone (p : ThreadPool α) (i : Nat) (hw : p.workers[i]? = some Worker.notifying)
    (hn : p.done.contains Waiter.blocked = false) :
    Move p (Action.worker i) { p with workers := p.workers.set i Worker.waiting }

/-- The worker an action is a step of, if any. -/
def actor : Action α → Option Nat
  | Action.worker i => some i
  | Action.fault i => some i
  | Action.notify i _ => some i
  | _ => none

/-- A worker that will never take a step again. -/
def dead : Worker α → Bool
  | Worker.exited => true
  | Worker.faulted _ => true
  | _ => false

/-- A worker that holds no task and has no step of its loop pending but the
wait at line 27. -/
def idle : Worker α → Bool
  | Worker.waiting => true
  | Worker.exited => true
  | _ => false

end ThreadPool

namespace Sys

variable {α : Type u}

/-- No task in the queue, none counted and every worker waiting or gone: the
state of a pool that was never given work. -/
def Unused (s : Sys α) : Prop :=
  s.pool.tasks = [] ∧ s.pool.activeTasks = 0 ∧ ∀ w ∈ s.pool.workers, ThreadPool.idle w = true

/-! ## More sample runs -/

/-- A schedule without any submission: a worker wakes up for nothing, a
thread calls `wait()`, the destructor sets `stop`, a worker leaves. -/
def idleSchedule : List (Action Nat) :=
  [Action.worker 0, Action.callWait, Action.shutdown, Action.worker 1]

/-- The state `idleSchedule` leads to from `init 2`. -/
def idleState : Sys Nat :=
  { pool :=
      { workers := [Worker.waiting, Worker.exited]
        tasks := []
        stop := true
        activeTasks := 0
        done := [Waiter.returned] }
    hist := History.empty }

/-- The state `drainedState` is taken to by a late `enqueue 3` followed by a
call of `wait()`. -/
def lateState : Sys Nat :=
  { pool :=
      { workers := [Worker.exited]
        tasks := [3]
        stop := true
        activeTasks := 0
        done := [Waiter.blocked] }
    hist := { submitted := [7, 8, 3], dequeued := [7, 8], started := [7, 8], completed := [7, 8] } }

/-- The state `busyState` is taken to by the decrement of worker 1. -/
def decrementedState : Sys Nat :=
  { busyState with
    pool := { busyState.pool with
              workers := [Worker.running 7, Worker.notifying], activeTasks := 1 } }

/-- Two submissions, the first taken by worker 0; worker 1 is waiting. -/
def queuedSchedule : List (Action Nat) :=
  [Action.enqueue 7, Action.enqueue 8, Action.worker 0]

/-- The state `queuedSchedule` leads to from `init 2`. -/
def queuedState : Sys Nat :=
  { pool :=
      { workers := [Worker.holding 7, Worker.waiting]
        tasks := [8]
        stop := false
        activeTasks := 1
        done := [] }
    hist := { submitted := [7, 8], dequeued := [7], started := [], completed := [] } }

/-- The tasks `S`, submitted before the destructor ran, are served first: all
of them are still on record as submitted, and a worker has left its loop only
after the last of them was dequeued. -/
def Flushed (S : List α) (s : Sys α) : Prop :=
  (∃ l, s.hist.submitted = S ++ l) ∧
    (s.pool.workers.any ThreadPool.hasExited = true → S.length ≤ s.hist.dequeued.length)

/-- A run in which `stop` is set while two tasks wait in the queue, a third
one is submitted afterwards, and the single worker serves all three before it
leaves. -/
def lateSubmitSchedule : List (Action Nat) :=
  Action.enqueue 3 :: List.replicate 16 (Action.worker 0)

/-- The state before the destructor sets `stop` in that run. -/
def loadedState : Sys Nat :=
  { pool :=
      { workers := [Worker.waiting]
        tasks := [7, 8]
        stop := false
        activeTasks := 0
        done := [] }
    hist := { submitted := [7, 8], dequeued := [], started := [], completed := [] } }

/-- The state at the end of that run. -/
def servedState : Sys Nat :=
  { pool :=
      { workers := [Worker.exited]
        tasks := []
        stop := true
        activeTasks := 0
        done := [] }
    hist := { submitted := [7, 8, 3], dequeued := [7, 8, 3], started := [7, 8, 3],
              completed := [7, 8, 3] } }

/-- The state `serialState` is taken to when the body of task 8 raises. -/
def faultedState : Sys Nat :=
  { serialState with pool := { serialState.pool with workers := [Worker.faulted 8] } }

/-- After the fault a thread calls `wait()` and another task is submitted. -/
def afterFaultState : Sys Nat :=
  { pool :=
      { workers := [Worker.faulted 8]
        tasks := [9, 4]
        stop := false
        activeTasks := 1
        done := [Waiter.blocked] }
    hist := { submitted := [7, 8, 9, 4], dequeued := [7, 8], started := [7, 8], completed := [7] } }

/-- The measure of the claim on termination: twice the queue length plus
`activeTasks`. -/
def workLeft (p : ThreadPool α) : Nat := 2 * p.tasks.length + p.activeTasks

/-- Number of steps a worker at this control point still takes for the task
it has in hand, plus one for leaving the wait. -/
def weight : Worker α → Nat
  | Worker.waiting => 1
  | Worker.holding _ => 5
  | Worker.running _ => 4
  | Worker.finished _ => 3
  | Worker.notifying => 2
  | Worker.exited => 0
  | Worker.faulted _ => 0

/-- A bound on the worker steps still to come when nothing is enqueued: five
for every queued task, and the weights of the workers. -/
def rank (p : ThreadPool α) : Nat := 5 * p.tasks.length + (p.workers.map weight).sum

/-- The actions that are steps of the worker loop (line 45 included). -/
def isWorkerStep : Action α → Bool
  | Action.worker _ => true
  | Action.notify _ _ => true
  | _ => false

/-- The task run by some worker raises. -/
def isFault : Action α → Bool
  | Action.fault _ => true
  | _ => false

/-- A worker whose task raised. -/
def hasFaulted : Worker α → Bool
  | Worker.faulted _ => true
  | _ => false

/-- Number of worker steps of a schedule that change the pool (a worker that
finds the predicate of line 28 false and sleeps on does not count). -/
def progress [DecidableEq α] (s : Sys α) : List (Action α) → Nat
  | [] => 0
  | a :: as =>
    match s.step a with
    | none => 0
    | some s1 =>
      (if isWorkerStep a && decide (s1.pool ≠ s.pool) then 1 else 0) + progress s1 as

/-- No step of the worker loop changes the pool any more. -/
def Settled (s : Sys α) : Prop :=
  ∀ (a : Action α) (s1 : Sys α), isWorkerStep a = true → s.step a = some s1 → s1.pool = s.pool

/-- Some worker is still in its loop, or the queue is empty. -/
def Served (s : Sys α) : Prop :=
  (s.pool.workers.all ThreadPool.hasExited = false) ∨ s.pool.tasks = []

/-- The state `loadedState` is taken to by ten steps of the single worker:
both tasks were run, the worker waits again. -/
def finishedState : Sys Nat :=
  { pool :=
      { workers := [Worker.waiting]
        tasks := []
        stop := false
        activeTasks := 0
        done := [] }
    hist := { submitted := [7, 8], dequeued := [7, 8], started := [7, 8], completed := [7, 8] } }

/-- One worker, one task, two threads that call `wait()` while the task is
in the hands of the worker.  The task completes, the counter drops to 0, and
the single `done.notify_one()` of line 45 wakes the first waiter, which finds
the predicate true and returns. -/
def twoWaitersSchedule : List (Action Nat) :=
  [Action.enqueue 7, Action.worker 0, Action.callWait, Action.callWait, Action.worker 0,
   Action.worker 0, Action.worker 0, Action.notify 0 0, Action.recheck 0]

/-- The state `twoWaitersSchedule` leads to from `init 1`: the pool is
quiescent, the worker waits for work, the second waiter is still asleep. -/
def strandedState : Sys Nat :=
  { pool :=
      { workers := [Worker.waiting]
        tasks := []
        stop := false
        activeTasks := 0
        done := [Waiter.returned, Waiter.blocked] }
    hist := { submitted := [7], dequeued := [7], started := [7], completed := [7] } }

end Sys

/-! ## The same code with the mutex made explicit

The model above takes every block that runs under `mutex` as one step.  The
model below is the code statement by statement, with `mutex` as a field, so
that the locking discipline itself can be stated.  A thread asleep in a
condition variable may wake up at any time, which covers notifications and
spurious wake-ups alike. -/

namespace Locked

/-- A thread: worker `i` of the pool, or the `j`-th call made by a user of
the pool. -/
inductive Tid where
  | worker (i : Nat) : Tid
  | client (j : Nat) : Tid
  deriving DecidableEq, Repr

/-- What a statement does to the mutex. -/
inductive LockOp where
  /-- Construction of a `unique_lock` or `lock_guard`, or the re-lock at the
  end of a wait on a condition variable: blocks until the mutex is free. -/
  | acquire : LockOp
  /-- End of the scope of a lock object, or the unlock at the start of a
  wait on a condition variable. -/
  | release : LockOp
  | keep : LockOp
  deriving DecidableEq, Repr

/-- The data the mutex is there for (lines 79, 85, 86). -/
structure Shared (α : Type u) where
  tasks : List α
  stop : Bool
  activeTasks : Nat
  deriving DecidableEq, Repr

/-- Control point of a worker thread, statement by statement. -/
inductive Line (α : Type u) where
  /-- Before line 26, `std::unique_lock<std::mutex> lock(mutex)`. -/
  | top : Line α
  /-- In `cv.wait` (lines 27-29), about to evaluate the predicate. -/
  | check : Line α
  /-- In `cv.wait`, asleep. -/
  | asleep : Line α
  /-- In `cv.wait`, woken, about to lock the mutex again. -/
  | relock : Line α
  /-- Before line 31, `if (stop && tasks.empty())`. -/
  | test : Line α
  /-- Before lines 34-35, `task = std::move(tasks.front()); tasks.pop()`. -/
  | pop : Line α
  /-- Before line 36, `activeTasks++`. -/
  | count (t : α) : Line α
  /-- Before line 37, the end of the scope of `lock`. -/
  | unlock1 (t : α) : Line α
  /-- In line 39, `task()`. -/
  | call (t : α) : Line α
  /-- Before line 42, `std::lock_guard<std::mutex> lock(mutex)`. -/
  | lock2 : Line α
  /-- Before line 43, `activeTasks--`. -/
  | dec : Line α
  /-- Before line 44, the end of the scope of the guard. -/
  | unlock2 : Line α
  /-- Before line 45, `done.notify_one()`. -/
  | notify : Line α
  /-- After the `return` of line 32. -/
  | gone : Line α
  deriving DecidableEq, Repr

/-- Control point of a thread inside `enqueue(t)`, `~ThreadPool()` or `wait()`. -/
inductive Client (α : Type u) where
  /-- Before line 64, the guard of `enqueue`. -/
  | eLock (t : α) : Client α
  /-- Before line 65, `tasks.push(std::move(task))`. -/
  | ePush (t : α) : Client α
  /-- Before line 66, the end of the scope of the guard. -/
  | eUnlock : Client α
  /-- Before line 67, `cv.notify_one()`. -/
  | eNotify : Client α
  /-- Before line 53, the guard of the destructor. -/
  | dLock : Client α
  /-- Before line 54, `stop = true`. -/
  | dSet : Client α
  /-- Before line 55, the end of the scope of the guard. -/
  | dUnlock : Client α
  /-- Before line 56, `cv.notify_all()`. -/
  | dNotify : Client α
  /-- In lines 57-58, joining the workers. -/
  | dJoin : Client α
  /-- Before line 72, the lock of `wait`. -/
  | wLock : Client α
  /-- In `done.wait` (lines 73-74), about to evaluate the predicate. -/
  | wCheck : Client α
  /-- In `done.wait`, asleep. -/
  | wAsleep : Client α
  /-- In `done.wait`, woken, about to lock the mutex again. -/
  | wRelock : Client α
  /-- Before line 75, the end of `wait` and of the scope of its lock. -/
  | wExit : Client α
  /-- The call has returned. -/
  | finished : Client α
  deriving DecidableEq, Repr

variable {α : Type u}

/-- The next statement of a worker: the control point it leads to, what it
does to the mutex and what it does to the shared data.  `none` when the worker
has no next statement. -/
def workerOp (d : Shared α) : Line α → Option (Line α × LockOp × Shared α)
  | Line.top => some (Line.check, LockOp.acquire, d)
  | Line.check =>
    if d.stop || !d.tasks.isEmpty then some (Line.test, LockOp.keep, d)
    else some (Line.asleep, LockOp.release, d)
  | Line.asleep => some (Line.relock, LockOp.keep, d)
  | Line.relock => some (Line.check, LockOp.acquire, d)
  | Line.test =>
    if d.stop && d.tasks.isEmpty then some (Line.gone, LockOp.release, d)
    else some (Line.pop, LockOp.keep, d)
  | Line.pop =>
    match d.tasks with
    | [] => none
    | t :: rest => some (Line.count t, LockOp.keep, { d with tasks := rest })
  | Line.count t =>
    some (Line.unlock1 t, LockOp.keep, { d with activeTasks := ThreadPool.incr d.activeTasks })
  | Line.unlock1 t => some (Line.call t, LockOp.release, d)
  | Line.call _ => some (Line.lock2, LockOp.keep, d)
  | Line.lock2 => some (Line.dec, LockOp.acquire, d)
  | Line.dec =>
    some (Line.unlock2, LockOp.keep, { d with activeTasks := ThreadPool.decr d.activeTasks })
  | Line.unlock2 => some (Line.notify, LockOp.release, d)
  | Line.notify => some (Line.top, LockOp.keep, d)
  | Line.gone => none

/-- The next statement of a client; `joinable` tells whether every worker
thread has returned. -/
def clientOp (d : Shared α) (joinable : Bool) : Client α → Option (Client α × LockOp × Shared α)
  | Client.eLock t => some (Client.ePush t, LockOp.acquire, d)
  | Client.ePush t => some (Client.eUnlock, LockOp.keep, { d with tasks := d.tasks ++ [t] })
  | Client.eUnlock => some (Client.eNotify, LockOp.release, d)
  | Client.eNotify => some (Client.finished, LockOp.keep, d)
  | Client.dLock => some (Client.dSet, LockOp.acquire, d)
  | Client.dSet => some (Client.dUnlock, LockOp.keep, { d with stop := true })
  | Client.dUnlock => some (Client.dNotify, LockOp.release, d)
  | Client.dNotify => some (Client.dJoin, LockOp.keep, d)
  | Client.dJoin => if joinable then some (Client.finished, LockOp.keep, d) else none
  | Client.wLock => some (Client.wCheck, LockOp.acquire, d)
  | Client.wCheck =>
    if d.tasks.isEmpty && d.activeTasks == 0 then some (Client.wExit, LockOp.keep, d)
    else some (Client.wAsleep, LockOp.release, d)
  | Client.wAsleep => some (Client.wRelock, LockOp.keep, d)
  | Client.wRelock => some (Client.wCheck, LockOp.acquire, d)
  | Client.wExit => some (Client.finished, LockOp.release, d)
  | Client.finished => none

/-- The control points of a worker at which it owns the mutex. -/
def Line.holds : Line α → Bool
  | Line.check => true
  | Line.test => true
  | Line.pop => true
  | Line.count _ => true
  | Line.unlock1 _ => true
  | Line.dec => true
  | Line.unlock2 => true
  | _ => false

/-- The control points of a client at which it owns the mutex. -/
def Client.holds : Client α → Bool
  | Client.ePush _ => true
  | Client.eUnlock => true
  | Client.dSet => true
  | Client.dUnlock => true
  | Client.wCheck => true
  | Client.wExit => true
  | _ => false

/-- The first control point of a call of `enqueue`, the destructor or `wait`. -/
def Client.entry : Client α → Bool
  | Client.eLock _ => true
  | Client.dLock => true
  | Client.wLock => true
  | _ => false

/-- The pool with its mutex and the control point of every thread. -/
structure State (α : Type u) where
  mutex : Option Tid
  shared : Shared α
  workers : List (Line α)
  clients : List (Client α)
  deriving DecidableEq, Repr

/-- The steps of the system: a thread executes its next statement, or a new
call is made. -/
inductive Event (α : Type u) where
  | exec (x : Tid) : Event α
  | invoke (c : Client α) : Event α
  deriving DecidableEq, Repr

/-- The mutex after a statement of thread `x`; `none` when the statement has
to wait for the mutex. -/
def lockAfter (m : Option Tid) (x : Tid) : LockOp → Option (Option Tid)
  | LockOp.acquire => if m = none then some (some x) else none
  | LockOp.release => some none
  | LockOp.keep => some m

/-- All worker threads have returned. -/
def joinable (s : State α) : Bool :=
  s.workers.all (fun w => match w with
    | Line.gone => true
    | _ => false)

/-- The state after the constructor. -/
def start (threadCount : Nat) : State α :=
  { mutex := none
    shared := { tasks := [], stop := false, activeTasks := 0 }
    workers := List.replicate (ThreadPool.effectiveThreadCount threadCount) Line.top
    clients := [] }

/-- One step; `none` when the thread does not exist, has no next statement or
has to wait for the mutex, or when the new call does not start at its
beginning. -/
def step (s : State α) : Event α → Option (State α)
  | Event.exec (Tid.worker i) =>
    match s.workers[i]? with
    | none => none
    | some w =>
      match workerOp s.shared w with
      | none => none
      | some (w1, op, d1) =>
        match lockAfter s.mutex (Tid.worker i) op with
        | none => none
        | some m => some { s with mutex := m, shared := d1, workers := s.workers.set i w1 }
  | Event.exec (Tid.client j) =>
    match s.clients[j]? with
    | none => none
    | some c =>
      match clientOp s.shared (joinable s) c with
      | none => none
      | some (c1, op, d1) =>
        match lockAfter s.mutex (Tid.client j) op with
        | none => none
        | some m => some { s with mutex := m, shared := d1, clients := s.clients.set j c1 }
  | Event.invoke c => if c.entry then some { s with clients := s.clients ++ [c] } else none

/-- Run a sequence of events. -/
def run (s : State α) : List (Event α) → Option (State α)
  | [] => some s
  | e :: es =>
    match step s e with
    | none => none
    | some s1 => run s1 es

/-- States reachable from a pool constructed with `threadCount`. -/
def Reachable (threadCount : Nat) (s : State α) : Prop :=
  ∃ es : List (Event α), run (start threadCount) es = some s

/-- The threads of one kind (their control points `l`, numbered by `tag`) are
inside a locked scope exactly when they own the mutex `m`. -/
def Owns {β : Type u} (hold : β → Bool) (tag : Nat → Tid) (l : List β) (m : Option Tid) : Prop :=
  ∀ k b, l[k]? = some b → (hold b = true ↔ m = some (tag k))

/-- What a statement of thread `x` can do to the mutex: nothing, take it
when it is free, or give it back when `x` has it. -/
def Handover (m m1 : Option Tid) (x : Tid) : Prop :=
  m1 = m ∨ (m = none ∧ m1 = some x) ∨ (m = some x ∧ m1 = none)

/-- Mutual exclusion: a thread is at a control point inside a locked scope
exactly when it is the owner of the mutex, and the owner is a client that
exists. -/
def Exclusive (s : State α) : Prop :=
  Owns Line.holds Tid.worker s.workers s.mutex ∧
    Owns Client.holds Tid.client s.clients s.mutex ∧
    (∀ j, s.mutex = some (Tid.client j) → j < s.clients.length)

/-- A run with two workers and two calls of `enqueue`, both completed: worker
0 has taken task 7 and is inside its body, worker 1 has taken task 8, owns the
mutex and is about to count it. -/
def sampleEvents : List (Event Nat) :=
  [Event.invoke (Client.eLock 7)] ++ List.replicate 4 (Event.exec (Tid.client 0)) ++
  [Event.invoke (Client.eLock 8)] ++ List.replicate 4 (Event.exec (Tid.client 1)) ++
  List.replicate 6 (Event.exec (Tid.worker 0)) ++ List.replicate 4 (Event.exec (Tid.worker 1))

/-- The state `sampleEvents` leads to from `start 2`. -/
def sampleState : State Nat :=
  { mutex := some (Tid.worker 1)
    shared := { tasks := [], stop := false, activeTasks := 1 }
    workers := [Line.call 7, Line.count 8]
    clients := [Client.finished, Client.finished] }

/-- The state after worker 1 executed line 36 in `sampleState`. -/
def countedState : State Nat :=
  { mutex := some (Tid.worker 1)
    shared := { tasks := [], stop := false, activeTasks := 2 }
    workers := [Line.call 7, Line.unlock1 8]
    clients := [Client.finished, Client.finished] }

end Locked

namespace Sys

variable {α : Type u}

/-- The steps taken by a thread inside `wait()`: the call itself, a wake-up
and the evaluation of the predicate after a wake-up. -/
def isWaitStep : Action α → Bool
  | Action.callWait => true
  | Action.recheck _ => true
  | Action.spurious _ => true
  | _ => false

/-- The state `wokenState` is taken to when its waiter returns and a second
thread calls `wait()`. -/
def observedState : Sys Nat :=
  { wokenState with
    pool := { wokenState.pool with done := [Waiter.returned, Waiter.returned] } }

end Sys

namespace Locked

variable {α : Type u}

/-- The control points of a call of `wait()` (lines 70-75). -/
def Client.inWait : Client α → Bool
  | Client.wLock => true
  | Client.wCheck => true
  | Client.wAsleep => true
  | Client.wRelock => true
  | Client.wExit => true
  | _ => false

end Locked

/-! ## The wait set of `cv`

In the model above a worker at `cv.wait` may evaluate its predicate at any
time.  That takes in every behaviour of the code and is all that safety needs;
for progress the notifications count.  The model below adds the wait set of
`cv`: a worker that finds the predicate of line 28 false is asleep and takes no
step until `cv.notify_one()` (line 67), `cv.notify_all()` (line 56) or a
spurious wake-up takes it out of the wait set.  Both notifications are issued
after the lock was released, so they are steps of their own, and a call of
`enqueue` or a run of the destructor that has left its locked block still owes
its notification. -/

namespace Cv

/-- The pool with its record, and the state of the condition variable `cv`. -/
structure State (α : Type u) where
  sys : Sys α
  /-- The wait set of `cv`: `asleep[i]` tells whether worker `i` is blocked in
  `cv.wait` (line 27). -/
  asleep : List Bool
  /-- Calls of `enqueue` that have pushed their task (lines 63-66) and have
  not executed `cv.notify_one()` (line 67) yet. -/
  notifyOneDue : Nat
  /-- Runs of the destructor that have set `stop` (lines 52-55) and have not
  executed `cv.notify_all()` (line 56) yet. -/
  notifyAllDue : Nat
  deriving DecidableEq, Repr

/-- The steps of the system. -/
inductive Event (α : Type u) where
  /-- A step of the model above: a block of the code that runs under the lock,
  or a step of the task body. -/
  | act (a : Action α) : Event α
  /-- Line 67, `cv.notify_one()`: worker `k` is taken out of the wait set;
  `none` when the wait set is empty and the call has no effect. -/
  | notifyOne (k : Option Nat) : Event α
  /-- Line 56, `cv.notify_all()`: the wait set is emptied. -/
  | notifyAll : Event α
  /-- Worker `i` wakes up in `cv.wait` without a notification. -/
  | spuriousWake (i : Nat) : Event α
  deriving DecidableEq, Repr

variable {α : Type u}

/-- The state after the constructor: every worker is about to evaluate the
predicate of its first `cv.wait`, nobody is asleep. -/
def init (threadCount : Nat) : State α :=
  { sys := Sys.init threadCount
    asleep := List.replicate (ThreadPool.effectiveThreadCount threadCount) false
    notifyOneDue := 0
    notifyAllDue := 0 }

/-- Worker `i` is in the wait set of `cv`. -/
def sleeps (s : State α) (i : Nat) : Bool := s.asleep[i]? == some true

/-- The action is a step of a worker that is asleep in `cv.wait`: it cannot
be taken. -/
def dormant (s : State α) (a : Action α) : Bool :=
  match ThreadPool.actor a with
  | some i => sleeps s i
  | none => false

/-- Lines 27-29, `cv.wait(lock, pred)`: worker `i` is at the wait and the
predicate `stop || !tasks.empty()` is false, so the worker goes to sleep. -/
def goesToSleep (p : ThreadPool α) (i : Nat) : Bool :=
  match p.workers[i]? with
  | some Worker.waiting => !p.workPred
  | _ => false

/-- What a step `a` of the model above, which leads to `x`, does to the
condition variable: `enqueue` and the destructor owe a notification once they
have left their locked block, and a worker whose predicate is false joins the
wait set. -/
def after (s : State α) (x : Sys α) : Action α → State α
  | Action.enqueue _ => { s with sys := x, notifyOneDue := s.notifyOneDue + 1 }
  | Action.shutdown => { s with sys := x, notifyAllDue := s.notifyAllDue + 1 }
  | Action.worker i =>
    { s with sys := x
             asleep := if goesToSleep s.sys.pool i then s.asleep.set i true else s.asleep }
  | _ => { s with sys := x }

/-- The transition function: `none` when the event is not enabled. -/
def step (s : State α) : Event α → Option (State α)
  | Event.act a =>
    if dormant s a then none
    else
      match s.sys.step a with
      | none => none
      | some x => some (after s x a)
  | Event.notifyOne none =>
    if 0 < s.notifyOneDue ∧ s.asleep.contains true = false then
      some { s with notifyOneDue := s.notifyOneDue - 1 }
    else none
  | Event.notifyOne (some k) =>
    if 0 < s.notifyOneDue ∧ sleeps s k = true then
      some { s with asleep := s.asleep.set k false, notifyOneDue := s.notifyOneDue - 1 }
    else none
  | Event.notifyAll =>
    if 0 < s.notifyAllDue then
      some { s with asleep := s.asleep.map (fun _ => false), notifyAllDue := s.notifyAllDue - 1 }
    else none
  | Event.spuriousWake i =>
    if sleeps s i = true then some { s with asleep := s.asleep.set i false } else none

/-- Run a sequence of events; `none` when one of them is not enabled. -/
def run (s : State α) : List (Event α) → Option (State α)
  | [] => some s
  | e :: es =>
    match step s e with
    | none => none
    | some s1 => run s1 es

/-- States reachable from a pool constructed with `threadCount`. -/
def Reachable (threadCount : Nat) (s : State α) : Prop :=
  ∃ es : List (Event α), run (init threadCount) es = some s

/-- The events that need neither a new call nor a failure nor a spurious
wake-up: a step of a worker in its loop, and the notification that a call of
`enqueue` or the destructor still owes. -/
def internal : Event α → Bool
  | Event.act (Action.worker _) => true
  | Event.act (Action.notify _ _) => true
  | Event.notifyOne _ => true
  | Event.notifyAll => true
  | _ => false

/-- A call of `enqueue`. -/
def isPush : Event α → Bool
  | Event.act (Action.enqueue _) => true
  | _ => false

/-- A task body that raises. -/
def isRaise : Event α → Bool
  | Event.act (Action.fault _) => true
  | _ => false

/-- How many more internal events an event can bring about, in a pool of `n`
workers: a call of `enqueue` five steps of a worker, the notification and the
return to sleep of the worker woken; the destructor its notification and one
step of every worker; a spurious wake-up the return to sleep. -/
def credit (n : Nat) : Event α → Nat
  | Event.act (Action.enqueue _) => 7
  | Event.act Action.shutdown => n + 1
  | Event.spuriousWake _ => 1
  | _ => 0

/-- The sum of the credits of a sequence of events. -/
def credits (n : Nat) (es : List (Event α)) : Nat := (es.map (credit n)).sum

/-- A bound on the internal events still to come: the worker steps of the
model above, one for every worker that is awake, two for every notification
owed by `enqueue` and one more than the number of workers for every
notification owed by the destructor. -/
def potential (s : State α) : Nat :=
  Sys.rank s.sys.pool + s.asleep.count false + 2 * s.notifyOneDue +
    (s.asleep.length + 1) * s.notifyAllDue

/-- No internal event is enabled: every thread of the pool is asleep or gone
and no notification is owed. -/
def Halted (s : State α) : Prop :=
  ∀ e : Event α, internal e = true → step s e = none

/-- What links the wait set to the pool. -/
structure Inv (s : State α) : Prop where
  /-- One entry per worker. -/
  len : s.asleep.length = s.sys.pool.workers.length
  /-- A worker in the wait set is at `cv.wait`. -/
  waiting : ∀ i : Nat, s.asleep[i]? = some true → s.sys.pool.workers[i]? = some Worker.waiting
  /-- With `stop` set nobody goes to sleep, and those asleep are owed the
  `notify_all` of the destructor. -/
  stopped : s.sys.pool.stop = true → (∃ i : Nat, s.asleep[i]? = some true) → 0 < s.notifyAllDue
  /-- No lost wake-up: while a task is queued, a `notify_one` is owed, or a
  worker still in its loop is awake, or all workers have left. -/
  queued : s.sys.pool.tasks ≠ [] →
    0 < s.notifyOneDue ∨
      (∃ (i : Nat) (w : Worker α), s.sys.pool.workers[i]? = some w ∧ ThreadPool.hasExited w = false ∧
        s.asleep[i]? = some false) ∨
      s.sys.pool.workers.all ThreadPool.hasExited = true

/-- The steps of the model above that a sequence of events is made of. -/
def acts : List (Event α) → List (Action α)
  | [] => []
  | Event.act a :: es => a :: acts es
  | _ :: es => acts es

/-- A run for one worker: the worker finds nothing to do and goes to sleep;
two tasks are pushed; the first `notify_one` wakes the worker. -/
def wakeEvents : List (Event Nat) :=
  [Event.act (Action.worker 0), Event.act (Action.enqueue 7), Event.act (Action.enqueue 8),
   Event.notifyOne (some 0)]

/-- The state `wakeEvents` leads to from `init 1`: the second `notify_one`
is still owed. -/
def notifiedState : State Nat :=
  { sys := Sys.loadedState, asleep := [false], notifyOneDue := 1, notifyAllDue := 0 }

/-- The second `notify_one` finds the wait set empty; the worker runs both
tasks (five steps each), finds the queue empty and goes to sleep. -/
def serveEvents : List (Event Nat) :=
  Event.notifyOne none :: List.replicate 11 (Event.act (Action.worker 0))

/-- The state `serveEvents` leads to from `notifiedState`. -/
def sleepingState : State Nat :=
  { sys := Sys.finishedState, asleep := [true], notifyOneDue := 0, notifyAllDue := 0 }

/-- The worker sleeps while two tasks are pushed; nothing has woken it yet. -/
def unnotifiedState : State Nat :=
  { sys := Sys.loadedState, asleep := [true], notifyOneDue := 2, notifyAllDue := 0 }

/-- The destructor has set `stop` in `unnotifiedState`. -/
def stoppedState : State Nat :=
  { unnotifiedState with
    sys := { unnotifiedState.sys with pool := unnotifiedState.sys.pool.shutdown }
    notifyAllDue := 1 }

/-- After the destructor set `stop`: its `notify_all` wakes the worker, which
runs both tasks and leaves its loop; the two calls of `enqueue` notify nobody. -/
def drainEvents : List (Event Nat) :=
  Event.notifyAll :: List.replicate 11 (Event.act (Action.worker 0)) ++
    [Event.notifyOne none, Event.notifyOne none]

/-- The state `drainEvents` leads to from `stoppedState`. -/
def joinedState : State Nat :=
  { sys :=
      { pool := { workers := [Worker.exited], tasks := [], stop := true, activeTasks := 0,
                  done := [] }
        hist := { submitted := [7, 8], dequeued := [7, 8], started := [7, 8],
                  completed := [7, 8] } }
    asleep := [false]
    notifyOneDue := 0
    notifyAllDue := 0 }

end Cv

/-! ## The utility functions of `sysinfo.cpp` and `sysinfo.win.cpp`

Unsigned 64-bit arithmetic is arithmetic modulo `2^64` on `Nat`.  A C string
is a list of characters.  The only floating-point computation, in
`formatBytes`, converts an integer to `double` and divides by `1024.0`; the
conversion is rounding to 53 significant bits and the division is exact, so
its values are rationals. -/

namespace SystemInfo

/-- Number of values of `uint64_t`. -/
def UINT64_RANGE : Nat := 2 ^ 64

/-- `static_cast<int>` of an unsigned 64-bit value: the 32-bit two's
complement value congruent to it. -/
def toInt (v : Nat) : Int := (((v + 2 ^ 31) % 2 ^ 32 : Nat) : Int) - 2 ^ 31

/-- `calculatePercentage` (sysinfo.cpp lines 592-595, and the identical
sysinfo.win.cpp lines 1212-1217); `used * 100` is a `uint64_t` product. -/
def calculatePercentage (used total : Nat) : Int :=
  if total = 0 then 0
  else toInt ((used * 100 % UINT64_RANGE) / total)

/-- The conversion `%lu` / `%llu` of `printf`: decimal digits. -/
def decimal (n : Nat) : List Char := Nat.toDigits 10 n

/-- The conversion `%02lu` / `%02llu` of `printf`: decimal digits, padded with
zeros on the left to a width of at least 2. -/
def decimal2 (n : Nat) : List Char :=
  List.replicate (2 - (decimal n).length) '0' ++ decimal n

/-- The function `snprintf(buffer, size, ...)` keeps at most `size - 1`
characters of the formatted text. -/
def snprintf (size : Nat) (text : List Char) : List Char := text.take (size - 1)

/-- `formatUptime` of sysinfo.cpp (lines 561-576). -/
def formatUptime (seconds : Nat) : String :=
  let days := seconds / 86400
  let hours := (seconds % 86400) / 3600
  let minutes := (seconds % 3600) / 60
  if days > 0 then
    String.mk (snprintf 64
      (decimal days ++ "d ".toList ++ decimal2 hours ++ "h ".toList ++ decimal2 minutes ++
        "m".toList))
  else if hours > 0 then
    String.mk (snprintf 64 (decimal hours ++ "h ".toList ++ decimal2 minutes ++ "m".toList))
  else
    String.mk (snprintf 64 (decimal minutes ++ "m".toList))

namespace Win

/-- `formatUptime` of sysinfo.win.cpp (lines 1159-1187). -/
def formatUptime (seconds : Nat) : String :=
  let days := seconds / 86400
  let hours := (seconds % 86400) / 3600
  let minutes := (seconds % 3600) / 60
  let secs := seconds % 60
  if days > 0 then
    String.mk (snprintf 64
      (decimal days ++ "d ".toList ++ decimal2 hours ++ "h ".toList ++ decimal2 minutes ++
        "m ".toList ++ decimal2 secs ++ "s".toList))
  else if hours > 0 then
    String.mk (snprintf 64
      (decimal hours ++ "h ".toList ++ decimal2 minutes ++ "m ".toList ++ decimal2 secs ++
        "s".toList))
  else if minutes > 0 then
    String.mk (snprintf 64 (decimal minutes ++ "m ".toList ++ decimal2 secs ++ "s".toList))
  else
    String.mk (snprintf 64 (decimal secs ++ "s".toList))

end Win

/-- Rounding of `n` to a multiple of `u`, to the nearest one, and to the even
one of two that are equally near. -/
def roundToMultiple (u n : Nat) : Nat :=
  let q := n / u
  let r := n % u
  if u < 2 * r ∨ (2 * r = u ∧ q % 2 = 1) then (q + 1) * u else q * u

/-- `static_cast<double>` of an unsigned integer: the value is kept when it
has at most 53 significant bits and is rounded to 53 significant bits
otherwise. -/
def toDouble (n : Nat) : Nat := roundToMultiple (2 ^ (Nat.log2 n - 52)) n

/-- The table `units` of `formatBytes` (line 542). -/
def units : List String := ["B", "KiB", "MiB", "GiB", "TiB", "PiB"]

/-- The loop of `formatBytes` (lines 546-549):
`while (value >= 1024.0 && unit < 5) { value /= 1024.0; unit++; }`. -/
def scaleLoop (value : ℚ) (unit : Nat) : ℚ × Nat :=
  if 1024 ≤ value ∧ unit < 5 then scaleLoop (value / 1024) (unit + 1) else (value, unit)
termination_by 5 - unit

/-- What `formatBytes` prints: the scaled value, the number of decimals it
is printed with and the suffix read from `units`. -/
structure Formatted where
  value : ℚ
  decimals : Nat
  /-- The entry `units[unit]`; `none` stands for a read outside the table. -/
  suffix : Option String
  deriving DecidableEq

/-- `formatBytes` (sysinfo.cpp lines 541-559), up to the rendering of the
scaled value by `%.2f` or `%.1f`. -/
def formatBytes (bytes : Nat) : Formatted :=
  let r := scaleLoop (toDouble bytes) 0
  if r.1 < 10 ∧ r.2 > 0 then { value := r.1, decimals := 2, suffix := units[r.2]? }
  else { value := r.1, decimals := 1, suffix := units[r.2]? }

/-- The fields of `struct sysinfo` read by `fetchMemoryInfo`. -/
structure SysinfoReading where
  totalram : Nat
  freeram : Nat
  mem_unit : Nat
  deriving DecidableEq, Repr

/-- The structure `Memory` of sysinfo.hpp (lines 57-65). -/
structure Memory where
  total_bytes : Nat
  used_bytes : Nat
  available_bytes : Nat
  free_bytes : Nat
  cached_bytes : Nat
  buffers_bytes : Nat
  usage_percent : Int
  deriving DecidableEq, Repr

/-- `Fetcher::fetchMemoryInfo` (sysinfo.cpp lines 255-265); `reading` is what
`sysinfo(&si)` delivered, `none` when the call failed. -/
def fetchMemoryInfo (reading : Option SysinfoReading) (memory : Memory) : Memory :=
  match reading with
  | none => memory
  | some si =>
    let total := si.totalram * si.mem_unit % UINT64_RANGE
    let free := si.freeram * si.mem_unit % UINT64_RANGE
    let used := ((total + UINT64_RANGE - free) % UINT64_RANGE) / 2
    { memory with
      total_bytes := total
      free_bytes := free
      used_bytes := used
      available_bytes := free
      usage_percent := if total > 0 then toInt ((used * 100 % UINT64_RANGE) / total) else 0 }

/-- The default-initialised `Memory` (all fields 0). -/
def Memory.zero : Memory :=
  { total_bytes := 0, used_bytes := 0, available_bytes := 0, free_bytes := 0,
    cached_bytes := 0, buffers_bytes := 0, usage_percent := 0 }

end SystemInfo

/-! # Proofs -/

variable {α : Type u}

/-! ## Lists with one position replaced -/

theorem split_at_index {β : Type u} {l : List β} {i : Nat} {w : β} (h : l[i]? = some w) :
    ∃ l1 l2, l = l1 ++ w :: l2 ∧ ∀ v, l.set i v = l1 ++ v :: l2 := by
  induction l generalizing i with
  | nil => simp at h
  | cons x xs ih =>
    cases i with
    | zero =>
      simp at h
      subst h
      exact ⟨[], xs, rfl, fun v => rfl⟩
    | succ n =>
      simp at h
      obtain ⟨l1, l2, h1, h2⟩ := ih h
      refine ⟨x :: l1, l2, by simp [h1], fun v => ?_⟩
      simp [h2 v]

theorem coe_insert {β : Type u} {x c A B : List β} (t : β)
    (h : (x : Multiset β) = (c : Multiset β) + ((A ++ B : List β) : Multiset β)) :
    ((x ++ [t] : List β) : Multiset β) = (c : Multiset β) + ((A ++ t :: B : List β) : Multiset β) := by
  rw [← Multiset.coe_add, h]
  simp only [← Multiset.coe_add, ← Multiset.singleton_add, ← Multiset.cons_coe]
  abel

theorem coe_move {β : Type u} {x c A B : List β} (t : β)
    (h : (x : Multiset β) = (c : Multiset β) + ((A ++ t :: B : List β) : Multiset β)) :
    (x : Multiset β) = ((c ++ [t] : List β) : Multiset β) + ((A ++ B : List β) : Multiset β) := by
  rw [h]
  simp only [← Multiset.coe_add, ← Multiset.singleton_add, ← Multiset.cons_coe]
  abel

namespace Sys

/-! ## Runs -/

theorem run_append (s : Sys α) (as bs : List (Action α)) :
    run s (as ++ bs) = (run s as).bind (fun s1 => run s1 bs) := by
  induction as generalizing s with
  | nil => rfl
  | cons a as ih =>
    simp only [List.cons_append, run]
    cases s.step a with
    | none => rfl
    | some s1 => exact ih s1

theorem run_preserves (P : Sys α → Prop)
    (hstep : ∀ s a s1, P s → s.step a = some s1 → P s1) :
    ∀ (as : List (Action α)) (s s1 : Sys α), P s → run s as = some s1 → P s1 := by
  intro as
  induction as with
  | nil =>
    intro s s1 hP h
    simp [run] at h
    exact h ▸ hP
  | cons a as ih =>
    intro s s1 hP h
    simp only [run] at h
    cases hs : s.step a with
    | none => simp [hs] at h
    | some s2 =>
      rw [hs] at h
      exact ih s2 s1 (hstep s a s2 hP hs) h

theorem step_eq_some {s s1 : Sys α} {a : Action α} (h : s.step a = some s1) :
    ∃ p, s.pool.step a = some p ∧ s1 = { pool := p, hist := s.hist.record s.pool a } := by
  unfold step at h
  cases hp : s.pool.step a with
  | none => simp [hp] at h
  | some p =>
    rw [hp] at h
    exact ⟨p, rfl, (Option.some.inj h).symm⟩

end Sys

namespace ThreadPool

theorem incr_mod (b : Nat) : incr (b % SIZE_RANGE) = (b + 1) % SIZE_RANGE := by
  unfold incr SIZE_RANGE
  omega

theorem decr_mod (b : Nat) : decr ((b + 1) % SIZE_RANGE) = b % SIZE_RANGE := by
  unfold decr SIZE_RANGE
  omega

end ThreadPool

namespace Sys

open ThreadPool

theorem inv_init (threadCount : Nat) : Inv (init threadCount : Sys α) := by
  refine ⟨rfl, ?_, ?_, ?_, ?_⟩
  · simp [init, History.empty, held, create, heldBy]
  · simp [init, History.empty, bodies, create, inBody]
  · simp [init, busyCount, create, busy, List.countP_replicate]
  · simp [init, create, hasExited]

/-- Replacing the control point of one worker by another one that holds the
same task, is as busy and has not left the loop keeps the invariant, whatever
happens to the wait set. -/
theorem inv_set_worker {s : Sys α} {i : Nat} {w v : Worker α} {d : List Waiter}
    (hI : Inv s) (hw : s.pool.workers[i]? = some w)
    (h1 : heldBy v = heldBy w) (h2 : inBody v = inBody w) (h3 : busy v = busy w)
    (h4 : hasExited v = false) :
    Inv { pool := { s.pool with workers := s.pool.workers.set i v, done := d }, hist := s.hist } := by
  obtain ⟨⟨workers, tasks, stop, act, done⟩, hist⟩ := s
  obtain ⟨l1, l2, hl, hset⟩ := split_at_index hw
  obtain ⟨hfifo, hdeq, hrun, hact, hexit⟩ := hI
  simp only at hl hset hfifo hdeq hrun hact hexit
  subst hl
  simp only [hset]
  refine ⟨hfifo, ?_, ?_, ?_, ?_⟩
  · simp only [held, List.filterMap_append, List.filterMap_cons, h1] at hdeq ⊢
    exact hdeq
  · simp only [bodies, List.filterMap_append, List.filterMap_cons, h2] at hrun ⊢
    exact hrun
  · simp only [busyCount, List.countP_append, List.countP_cons, h3] at hact ⊢
    exact hact
  · intro hx
    apply hexit
    simp only [List.any_append, List.any_cons, h4, Bool.false_or, Bool.or_eq_true] at hx ⊢
    rcases hx with h | h
    · exact Or.inl h
    · exact Or.inr (Or.inr h)

theorem inv_step {s s1 : Sys α} {a : Action α} (hI : Inv s) (h : s.step a = some s1) :
    Inv s1 := by
  obtain ⟨p, hp, rfl⟩ := step_eq_some h
  cases a with
  | enqueue t =>
    obtain ⟨hfifo, hdeq, hrun, hact, hexit⟩ := hI
    simp only [ThreadPool.step, Option.some.injEq] at hp
    subst hp
    refine ⟨?_, hdeq, hrun, hact, hexit⟩
    simp [History.record, ThreadPool.enqueue, ← hfifo]
  | shutdown =>
    obtain ⟨hfifo, hdeq, hrun, hact, hexit⟩ := hI
    simp only [ThreadPool.step, Option.some.injEq] at hp
    subst hp
    exact ⟨hfifo, hdeq, hrun, hact, fun _ => rfl⟩
  | callWait =>
    obtain ⟨hfifo, hdeq, hrun, hact, hexit⟩ := hI
    simp only [ThreadPool.step, Option.some.injEq] at hp
    subst hp
    exact ⟨hfifo, hdeq, hrun, hact, hexit⟩
  | recheck j =>
    obtain ⟨hfifo, hdeq, hrun, hact, hexit⟩ := hI
    simp only [ThreadPool.step, recheckStep] at hp
    split at hp
    · simp only [Option.some.injEq] at hp
      subst hp
      exact ⟨hfifo, hdeq, hrun, hact, hexit⟩
    · simp at hp
  | spurious j =>
    obtain ⟨hfifo, hdeq, hrun, hact, hexit⟩ := hI
    simp only [ThreadPool.step, spuriousStep] at hp
    split at hp
    · simp only [Option.some.injEq] at hp
      subst hp
      exact ⟨hfifo, hdeq, hrun, hact, hexit⟩
    · simp at hp
  | notify i j =>
    simp only [ThreadPool.step, notifyStep] at hp
    split at hp
    · rename_i hw hj
      simp only [Option.some.injEq] at hp
      subst hp
      exact inv_set_worker hI hw rfl rfl rfl rfl
    · simp at hp
  | fault i =>
    simp only [ThreadPool.step, faultStep] at hp
    split at hp
    · rename_i t hw
      simp only [Option.some.injEq] at hp
      subst hp
      exact inv_set_worker hI hw rfl rfl rfl rfl
    · simp at hp
  | worker i =>
    simp only [ThreadPool.step, workerStep] at hp
    clear h
    cases hw : s.pool.workers[i]? with
    | none => simp [hw] at hp
    | some w =>
      obtain ⟨⟨workers, tasks, stop, act, done⟩, ⟨sub, deq, st, comp⟩⟩ := s
      obtain ⟨l1, l2, hl, hset⟩ := split_at_index hw
      obtain ⟨hfifo, hdeq, hrun, hact, hexit⟩ := hI
      simp only at hl hset hfifo hdeq hrun hact hexit hw hp
      simp only [History.record, hw]
      subst hl
      cases w with
      | waiting =>
        simp only [hw, Option.some.injEq, wake] at hp
        subst hp
        by_cases hc : (stop && tasks.isEmpty) = true
        · simp only [hc, if_true, hset]
          have hstop : stop = true := by
            simp only [Bool.and_eq_true] at hc
            exact hc.1
          simp only [held, bodies, busyCount, heldBy, inBody, busy, hasExited,
            List.filterMap_append, List.filterMap_cons, List.countP_append, List.countP_cons,
            List.any_append, List.any_cons, Bool.false_eq_true, if_false, if_true,
            Bool.false_or, Nat.add_zero] at hdeq hrun hact hexit
          refine ⟨?_, ?_, ?_, ?_, ?_⟩
          · exact hfifo
          · simp only [held, bodies, busyCount, heldBy, inBody, busy, hasExited,
            List.filterMap_append, List.filterMap_cons, List.countP_append, List.countP_cons,
            List.any_append, List.any_cons, Bool.false_eq_true, if_false, if_true,
            Bool.false_or, Nat.add_zero]
            exact hdeq
          · simp only [held, bodies, busyCount, heldBy, inBody, busy, hasExited,
            List.filterMap_append, List.filterMap_cons, List.countP_append, List.countP_cons,
            List.any_append, List.any_cons, Bool.false_eq_true, if_false, if_true,
            Bool.false_or, Nat.add_zero]
            exact hrun
          · simp only [held, bodies, busyCount, heldBy, inBody, busy, hasExited,
            List.filterMap_append, List.filterMap_cons, List.countP_append, List.countP_cons,
            List.any_append, List.any_cons, Bool.false_eq_true, if_false, if_true,
            Bool.false_or, Nat.add_zero]
            exact hact
          · simp only [held, bodies, busyCount, heldBy, inBody, busy, hasExited,
            List.filterMap_append, List.filterMap_cons, List.countP_append, List.countP_cons,
            List.any_append, List.any_cons, Bool.false_eq_true, if_false, if_true,
            Bool.false_or, Nat.add_zero]
            exact fun _ => hstop
        · simp only [hc, Bool.false_eq_true, if_false]
          cases tasks with
          | nil => exact ⟨hfifo, hdeq, hrun, hact, hexit⟩
          | cons t rest =>
            simp only [hset]
            simp only [held, bodies, busyCount, heldBy, inBody, busy, hasExited,
              List.filterMap_append, List.filterMap_cons, List.countP_append, List.countP_cons,
              List.any_append, List.any_cons, Bool.false_eq_true, if_false, if_true,
              Bool.false_or, Nat.add_zero] at hdeq hrun hact hexit
            refine ⟨?_, ?_, ?_, ?_, ?_⟩
            · simpa using hfifo
            · simp only [held, bodies, busyCount, heldBy, inBody, busy, hasExited,
              List.filterMap_append, List.filterMap_cons, List.countP_append, List.countP_cons,
              List.any_append, List.any_cons, Bool.false_eq_true, if_false, if_true,
              Bool.false_or, Nat.add_zero]
              exact coe_insert t hdeq
            · simp only [held, bodies, busyCount, heldBy, inBody, busy, hasExited,
              List.filterMap_append, List.filterMap_cons, List.countP_append, List.countP_cons,
              List.any_append, List.any_cons, Bool.false_eq_true, if_false, if_true,
              Bool.false_or, Nat.add_zero]
              exact hrun
            · simp only [held, bodies, busyCount, heldBy, inBody, busy, hasExited,
              List.filterMap_append, List.filterMap_cons, List.countP_append, List.countP_cons,
              List.any_append, List.any_cons, Bool.false_eq_true, if_false, if_true,
              Bool.false_or, Nat.add_zero]
              rw [hact, incr_mod, Nat.add_assoc]
            · simp only [held, bodies, busyCount, heldBy, inBody, busy, hasExited,
              List.filterMap_append, List.filterMap_cons, List.countP_append, List.countP_cons,
              List.any_append, List.any_cons, Bool.false_eq_true, if_false, if_true,
              Bool.false_or, Nat.add_zero]
              exact hexit
      | holding t =>
        simp only [hw, Option.some.injEq] at hp
        subst hp
        simp only [hset]
        simp only [held, bodies, busyCount, heldBy, inBody, busy, hasExited,
          List.filterMap_append, List.filterMap_cons, List.countP_append, List.countP_cons,
          List.any_append, List.any_cons, Bool.false_eq_true, if_false, if_true,
          Bool.false_or, Nat.add_zero] at hdeq hrun hact hexit
        refine ⟨?_, ?_, ?_, ?_, ?_⟩
        · exact hfifo
        · simp only [held, bodies, busyCount, heldBy, inBody, busy, hasExited,
          List.filterMap_append, List.filterMap_cons, List.countP_append, List.countP_cons,
          List.any_append, List.any_cons, Bool.false_eq_true, if_false, if_true,
          Bool.false_or, Nat.add_zero]
          exact hdeq
        · simp only [held, bodies, busyCount, heldBy, inBody, busy, hasExited,
          List.filterMap_append, List.filterMap_cons, List.countP_append, List.countP_cons,
          List.any_append, List.any_cons, Bool.false_eq_true, if_false, if_true,
          Bool.false_or, Nat.add_zero]
          exact coe_insert t hrun
        · simp only [held, bodies, busyCount, heldBy, inBody, busy, hasExited,
          List.filterMap_append, List.filterMap_cons, List.countP_append, List.countP_cons,
          List.any_append, List.any_cons, Bool.false_eq_true, if_false, if_true,
          Bool.false_or, Nat.add_zero]
          exact hact
        · simp only [held, bodies, busyCount, heldBy, inBody, busy, hasExited,
          List.filterMap_append, List.filterMap_cons, List.countP_append, List.countP_cons,
          List.any_append, List.any_cons, Bool.false_eq_true, if_false, if_true,
          Bool.false_or, Nat.add_zero]
          exact hexit
      | running t =>
        simp only [hw, Option.some.injEq] at hp
        subst hp
        simp only [hset]
        simp only [held, bodies, busyCount, heldBy, inBody, busy, hasExited,
          List.filterMap_append, List.filterMap_cons, List.countP_append, List.countP_cons,
          List.any_append, List.any_cons, Bool.false_eq_true, if_false, if_true,
          Bool.false_or, Nat.add_zero] at hdeq hrun hact hexit
        refine ⟨?_, ?_, ?_, ?_, ?_⟩
        · exact hfifo
        · simp only [held, bodies, busyCount, heldBy, inBody, busy, hasExited,
          List.filterMap_append, List.filterMap_cons, List.countP_append, List.countP_cons,
          List.any_append, List.any_cons, Bool.false_eq_true, if_false, if_true,
          Bool.false_or, Nat.add_zero]
          exact coe_move t hdeq
        · simp only [held, bodies, busyCount, heldBy, inBody, busy, hasExited,
          List.filterMap_append, List.filterMap_cons, List.countP_append, List.countP_cons,
          List.any_append, List.any_cons, Bool.false_eq_true, if_false, if_true,
          Bool.false_or, Nat.add_zero]
          exact coe_move t hrun
        · simp only [held, bodies, busyCount, heldBy, inBody, busy, hasExited,
          List.filterMap_append, List.filterMap_cons, List.countP_append, List.countP_cons,
          List.any_append, List.any_cons, Bool.false_eq_true, if_false, if_true,
          Bool.false_or, Nat.add_zero]
          exact hact
        · simp only [held, bodies, busyCount, heldBy, inBody, busy, hasExited,
          List.filterMap_append, List.filterMap_cons, List.countP_append, List.countP_cons,
          List.any_append, List.any_cons, Bool.false_eq_true, if_false, if_true,
          Bool.false_or, Nat.add_zero]
          exact hexit
      | finished t =>
        simp only [hw, Option.some.injEq] at hp
        subst hp
        simp only [hset]
        simp only [held, bodies, busyCount, heldBy, inBody, busy, hasExited,
          List.filterMap_append, List.filterMap_cons, List.countP_append, List.countP_cons,
          List.any_append, List.any_cons, Bool.false_eq_true, if_false, if_true,
          Bool.false_or, Nat.add_zero] at hdeq hrun hact hexit
        refine ⟨?_, ?_, ?_, ?_, ?_⟩
        · exact hfifo
        · simp only [held, bodies, busyCount, heldBy, inBody, busy, hasExited,
          List.filterMap_append, List.filterMap_cons, List.countP_append, List.countP_cons,
          List.any_append, List.any_cons, Bool.false_eq_true, if_false, if_true,
          Bool.false_or, Nat.add_zero]
          exact hdeq
        · simp only [held, bodies, busyCount, heldBy, inBody, busy, hasExited,
          List.filterMap_append, List.filterMap_cons, List.countP_append, List.countP_cons,
          List.any_append, List.any_cons, Bool.false_eq_true, if_false, if_true,
          Bool.false_or, Nat.add_zero]
          exact hrun
        · simp only [held, bodies, busyCount, heldBy, inBody, busy, hasExited,
          List.filterMap_append, List.filterMap_cons, List.countP_append, List.countP_cons,
          List.any_append, List.any_cons, Bool.false_eq_true, if_false, if_true,
          Bool.false_or, Nat.add_zero]
          rw [hact, ← Nat.add_assoc, decr_mod]
        · simp only [held, bodies, busyCount, heldBy, inBody, busy, hasExited,
          List.filterMap_append, List.filterMap_cons, List.countP_append, List.countP_cons,
          List.any_append, List.any_cons, Bool.false_eq_true, if_false, if_true,
          Bool.false_or, Nat.add_zero]
          exact hexit
      | notifying =>
        simp only [hw] at hp
        split at hp
        · simp at hp
        · simp only [Option.some.injEq] at hp
          subst hp
          simp only [hset]
          simp only [held, bodies, busyCount, heldBy, inBody, busy, hasExited,
            List.filterMap_append, List.filterMap_cons, List.countP_append, List.countP_cons,
            List.any_append, List.any_cons, Bool.false_eq_true, if_false, if_true,
            Bool.false_or, Nat.add_zero] at hdeq hrun hact hexit
          refine ⟨?_, ?_, ?_, ?_, ?_⟩
          · exact hfifo
          · simp only [held, bodies, busyCount, heldBy, inBody, busy, hasExited,
            List.filterMap_append, List.filterMap_cons, List.countP_append, List.countP_cons,
            List.any_append, List.any_cons, Bool.false_eq_true, if_false, if_true,
            Bool.false_or, Nat.add_zero]
            exact hdeq
          · simp only [held, bodies, busyCount, heldBy, inBody, busy, hasExited,
            List.filterMap_append, List.filterMap_cons, List.countP_append, List.countP_cons,
            List.any_append, List.any_cons, Bool.false_eq_true, if_false, if_true,
            Bool.false_or, Nat.add_zero]
            exact hrun
          · simp only [held, bodies, busyCount, heldBy, inBody, busy, hasExited,
            List.filterMap_append, List.filterMap_cons, List.countP_append, List.countP_cons,
            List.any_append, List.any_cons, Bool.false_eq_true, if_false, if_true,
            Bool.false_or, Nat.add_zero]
            exact hact
          · simp only [held, bodies, busyCount, heldBy, inBody, busy, hasExited,
            List.filterMap_append, List.filterMap_cons, List.countP_append, List.countP_cons,
            List.any_append, List.any_cons, Bool.false_eq_true, if_false, if_true,
            Bool.false_or, Nat.add_zero]
            exact hexit
      | exited => simp [hw] at hp
      | faulted t => simp [hw] at hp

/-! ## Facts about every reachable state -/

theorem reachable_inv {threadCount : Nat} {s : Sys α} (h : Reachable threadCount s) : Inv s := by
  obtain ⟨as, has⟩ := h
  exact run_preserves Inv (fun _ _ _ hI hs => inv_step hI hs) as _ s (inv_init threadCount) has

theorem pool_step_workers_length {p p1 : ThreadPool α} {a : Action α} (h : p.step a = some p1) :
    p1.workers.length = p.workers.length := by
  cases a with
  | enqueue t => simp only [ThreadPool.step, Option.some.injEq] at h; subst h; rfl
  | shutdown => simp only [ThreadPool.step, Option.some.injEq] at h; subst h; rfl
  | callWait => simp only [ThreadPool.step, Option.some.injEq] at h; subst h; rfl
  | recheck j =>
    simp only [ThreadPool.step, recheckStep] at h
    split at h
    · simp only [Option.some.injEq] at h; subst h; rfl
    · simp at h
  | spurious j =>
    simp only [ThreadPool.step, spuriousStep] at h
    split at h
    · simp only [Option.some.injEq] at h; subst h; rfl
    · simp at h
  | notify i j =>
    simp only [ThreadPool.step, notifyStep] at h
    split at h
    · simp only [Option.some.injEq] at h; subst h; simp
    · simp at h
  | fault i =>
    simp only [ThreadPool.step, faultStep] at h
    split at h
    · simp only [Option.some.injEq] at h; subst h; simp
    · simp at h
  | worker i =>
    simp only [ThreadPool.step, workerStep] at h
    split at h
    · simp at h
    · simp only [Option.some.injEq] at h
      subst h
      unfold wake
      split
      · simp
      · split <;> simp
    · simp only [Option.some.injEq] at h; subst h; simp
    · simp only [Option.some.injEq] at h; subst h; simp
    · simp only [Option.some.injEq] at h; subst h; simp
    · split at h
      · simp at h
      · simp only [Option.some.injEq] at h; subst h; simp
    · simp at h
    · simp at h

theorem reachable_workers_length {threadCount : Nat} {s : Sys α} (h : Reachable threadCount s) :
    s.pool.workers.length = effectiveThreadCount threadCount := by
  obtain ⟨as, has⟩ := h
  refine run_preserves (fun s => s.pool.workers.length = effectiveThreadCount threadCount)
    ?_ as _ s ?_ has
  · intro s a s1 hP hs
    obtain ⟨p, hp, rfl⟩ := step_eq_some hs
    simp only
    rw [pool_step_workers_length hp]
    exact hP
  · simp [init, create]

theorem effectiveThreadCount_lt {threadCount : Nat} (h : threadCount < SIZE_RANGE) :
    effectiveThreadCount threadCount < SIZE_RANGE := by
  unfold effectiveThreadCount SIZE_RANGE at *
  omega

theorem busyCount_le (p : ThreadPool α) : busyCount p ≤ p.workers.length :=
  List.countP_le_length _

/-- With a worker count that fits `size_t`, the counter is the number of busy
workers, without wrap-around. -/
theorem reachable_active_eq {threadCount : Nat} (hK : threadCount < SIZE_RANGE) {s : Sys α}
    (h : Reachable threadCount s) : s.pool.activeTasks = busyCount s.pool := by
  have h1 := (reachable_inv h).active
  have h2 := busyCount_le s.pool
  rw [reachable_workers_length h] at h2
  have h3 := effectiveThreadCount_lt hK
  rw [h1]
  exact Nat.mod_eq_of_lt (lt_of_le_of_lt h2 h3)

theorem held_eq_nil_of_busyCount {p : ThreadPool α} (h : busyCount p = 0) : held p = [] := by
  unfold busyCount at h
  unfold held
  rw [List.countP_eq_zero] at h
  rw [List.filterMap_eq_nil_iff]
  intro w hw
  have := h w hw
  cases w <;> simp_all [busy, heldBy]

theorem bodies_eq_nil_of_busyCount {p : ThreadPool α} (h : busyCount p = 0) : bodies p = [] := by
  unfold busyCount at h
  unfold bodies
  rw [List.countP_eq_zero] at h
  rw [List.filterMap_eq_nil_iff]
  intro w hw
  have := h w hw
  cases w <;> simp_all [busy, inBody]

/-! ## Schedules restricted to some actions -/

theorem run_preserves_on (P : Sys α → Prop) (Q : Action α → Prop)
    (hstep : ∀ s a s1, Q a → P s → s.step a = some s1 → P s1) :
    ∀ (as : List (Action α)) (s s1 : Sys α), (∀ a ∈ as, Q a) → P s → run s as = some s1 → P s1 := by
  intro as
  induction as with
  | nil =>
    intro s s1 _ hP h
    simp [run] at h
    exact h ▸ hP
  | cons a as ih =>
    intro s s1 hQ hP h
    simp only [run] at h
    cases hs : s.step a with
    | none => simp [hs] at h
    | some s2 =>
      rw [hs] at h
      exact ih s2 s1 (fun b hb => hQ b (List.mem_cons_of_mem _ hb))
        (hstep s a s2 (hQ a (List.mem_cons_self _ _)) hP hs) h

theorem submissions_eq_nil {as : List (Action α)} (h : ∀ a ∈ as, isEnqueue a = false) :
    submissions as = [] := by
  induction as with
  | nil => rfl
  | cons a as ih =>
    have ha := h a (List.mem_cons_self _ _)
    have ih1 := ih (fun b hb => h b (List.mem_cons_of_mem _ hb))
    cases a <;> simp_all [submissions, isEnqueue]

theorem submissions_append (as bs : List (Action α)) :
    submissions (as ++ bs) = submissions as ++ submissions bs := by
  induction as with
  | nil => rfl
  | cons a as ih => cases a <;> simp [submissions, ih]

theorem step_submitted {s s1 : Sys α} {a : Action α} (h : s.step a = some s1) :
    s1.hist.submitted = s.hist.submitted ++ submissions [a] := by
  obtain ⟨p, _, rfl⟩ := step_eq_some h
  cases a with
  | enqueue t => simp [History.record, submissions]
  | worker i =>
    simp only [History.record, submissions, List.append_nil]
    split
    · split
      · rfl
      · split <;> rfl
    · rfl
    · rfl
    · rfl
  | fault i => simp [History.record, submissions]
  | notify i j => simp [History.record, submissions]
  | shutdown => simp [History.record, submissions]
  | callWait => simp [History.record, submissions]
  | recheck j => simp [History.record, submissions]
  | spurious j => simp [History.record, submissions]

theorem run_submitted : ∀ (as : List (Action α)) (s s1 : Sys α), run s as = some s1 →
    s1.hist.submitted = s.hist.submitted ++ submissions as := by
  intro as
  induction as with
  | nil =>
    intro s s1 h
    simp [run] at h
    simp [h, submissions]
  | cons a as ih =>
    intro s s1 h
    simp only [run] at h
    cases hs : s.step a with
    | none => simp [hs] at h
    | some s2 =>
      rw [hs] at h
      rw [ih s2 s1 h, step_submitted hs, List.append_assoc, ← submissions_append]
      rfl

/-! ## The stop flag and draining -/

theorem pool_step_stop {p p1 : ThreadPool α} {a : Action α} (h : p.step a = some p1)
    (ha : isShutdown a = false) : p1.stop = p.stop := by
  cases a with
  | enqueue t => simp only [ThreadPool.step, Option.some.injEq] at h; subst h; rfl
  | shutdown => simp [isShutdown] at ha
  | callWait => simp only [ThreadPool.step, Option.some.injEq] at h; subst h; rfl
  | recheck j =>
    simp only [ThreadPool.step, recheckStep] at h
    split at h
    · simp only [Option.some.injEq] at h; subst h; rfl
    · simp at h
  | spurious j =>
    simp only [ThreadPool.step, spuriousStep] at h
    split at h
    · simp only [Option.some.injEq] at h; subst h; rfl
    · simp at h
  | notify i j =>
    simp only [ThreadPool.step, notifyStep] at h
    split at h
    · simp only [Option.some.injEq] at h; subst h; rfl
    · simp at h
  | fault i =>
    simp only [ThreadPool.step, faultStep] at h
    split at h
    · simp only [Option.some.injEq] at h; subst h; rfl
    · simp at h
  | worker i =>
    simp only [ThreadPool.step, workerStep] at h
    split at h
    · simp at h
    · simp only [Option.some.injEq] at h
      subst h
      unfold wake
      split
      · rfl
      · split <;> rfl
    · simp only [Option.some.injEq] at h; subst h; rfl
    · simp only [Option.some.injEq] at h; subst h; rfl
    · simp only [Option.some.injEq] at h; subst h; rfl
    · split at h
      · simp at h
      · simp only [Option.some.injEq] at h; subst h; rfl
    · simp at h
    · simp at h

theorem any_exited_of_set {l : List (Worker α)} {i : Nat} {w v : Worker α}
    (hw : l[i]? = some w) (hv : hasExited v = false)
    (h : (l.set i v).any hasExited = true) : l.any hasExited = true := by
  obtain ⟨l1, l2, hl, hset⟩ := split_at_index hw
  rw [hset] at h
  subst hl
  simp only [List.any_append, List.any_cons, hv, Bool.false_or, Bool.or_eq_true] at h ⊢
  rcases h with h | h
  · exact Or.inl h
  · exact Or.inr (Or.inr h)

theorem draining_step {s s1 : Sys α} {a : Action α} (ha : isEnqueue a = false)
    (hD : Draining s) (h : s.step a = some s1) : Draining s1 := by
  obtain ⟨p, hp, rfl⟩ := step_eq_some h
  obtain ⟨hstop, hq⟩ := hD
  unfold Draining
  simp only
  cases a with
  | enqueue t => simp [isEnqueue] at ha
  | shutdown =>
    simp only [ThreadPool.step, Option.some.injEq] at hp; subst hp
    exact ⟨rfl, hq⟩
  | callWait =>
    simp only [ThreadPool.step, Option.some.injEq] at hp; subst hp
    exact ⟨hstop, hq⟩
  | recheck j =>
    simp only [ThreadPool.step, recheckStep] at hp
    split at hp
    · simp only [Option.some.injEq] at hp; subst hp
      exact ⟨hstop, hq⟩
    · simp at hp
  | spurious j =>
    simp only [ThreadPool.step, spuriousStep] at hp
    split at hp
    · simp only [Option.some.injEq] at hp; subst hp
      exact ⟨hstop, hq⟩
    · simp at hp
  | notify i j =>
    simp only [ThreadPool.step, notifyStep] at hp
    split at hp
    · rename_i hw _
      simp only [Option.some.injEq] at hp; subst hp
      exact ⟨hstop, fun hx => hq (any_exited_of_set hw (by rfl) hx)⟩
    · simp at hp
  | fault i =>
    simp only [ThreadPool.step, faultStep] at hp
    split at hp
    · rename_i hw
      simp only [Option.some.injEq] at hp; subst hp
      exact ⟨hstop, fun hx => hq (any_exited_of_set hw (by rfl) hx)⟩
    · simp at hp
  | worker i =>
    simp only [ThreadPool.step, workerStep] at hp
    split at hp
    · simp at hp
    · rename_i hw
      simp only [Option.some.injEq] at hp
      subst hp
      unfold wake
      split
      · rename_i hc
        simp only [Bool.and_eq_true, List.isEmpty_iff] at hc
        exact ⟨hstop, fun _ => hc.2⟩
      · split
        · exact ⟨hstop, hq⟩
        · rename_i t rest ht
          refine ⟨hstop, fun hx => ?_⟩
          have := hq (any_exited_of_set hw (by rfl) hx)
          rw [ht] at this
          simp at this
    · rename_i hw
      simp only [Option.some.injEq] at hp; subst hp
      exact ⟨hstop, fun hx => hq (any_exited_of_set hw (by rfl) hx)⟩
    · rename_i hw
      simp only [Option.some.injEq] at hp; subst hp
      exact ⟨hstop, fun hx => hq (any_exited_of_set hw (by rfl) hx)⟩
    · rename_i hw
      simp only [Option.some.injEq] at hp; subst hp
      exact ⟨hstop, fun hx => hq (any_exited_of_set hw (by rfl) hx)⟩
    · rename_i hw
      split at hp
      · simp at hp
      · simp only [Option.some.injEq] at hp; subst hp
        exact ⟨hstop, fun hx => hq (any_exited_of_set hw (by rfl) hx)⟩
    · simp at hp
    · simp at hp

end Sys

/-! # The claims -/

namespace Sys

open ThreadPool

theorem busyState_reachable : Reachable 2 busyState := ⟨busySchedule, by decide⟩

theorem wokenState_reachable : Reachable 1 wokenState := ⟨wakeSchedule, by decide⟩

theorem quietState_reachable : Reachable 1 quietState :=
  ⟨wakeSchedule ++ [Action.recheck 0], by decide⟩

/-- C3 (FIFO dequeue order): in every reachable state, the tasks dequeued so
far, in dequeue order, followed by the current content of the queue, are
exactly the tasks enqueued so far, in enqueue order. -/
theorem fifo_dequeue_order (threadCount : Nat) (s : Sys α) (h : Reachable threadCount s) :
    s.hist.dequeued ++ s.pool.tasks = s.hist.submitted :=
  (reachable_inv h).fifo

theorem fifo_dequeue_order_witness :
    Reachable 2 busyState ∧
      busyState.hist.dequeued ++ busyState.pool.tasks = busyState.hist.submitted :=
  ⟨busyState_reachable, fifo_dequeue_order 2 busyState busyState_reachable⟩

/-- C5 (parallelism bound): in every reachable state of a pool with `K`
effective workers, the number of tasks being executed, the number of busy
workers and the value of `activeTasks` are all at most `K`. -/
theorem parallelism_bound (threadCount : Nat) (s : Sys α) (h : Reachable threadCount s) :
    executingCount s.pool ≤ effectiveThreadCount threadCount ∧
      busyCount s.pool ≤ effectiveThreadCount threadCount ∧
      s.pool.activeTasks ≤ effectiveThreadCount threadCount := by
  have hlen := reachable_workers_length h
  have hb : busyCount s.pool ≤ effectiveThreadCount threadCount := hlen ▸ busyCount_le s.pool
  refine ⟨?_, hb, ?_⟩
  · rw [← hlen]
    exact List.countP_le_length _
  · rw [(reachable_inv h).active]
    exact le_trans (Nat.mod_le _ _) hb

theorem parallelism_bound_witness :
    Reachable 2 busyState ∧
      executingCount busyState.pool ≤ effectiveThreadCount 2 ∧
      busyCount busyState.pool ≤ effectiveThreadCount 2 ∧
      busyState.pool.activeTasks ≤ effectiveThreadCount 2 :=
  ⟨busyState_reachable, parallelism_bound 2 busyState busyState_reachable⟩

end Sys

namespace ThreadPool

/-- C6 (clamping): for every requested `threadCount` the constructor creates
exactly `max 1 threadCount` workers, all waiting at `cv.wait`; for
`threadCount = 0` that is exactly one worker. -/
theorem create_worker_count (threadCount : Nat) :
    (create threadCount : ThreadPool α).workers.length = max 1 threadCount ∧
      (∀ w ∈ (create threadCount : ThreadPool α).workers, w = Worker.waiting) ∧
      (create 0 : ThreadPool α).workers = [Worker.waiting] := by
  refine ⟨?_, ?_, rfl⟩
  · simp [create, effectiveThreadCount]
  · intro w hw
    simp only [create, List.mem_replicate] at hw
    exact hw.2

/-- C9 (enqueue): in every pool state, also with `stop` set, `enqueue t` is
enabled and yields the state whose queue is the old queue with `t` at the
tail; `stop`, `activeTasks`, the workers and the wait set are unchanged. -/
theorem enqueue_appends (p : ThreadPool α) (t : α) :
    ∃ p1, p.step (Action.enqueue t) = some p1 ∧
      p1.tasks = p.tasks ++ [t] ∧ p1.stop = p.stop ∧ p1.activeTasks = p.activeTasks ∧
      p1.workers = p.workers ∧ p1.done = p.done :=
  ⟨p.enqueue t, rfl, rfl, rfl, rfl, rfl, rfl⟩

/-- C10 (exit condition): a step of a waiting worker `i` is always defined
and makes the worker leave its loop if and only if `stop` is set and the
queue is empty.  With a non-empty queue (`stop` set or not) the worker takes
the head task: the queue loses its head, `activeTasks` is incremented and the
worker holds that task.  With an empty queue and `stop` clear the pool state
is unchanged, so the worker is still waiting. -/
theorem waiting_worker_step (p : ThreadPool α) (i : Nat)
    (hw : p.workers[i]? = some Worker.waiting) :
    ∃ p1, p.step (Action.worker i) = some p1 ∧
      (p1.workers[i]? = some Worker.exited ↔ (p.stop = true ∧ p.tasks = [])) ∧
      (∀ t rest, p.tasks = t :: rest →
        p1 = { p with workers := p.workers.set i (Worker.holding t), tasks := rest,
                      activeTasks := incr p.activeTasks }) ∧
      (p.tasks = [] → p.stop = false → p1 = p) := by
  have hi : i < p.workers.length := by
    rcases Nat.lt_or_ge i p.workers.length with h | h
    · exact h
    · rw [List.getElem?_eq_none h] at hw
      simp at hw
  refine ⟨wake p i, ?_, ?_, ?_, ?_⟩
  · simp only [ThreadPool.step, workerStep, hw]
  · unfold wake
    cases hs : p.stop <;> cases ht : p.tasks <;> simp [hi, hw]
  · intro t rest ht
    simp [wake, ht]
  · intro ht hs
    simp [wake, ht, hs]

theorem waiting_worker_step_witness :
    ∃ p1, (create 1 : ThreadPool Nat).shutdown.step (Action.worker 0) = some p1 ∧
      (p1.workers[0]? = some Worker.exited ↔
        ((create 1 : ThreadPool Nat).shutdown.stop = true ∧
          (create 1 : ThreadPool Nat).shutdown.tasks = [])) ∧
      (∀ t rest, (create 1 : ThreadPool Nat).shutdown.tasks = t :: rest →
        p1 = { (create 1 : ThreadPool Nat).shutdown with
                workers := (create 1 : ThreadPool Nat).shutdown.workers.set 0 (Worker.holding t),
                tasks := rest,
                activeTasks := incr (create 1 : ThreadPool Nat).shutdown.activeTasks }) ∧
      ((create 1 : ThreadPool Nat).shutdown.tasks = [] →
        (create 1 : ThreadPool Nat).shutdown.stop = false → p1 = (create 1 : ThreadPool Nat).shutdown) :=
  waiting_worker_step (create 1 : ThreadPool Nat).shutdown 0 rfl

end ThreadPool

namespace Sys

open ThreadPool

theorem waitPred_iff (p : ThreadPool α) :
    p.waitPred = true ↔ p.tasks = [] ∧ p.activeTasks = 0 := by
  simp [waitPred, List.isEmpty_iff]

theorem not_busy_of_busyCount {p : ThreadPool α} (h : busyCount p = 0) :
    ∀ w ∈ p.workers, busy w = false := by
  unfold busyCount at h
  rw [List.countP_eq_zero] at h
  intro w hw
  simpa using h w hw

/-- C1 (no lost or duplicated work): in every reachable state the submitted
tasks are, as a multiset, the tasks in the queue together with the tasks held
by workers and the completed tasks, so each submission sits in exactly one of
the three places and exactly once (for pairwise distinct tasks the three lists
together have no repetition).  In a state where the predicate of `wait()`
holds, nothing is queued or held, and both the started and the completed tasks
are a rearrangement of the submitted ones: each ran exactly once. -/
theorem no_lost_or_duplicated_work (threadCount : Nat) (hK : threadCount < SIZE_RANGE)
    (s : Sys α) (h : Reachable threadCount s) :
    s.hist.submitted.Perm (s.pool.tasks ++ held s.pool ++ s.hist.completed) ∧
      (s.hist.submitted.Nodup → (s.pool.tasks ++ held s.pool ++ s.hist.completed).Nodup) ∧
      (s.pool.waitPred = true →
        s.pool.tasks = [] ∧ held s.pool = [] ∧
        s.hist.submitted.Perm s.hist.started ∧ s.hist.submitted.Perm s.hist.completed) := by
  have hI := reachable_inv h
  have hperm : s.hist.submitted.Perm (s.pool.tasks ++ held s.pool ++ s.hist.completed) := by
    rw [← hI.fifo, ← Multiset.coe_eq_coe]
    simp only [← Multiset.coe_add, hI.deq]
    abel
  refine ⟨hperm, fun hn => hperm.nodup_iff.mp hn, ?_⟩
  intro hq
  obtain ⟨ht, ha⟩ := (waitPred_iff _).mp hq
  have hb : busyCount s.pool = 0 := by rw [← reachable_active_eq hK h]; exact ha
  have hheld := held_eq_nil_of_busyCount hb
  have hbod := bodies_eq_nil_of_busyCount hb
  have hdeq := hI.deq
  have hrun := hI.run
  rw [hheld] at hdeq
  rw [hbod] at hrun
  have hfifo := hI.fifo
  rw [ht, List.append_nil] at hfifo
  have h1 : s.hist.submitted.Perm s.hist.completed := by
    rw [← hfifo, ← Multiset.coe_eq_coe, hdeq]
    simp
  refine ⟨ht, hheld, ?_, h1⟩
  refine h1.trans ?_
  rw [← Multiset.coe_eq_coe, hrun]
  simp

theorem no_lost_or_duplicated_work_witness :
    quietState.hist.submitted.Perm
        (quietState.pool.tasks ++ held quietState.pool ++ quietState.hist.completed) ∧
      (quietState.pool.tasks ++ held quietState.pool ++ quietState.hist.completed).Nodup ∧
      (quietState.pool.tasks = [] ∧ held quietState.pool = [] ∧
        quietState.hist.submitted.Perm quietState.hist.started ∧
        quietState.hist.submitted.Perm quietState.hist.completed) :=
  have h := no_lost_or_duplicated_work 1 (by decide) quietState quietState_reachable
  ⟨h.1, h.2.1 (by decide), h.2.2 (by decide)⟩

/-- A step that makes a waiter return evaluates the predicate of `wait()` to
true and changes nothing but the wait set. -/
theorem returns_only_when_quiet {p p1 : ThreadPool α} {a : Action α} {j : Nat}
    (hs : p.step a = some p1) (hr : returnsAt p p1 j) :
    p.waitPred = true ∧ p1.tasks = p.tasks ∧ p1.activeTasks = p.activeTasks ∧
      p1.workers = p.workers ∧ p1.stop = p.stop := by
  obtain ⟨hr0, hr1⟩ := hr
  cases a with
  | enqueue t =>
    simp only [ThreadPool.step, Option.some.injEq] at hs; subst hs
    exact absurd hr1 hr0
  | shutdown =>
    simp only [ThreadPool.step, Option.some.injEq] at hs; subst hs
    exact absurd hr1 hr0
  | worker i =>
    have hd : p1.done = p.done := by
      simp only [ThreadPool.step, workerStep] at hs
      split at hs
      · simp at hs
      · simp only [Option.some.injEq] at hs
        subst hs
        unfold wake
        split
        · rfl
        · split <;> rfl
      · simp only [Option.some.injEq] at hs; subst hs; rfl
      · simp only [Option.some.injEq] at hs; subst hs; rfl
      · simp only [Option.some.injEq] at hs; subst hs; rfl
      · split at hs
        · simp at hs
        · simp only [Option.some.injEq] at hs; subst hs; rfl
      · simp at hs
      · simp at hs
    rw [hd] at hr1
    exact absurd hr1 hr0
  | fault i =>
    simp only [ThreadPool.step, faultStep] at hs
    split at hs
    · simp only [Option.some.injEq] at hs; subst hs
      exact absurd hr1 hr0
    · simp at hs
  | notify i k =>
    simp only [ThreadPool.step, notifyStep] at hs
    split at hs
    · simp only [Option.some.injEq] at hs; subst hs
      simp only at hr1
      rw [List.getElem?_set] at hr1
      split at hr1
      · split at hr1 <;> simp at hr1
      · exact absurd hr1 hr0
    · simp at hs
  | spurious k =>
    simp only [ThreadPool.step, spuriousStep] at hs
    split at hs
    · simp only [Option.some.injEq] at hs; subst hs
      simp only at hr1
      rw [List.getElem?_set] at hr1
      split at hr1
      · split at hr1 <;> simp at hr1
      · exact absurd hr1 hr0
    · simp at hs
  | callWait =>
    simp only [ThreadPool.step, Option.some.injEq] at hs; subst hs
    refine ⟨?_, rfl, rfl, rfl, rfl⟩
    simp only [ThreadPool.callWait] at hr1
    by_contra hq
    simp only [hq, Bool.false_eq_true, if_false] at hr1
    rcases Nat.lt_or_ge j p.done.length with hlt | hge
    · rw [List.getElem?_append_left hlt] at hr1
      exact hr0 hr1
    · rw [List.getElem?_append_right hge] at hr1
      cases hj : j - p.done.length with
      | zero => simp [hj] at hr1
      | succ n => simp [hj] at hr1
  | recheck k =>
    simp only [ThreadPool.step, recheckStep] at hs
    split at hs
    · simp only [Option.some.injEq] at hs; subst hs
      refine ⟨?_, rfl, rfl, rfl, rfl⟩
      simp only at hr1
      rw [List.getElem?_set] at hr1
      split at hr1
      · split at hr1
        · by_contra hq
          simp [hq] at hr1
        · simp at hr1
      · exact absurd hr1 hr0
    · simp at hs

/-- C2 (quiescence correctness): a step of a reachable state at which some
call of `wait()` returns is taken in a state whose queue is empty and whose
`activeTasks` is 0, and it leaves the queue, the counter and the workers as
they are; and in a reachable state with `activeTasks = 0` no worker is between
its dequeue and its decrement.  So at the moment `wait()` returns no task is
queued and none is in the hands of a worker. -/
theorem quiescence_correctness (threadCount : Nat) (hK : threadCount < SIZE_RANGE)
    (s s1 : Sys α) (a : Action α) (j : Nat) (h : Reachable threadCount s)
    (hs : s.step a = some s1) (hr : returnsAt s.pool s1.pool j) :
    (s.pool.tasks = [] ∧ s.pool.activeTasks = 0 ∧ ∀ w ∈ s.pool.workers, busy w = false) ∧
      (s1.pool.tasks = [] ∧ s1.pool.activeTasks = 0 ∧ ∀ w ∈ s1.pool.workers, busy w = false) ∧
      ∀ s2 : Sys α, Reachable threadCount s2 → s2.pool.activeTasks = 0 →
        ∀ w ∈ s2.pool.workers, busy w = false := by
  have hquiet : ∀ s2 : Sys α, Reachable threadCount s2 → s2.pool.activeTasks = 0 →
      ∀ w ∈ s2.pool.workers, busy w = false := by
    intro s2 h2 ha
    apply not_busy_of_busyCount
    rw [← reachable_active_eq hK h2]
    exact ha
  obtain ⟨p, hp, rfl⟩ := step_eq_some hs
  obtain ⟨hq, h1, h2, h3, _⟩ := returns_only_when_quiet hp hr
  obtain ⟨ht, ha⟩ := (waitPred_iff _).mp hq
  simp only at h1 h2 h3 hr ⊢
  refine ⟨⟨ht, ha, hquiet s h ha⟩, ?_, hquiet⟩
  rw [h1, h2, h3]
  exact ⟨ht, ha, hquiet s h ha⟩

theorem quiescence_correctness_witness :
    (wokenState.pool.tasks = [] ∧ wokenState.pool.activeTasks = 0 ∧
        ∀ w ∈ wokenState.pool.workers, busy w = false) ∧
      (quietState.pool.tasks = [] ∧ quietState.pool.activeTasks = 0 ∧
        ∀ w ∈ quietState.pool.workers, busy w = false) ∧
      ∀ w ∈ quietState.pool.workers, busy w = false :=
  have h := quiescence_correctness 1 (by decide) wokenState quietState (Action.recheck 0) 0
    wokenState_reachable (by decide) ⟨by decide, by decide⟩
  ⟨h.1, h.2.1, h.2.2 quietState quietState_reachable (by decide)⟩

theorem run_append_eq_some {s s2 : Sys α} {as bs : List (Action α)}
    (h : run s (as ++ bs) = some s2) : ∃ s1, run s as = some s1 ∧ run s1 bs = some s2 := by
  rw [run_append] at h
  cases h1 : run s as with
  | none => simp [h1] at h
  | some s1 =>
    rw [h1] at h
    exact ⟨s1, rfl, h⟩

theorem stop_false_of_no_shutdown {threadCount : Nat} {as : List (Action α)} {s : Sys α}
    (hno : ∀ a ∈ as, isShutdown a = false) (h : run (init threadCount) as = some s) :
    s.pool.stop = false := by
  refine run_preserves_on (fun s => s.pool.stop = false) (fun a => isShutdown a = false)
    ?_ as _ s hno rfl h
  intro s a s1 ha hP hs
  obtain ⟨p, hp, rfl⟩ := step_eq_some hs
  simp only
  rw [pool_step_stop hp ha]
  exact hP

theorem busyCount_of_joined {p : ThreadPool α} (h : p.joined = true) : busyCount p = 0 := by
  unfold joined at h
  unfold busyCount
  rw [List.all_eq_true] at h
  rw [List.countP_eq_zero]
  intro w hw
  have := h w hw
  cases w <;> simp_all [hasExited, busy]

theorem any_exited_of_joined {p : ThreadPool α} (h : p.joined = true)
    (hne : 0 < p.workers.length) : p.workers.any hasExited = true := by
  unfold joined at h
  cases hws : p.workers with
  | nil => simp [hws] at hne
  | cons w ws =>
    rw [hws] at h
    simp only [List.all_cons, Bool.and_eq_true] at h
    simp [h.1]

/-- C4 (graceful shutdown drains the queue): take any schedule in which the
tasks `submissions pre` are enqueued before the destructor sets `stop` and
nothing is enqueued afterwards.  In every state this schedule can reach in
which all workers have left their loop (so that the joins of the destructor
return), the queue is empty, `activeTasks` is 0, and the started and the
completed tasks are exactly the submitted ones, each once. -/
theorem graceful_shutdown_drains (threadCount : Nat) (pre post : List (Action α)) (s : Sys α)
    (hpre : ∀ a ∈ pre, isShutdown a = false) (hpost : ∀ a ∈ post, isEnqueue a = false)
    (hrun : run (init threadCount) (pre ++ Action.shutdown :: post) = some s)
    (hj : s.pool.joined = true) :
    s.pool.tasks = [] ∧ s.pool.activeTasks = 0 ∧ s.hist.submitted = submissions pre ∧
      (submissions pre).Perm s.hist.started ∧ (submissions pre).Perm s.hist.completed := by
  have hreach : Reachable threadCount s := ⟨_, hrun⟩
  have hI := reachable_inv hreach
  have hlen := reachable_workers_length hreach
  obtain ⟨s0, h0, h1⟩ := run_append_eq_some hrun
  have hI0 : Inv s0 := reachable_inv ⟨pre, h0⟩
  have hstop0 := stop_false_of_no_shutdown hpre h0
  have hD : Draining s := by
    refine run_preserves_on Draining (fun a => isEnqueue a = false)
      (fun s a s1 ha hP hs => draining_step ha hP hs) post _ s hpost ?_ h1
    refine ⟨rfl, fun hx => ?_⟩
    have := hI0.exit hx
    rw [hstop0] at this
    exact absurd this (by decide)
  have hpos : 0 < s.pool.workers.length := by
    rw [hlen]
    unfold effectiveThreadCount
    omega
  have ht : s.pool.tasks = [] := hD.2 (any_exited_of_joined hj hpos)
  have hb := busyCount_of_joined hj
  have ha : s.pool.activeTasks = 0 := by
    rw [hI.active, hb]
    rfl
  have hsub : s.hist.submitted = submissions pre := by
    have := run_submitted _ _ _ hrun
    rw [submissions_append] at this
    have hp : submissions (Action.shutdown :: post) = [] := by
      show submissions post = []
      exact submissions_eq_nil hpost
    rw [hp] at this
    simpa [init, History.empty] using this
  have hfifo := hI.fifo
  rw [ht, List.append_nil] at hfifo
  have hdeq := hI.deq
  have hbod := hI.run
  rw [held_eq_nil_of_busyCount hb] at hdeq
  rw [bodies_eq_nil_of_busyCount hb] at hbod
  have hc : (submissions pre).Perm s.hist.completed := by
    rw [← hsub, ← hfifo, ← Multiset.coe_eq_coe, hdeq]
    simp
  refine ⟨ht, ha, hsub, ?_, hc⟩
  refine hc.trans ?_
  rw [← Multiset.coe_eq_coe, hbod]
  simp

theorem graceful_shutdown_drains_witness :
    drainedState.pool.tasks = [] ∧ drainedState.pool.activeTasks = 0 ∧
      drainedState.hist.submitted = submissions drainPre ∧
      (submissions drainPre).Perm drainedState.hist.started ∧
      (submissions drainPre).Perm drainedState.hist.completed :=
  graceful_shutdown_drains 1 drainPre drainPost drainedState (by decide) (by decide)
    (by decide) (by decide)

/-! ## A pool with a single worker -/

theorem single_init (threadCount : Nat) (h : threadCount ≤ 1) :
    Single (init threadCount : Sys α) := by
  have he : effectiveThreadCount threadCount = 1 := by
    unfold effectiveThreadCount
    omega
  exact ⟨Worker.waiting, by simp [init, create, he], rfl, rfl⟩

theorem single_step {s s1 : Sys α} {a : Action α} (hS : Single s) (h : s.step a = some s1) :
    Single s1 := by
  obtain ⟨p, hp, rfl⟩ := step_eq_some h
  obtain ⟨w, hw, hd, hst⟩ := hS
  obtain ⟨⟨workers, tasks, stop, act, done⟩, ⟨sub, deq, st, comp⟩⟩ := s
  simp only at hw hd hst hp
  subst hw
  clear h
  cases a with
  | enqueue t =>
    simp only [ThreadPool.step, Option.some.injEq] at hp; subst hp
    exact ⟨w, rfl, hd, hst⟩
  | shutdown =>
    simp only [ThreadPool.step, Option.some.injEq] at hp; subst hp
    exact ⟨w, rfl, hd, hst⟩
  | callWait =>
    simp only [ThreadPool.step, Option.some.injEq] at hp; subst hp
    exact ⟨w, rfl, hd, hst⟩
  | recheck j =>
    simp only [ThreadPool.step, recheckStep] at hp
    split at hp
    · simp only [Option.some.injEq] at hp; subst hp
      exact ⟨w, rfl, hd, hst⟩
    · simp at hp
  | spurious j =>
    simp only [ThreadPool.step, spuriousStep] at hp
    split at hp
    · simp only [Option.some.injEq] at hp; subst hp
      exact ⟨w, rfl, hd, hst⟩
    · simp at hp
  | notify i j =>
    cases i with
    | succ n => simp [ThreadPool.step, notifyStep] at hp
    | zero =>
      simp only [ThreadPool.step, notifyStep, List.getElem?_cons_zero] at hp
      split at hp
      · rename_i hw0 _
        simp only [Option.some.injEq] at hp hw0
        subst hp hw0
        exact ⟨Worker.waiting, rfl, hd, hst⟩
      · simp at hp
  | fault i =>
    cases i with
    | succ n => simp [ThreadPool.step, faultStep] at hp
    | zero =>
      simp only [ThreadPool.step, faultStep, List.getElem?_cons_zero] at hp
      split at hp
      · rename_i t hw0
        simp only [Option.some.injEq] at hp hw0
        subst hp hw0
        exact ⟨Worker.faulted t, rfl, hd, hst⟩
      · simp at hp
  | worker i =>
    cases i with
    | succ n => simp [ThreadPool.step, workerStep] at hp
    | zero =>
      simp only [ThreadPool.step, workerStep, List.getElem?_cons_zero] at hp
      cases w with
      | waiting =>
        simp only [Option.some.injEq, wake] at hp
        subst hp
        simp only [pending, entered, List.append_nil] at hd hst
        by_cases hc : (stop && tasks.isEmpty) = true
        · exact ⟨Worker.exited, by simp [hc], by simp [History.record, hc, pending, hd],
            by simp [History.record, hc, entered, hst]⟩
        · cases tasks with
          | nil =>
            have hs : stop = false := by simpa using hc
            subst hs
            exact ⟨Worker.waiting, by simp, by simp [History.record, pending, hd],
              by simp [History.record, entered, hst]⟩
          | cons t rest =>
            exact ⟨Worker.holding t, by simp [hc], by simp [History.record, hc, pending, hd],
              by simp [History.record, hc, entered, hst]⟩
      | holding t =>
        simp only [Option.some.injEq] at hp
        subst hp
        simp only [pending, entered, List.append_nil] at hd hst
        exact ⟨Worker.running t, by simp, by simp [History.record, pending, hd],
          by simp [History.record, entered, hst]⟩
      | running t =>
        simp only [Option.some.injEq] at hp
        subst hp
        simp only [pending, entered, List.append_nil] at hd hst
        exact ⟨Worker.finished t, by simp, by simp [History.record, pending, hd],
          by simp [History.record, entered, hst]⟩
      | finished t =>
        simp only [Option.some.injEq] at hp
        subst hp
        simp only [pending, entered, List.append_nil] at hd hst
        exact ⟨Worker.notifying, by simp, by simp [History.record, pending, hd],
          by simp [History.record, entered, hst]⟩
      | notifying =>
        simp only at hp
        split at hp
        · simp at hp
        · simp only [Option.some.injEq] at hp
          subst hp
          simp only [pending, entered, List.append_nil] at hd hst
          exact ⟨Worker.waiting, by simp, by simp [History.record, pending, hd],
            by simp [History.record, entered, hst]⟩
      | exited => simp at hp
      | faulted t => simp at hp

/-- C8 (one worker, sequential submission): in every reachable state of a pool
with exactly one worker, the tasks started so far and the tasks completed so
far, each in the order in which that happened, are initial segments of the
sequence of submissions (the completed ones an initial segment of the started
ones); when the predicate of `wait()` holds, both sequences are the whole
sequence of submissions.  So tasks start and complete in submission order. -/
theorem single_worker_order (threadCount : Nat) (hone : threadCount ≤ 1) (s : Sys α)
    (h : Reachable threadCount s) :
    s.hist.completed <+: s.hist.started ∧ s.hist.started <+: s.hist.submitted ∧
      (s.pool.waitPred = true →
        s.hist.started = s.hist.submitted ∧ s.hist.completed = s.hist.submitted) := by
  have hS : Single s := by
    obtain ⟨as, has⟩ := h
    exact run_preserves Single (fun _ _ _ hP hs => single_step hP hs) as _ s
      (single_init threadCount hone) has
  have hK : threadCount < SIZE_RANGE := by
    unfold SIZE_RANGE
    omega
  have hI := reachable_inv h
  obtain ⟨w, hw, hd, hst⟩ := hS
  have hfifo := hI.fifo
  refine ⟨⟨entered w, hst.symm⟩, ⟨pending w ++ s.pool.tasks, ?_⟩, ?_⟩
  · rw [← hfifo, hd, List.append_assoc]
  · intro hq
    obtain ⟨ht, ha⟩ := (waitPred_iff _).mp hq
    have hb : busyCount s.pool = 0 := by rw [← reachable_active_eq hK h]; exact ha
    have hw0 := not_busy_of_busyCount hb w (by rw [hw]; exact List.mem_singleton_self w)
    have hp : pending w = [] := by cases w <;> simp_all [busy, pending]
    have he : entered w = [] := by cases w <;> simp_all [busy, entered]
    rw [hp, List.append_nil] at hd
    rw [he, List.append_nil] at hst
    rw [ht, List.append_nil] at hfifo
    exact ⟨by rw [← hfifo, hd], by rw [← hfifo, hd, hst]⟩

theorem single_worker_order_witness :
    serialState.hist.completed <+: serialState.hist.started ∧
      serialState.hist.started <+: serialState.hist.submitted ∧
      (serialState.pool.waitPred = true →
        serialState.hist.started = serialState.hist.submitted ∧
        serialState.hist.completed = serialState.hist.submitted) :=
  single_worker_order 1 (by decide) serialState ⟨serialSchedule, by decide⟩

end Sys

namespace ThreadPool

theorem create_length (threadCount : Nat) :
    (create threadCount : ThreadPool α).workers.length = max 1 threadCount := by
  simp only [create, effectiveThreadCount, List.length_replicate]

theorem toSizeT_neg (n : Int) (hn : n < 0) (hlo : -(2 ^ 63) ≤ n) :
    (toSizeT n : Int) = 2 ^ 64 + n := by
  unfold toSizeT SIZE_RANGE
  have h2 : ((2 ^ 64 : Nat) : Int) = 18446744073709551616 := by norm_num
  rw [h2]
  omega

theorem toSizeT_neg_one : toSizeT (-1) = 18446744073709551615 := by
  unfold toSizeT SIZE_RANGE
  rfl

/-- C7, as the code has it: a requested thread count of 0 is clamped to 1 by
line 16, and the pool gets exactly one worker.  A negative `n` (of a signed
64-bit type) handed to the `size_t` parameter arrives as `2^64 + n`, and
`std::max<size_t>(1, threadCount)` leaves that value as it is: the clamped
count is `2^64 + n`, at least `2^63`, and not 1. -/
theorem nonpositive_thread_count (n : Int) (hn : n ≤ 0) (hlo : -(2 ^ 63) ≤ n) :
    (n = 0 → effectiveThreadCount (toSizeT n) = 1 ∧
        (create (toSizeT n) : ThreadPool α).workers.length = 1) ∧
      (n < 0 → ((toSizeT n : Nat) : Int) = 2 ^ 64 + n ∧
        effectiveThreadCount (toSizeT n) = toSizeT n ∧
        2 ^ 63 ≤ effectiveThreadCount (toSizeT n) ∧
        effectiveThreadCount (toSizeT n) ≠ 1) := by
  constructor
  · intro h0
    subst h0
    rw [create_length]
    exact ⟨rfl, rfl⟩
  · intro hneg
    have h := toSizeT_neg n hneg hlo
    unfold effectiveThreadCount
    refine ⟨h, ?_, ?_, ?_⟩ <;> omega

theorem nonpositive_thread_count_witness :
    ((toSizeT (-1) : Nat) : Int) = 2 ^ 64 + (-1) ∧
      effectiveThreadCount (toSizeT (-1)) = toSizeT (-1) ∧
      2 ^ 63 ≤ effectiveThreadCount (toSizeT (-1)) ∧
      effectiveThreadCount (toSizeT (-1)) ≠ 1 :=
  (@nonpositive_thread_count Nat (-1) (by decide) (by decide)).2 (by decide)

/-- C7 as stated fails: `-1` handed to the `size_t` parameter is
`2^64 - 1`, and the clamp of line 16 leaves it at `2^64 - 1`, not at 1. -/
theorem negative_thread_count_not_clamped :
    toSizeT (-1) = 18446744073709551615 ∧
      effectiveThreadCount (toSizeT (-1)) = 18446744073709551615 ∧
      effectiveThreadCount (toSizeT (-1)) ≠ 1 := by
  rw [toSizeT_neg_one]
  decide

/-! ## The step function, case by case -/

theorem move_of_step {p p1 : ThreadPool α} {a : Action α} (h : p.step a = some p1) :
    Move p a p1 := by
  cases a with
  | enqueue t =>
    simp only [ThreadPool.step, Option.some.injEq] at h; subst h
    exact Move.enqueue p t
  | shutdown =>
    simp only [ThreadPool.step, Option.some.injEq] at h; subst h
    exact Move.shutdown p
  | callWait =>
    simp only [ThreadPool.step, Option.some.injEq] at h; subst h
    exact Move.callWait p
  | recheck j =>
    simp only [ThreadPool.step, recheckStep] at h
    split at h
    · rename_i hj
      simp only [Option.some.injEq] at h; subst h
      exact Move.recheck p j hj
    · simp at h
  | spurious j =>
    simp only [ThreadPool.step, spuriousStep] at h
    split at h
    · rename_i hj
      simp only [Option.some.injEq] at h; subst h
      exact Move.spurious p j hj
    · simp at h
  | notify i j =>
    simp only [ThreadPool.step, notifyStep] at h
    split at h
    · rename_i hw hj
      simp only [Option.some.injEq] at h; subst h
      exact Move.notify p i j hw hj
    · simp at h
  | fault i =>
    simp only [ThreadPool.step, faultStep] at h
    split at h
    · rename_i t hw
      simp only [Option.some.injEq] at h; subst h
      exact Move.fault p i t hw
    · simp at h
  | worker i =>
    simp only [ThreadPool.step, workerStep] at h
    split at h
    · simp at h
    · rename_i hw
      simp only [Option.some.injEq] at h
      subst h
      unfold wake
      split
      · rename_i hc
        simp only [Bool.and_eq_true, List.isEmpty_iff] at hc
        exact Move.exit p i hw hc.1 hc.2
      · rename_i hc
        split
        · rename_i ht
          have hs : p.stop = false := by
            cases hst : p.stop with
            | false => rfl
            | true => simp [hst, ht] at hc
          exact Move.block p i hw hs ht
        · rename_i t rest ht
          exact Move.dequeue p i t rest hw ht
    · rename_i t hw
      simp only [Option.some.injEq] at h; subst h
      exact Move.start p i t hw
    · rename_i t hw
      simp only [Option.some.injEq] at h; subst h
      exact Move.finish p i t hw
    · rename_i t hw
      simp only [Option.some.injEq] at h; subst h
      exact Move.decrement p i t hw
    · rename_i hw
      split at h
      · simp at h
      · rename_i hn
        simp only [Option.some.injEq] at h; subst h
        exact Move.notifyNone p i hw (by simpa using hn)
    · simp at h
    · simp at h

theorem step_of_move {p p1 : ThreadPool α} {a : Action α} (h : Move p a p1) :
    p.step a = some p1 := by
  cases h with
  | enqueue t => rfl
  | shutdown => rfl
  | callWait => rfl
  | recheck j hj => simp [ThreadPool.step, recheckStep, hj]
  | spurious j hj => simp [ThreadPool.step, spuriousStep, hj]
  | notify i j hw hj => simp [ThreadPool.step, notifyStep, hw, hj]
  | fault i t hw => simp [ThreadPool.step, faultStep, hw]
  | exit i hw hs ht => simp [ThreadPool.step, workerStep, hw, wake, hs, ht]
  | block i hw hs ht => simp [ThreadPool.step, workerStep, hw, wake, hs, ht]
  | dequeue i t rest hw ht => simp [ThreadPool.step, workerStep, hw, wake, ht]
  | start i t hw => simp [ThreadPool.step, workerStep, hw]
  | finish i t hw => simp [ThreadPool.step, workerStep, hw]
  | decrement i t hw => simp [ThreadPool.step, workerStep, hw]
  | notifyNone i hw hn =>
    simp only [ThreadPool.step, workerStep, hw, hn]
    rfl

end ThreadPool

namespace Sys

open ThreadPool

/-! ## A pool that was never given work -/

theorem sys_move {s s1 : Sys α} {a : Action α} (h : s.step a = some s1) :
    Move s.pool a s1.pool ∧ s1.hist = s.hist.record s.pool a := by
  obtain ⟨p, hp, rfl⟩ := step_eq_some h
  exact ⟨move_of_step hp, rfl⟩

theorem mem_of_index {β : Type u} {l : List β} {i : Nat} {w : β} (h : l[i]? = some w) :
    w ∈ l := by
  obtain ⟨l1, l2, hl, _⟩ := split_at_index h
  rw [hl]
  simp

theorem unused_init (threadCount : Nat) : Unused (init threadCount : Sys α) := by
  refine ⟨rfl, rfl, ?_⟩
  intro w hw
  simp only [init, create, List.mem_replicate] at hw
  rw [hw.2]
  rfl

theorem unused_step {s s1 : Sys α} {a : Action α} (ha : isEnqueue a = false)
    (hU : Unused s) (h : s.step a = some s1) : Unused s1 := by
  obtain ⟨ht, hact, hidle⟩ := hU
  obtain ⟨p, hp, rfl⟩ := step_eq_some h
  have htr := move_of_step hp
  unfold Unused
  simp only
  have hbad : ∀ {i : Nat} {w : Worker α}, s.pool.workers[i]? = some w → idle w = true :=
    fun hw => hidle _ (mem_of_index hw)
  cases htr with
  | enqueue t => simp [isEnqueue] at ha
  | shutdown => exact ⟨ht, hact, hidle⟩
  | callWait => exact ⟨ht, hact, hidle⟩
  | recheck j hj => exact ⟨ht, hact, hidle⟩
  | spurious j hj => exact ⟨ht, hact, hidle⟩
  | notify i j hw hj => exact absurd (hbad hw) (by simp [idle])
  | fault i t hw => exact absurd (hbad hw) (by simp [idle])
  | exit i hw hs ht0 =>
    refine ⟨ht, hact, fun w hmem => ?_⟩
    rcases List.mem_or_eq_of_mem_set hmem with h1 | h1
    · exact hidle w h1
    · rw [h1]; rfl
  | block i hw hs ht0 => exact ⟨ht, hact, hidle⟩
  | dequeue i t rest hw ht0 => rw [ht] at ht0; simp at ht0
  | start i t hw => exact absurd (hbad hw) (by simp [idle])
  | finish i t hw => exact absurd (hbad hw) (by simp [idle])
  | decrement i t hw => exact absurd (hbad hw) (by simp [idle])
  | notifyNone i hw hn => exact absurd (hbad hw) (by simp [idle])

end Sys

namespace ThreadPool

/-! ## Workers that take no more steps, and the counter without wrap-around -/

theorem move_workers {p p1 : ThreadPool α} {a : Action α} (h : Move p a p1) :
    p1.workers = p.workers ∨
      ∃ i w v, actor a = some i ∧ p.workers[i]? = some w ∧ dead w = false ∧
        p1.workers = p.workers.set i v := by
  cases h with
  | enqueue t => exact Or.inl rfl
  | shutdown => exact Or.inl rfl
  | callWait => exact Or.inl rfl
  | recheck j hj => exact Or.inl rfl
  | spurious j hj => exact Or.inl rfl
  | notify i j hw hj => exact Or.inr ⟨i, _, _, rfl, hw, rfl, rfl⟩
  | fault i t hw => exact Or.inr ⟨i, _, _, rfl, hw, rfl, rfl⟩
  | exit i hw hs ht => exact Or.inr ⟨i, _, _, rfl, hw, rfl, rfl⟩
  | block i hw hs ht => exact Or.inl rfl
  | dequeue i t rest hw ht => exact Or.inr ⟨i, _, _, rfl, hw, rfl, rfl⟩
  | start i t hw => exact Or.inr ⟨i, _, _, rfl, hw, rfl, rfl⟩
  | finish i t hw => exact Or.inr ⟨i, _, _, rfl, hw, rfl, rfl⟩
  | decrement i t hw => exact Or.inr ⟨i, _, _, rfl, hw, rfl, rfl⟩
  | notifyNone i hw hn => exact Or.inr ⟨i, _, _, rfl, hw, rfl, rfl⟩

theorem move_actor_alive {p p1 : ThreadPool α} {a : Action α} {i : Nat} {w : Worker α}
    (h : Move p a p1) (ha : actor a = some i) (hw : p.workers[i]? = some w) : dead w = false := by
  have key : ∀ {k : Nat} {w0 : Worker α}, p.workers[k]? = some w0 → dead w0 = false →
      some k = some i → dead w = false := by
    intro k w0 hk hd hki
    cases hki
    rw [hk] at hw
    cases hw
    exact hd
  cases h with
  | enqueue t => simp [actor] at ha
  | shutdown => simp [actor] at ha
  | callWait => simp [actor] at ha
  | recheck j hj => simp [actor] at ha
  | spurious j hj => simp [actor] at ha
  | notify k j hk hj => exact key hk rfl ha
  | fault k t hk => exact key hk rfl ha
  | exit k hk hs ht => exact key hk rfl ha
  | block k hk hs ht => exact key hk rfl ha
  | dequeue k t rest hk ht => exact key hk rfl ha
  | start k t hk => exact key hk rfl ha
  | finish k t hk => exact key hk rfl ha
  | decrement k t hk => exact key hk rfl ha
  | notifyNone k hk hn => exact key hk rfl ha

theorem dead_worker_stays {p p1 : ThreadPool α} {a : Action α} {i : Nat} {w : Worker α}
    (h : p.step a = some p1) (hw : p.workers[i]? = some w) (hd : dead w = true) :
    p1.workers[i]? = some w := by
  rcases move_workers (move_of_step h) with h1 | ⟨k, w0, v, _, hk, hd0, h1⟩
  · rw [h1]; exact hw
  · rw [h1]
    by_cases hki : k = i
    · subst hki
      rw [hk] at hw
      cases hw
      rw [hd] at hd0
      cases hd0
    · rw [List.getElem?_set_ne hki]
      exact hw

theorem dead_worker_disabled {p : ThreadPool α} {a : Action α} {i : Nat} {w : Worker α}
    (ha : actor a = some i) (hw : p.workers[i]? = some w) (hd : dead w = true) :
    p.step a = none := by
  cases h : p.step a with
  | none => rfl
  | some p1 =>
    have := move_actor_alive (move_of_step h) ha hw
    rw [hd] at this
    cases this

theorem incr_eq {n : Nat} (h : n + 1 < SIZE_RANGE) : incr n = n + 1 :=
  Nat.mod_eq_of_lt h

theorem decr_eq {n : Nat} (h0 : 0 < n) (h : n < SIZE_RANGE) : decr n = n - 1 := by
  unfold decr SIZE_RANGE at *
  omega

end ThreadPool

namespace Sys

open ThreadPool

theorem busyCount_lt_of_not_busy {p : ThreadPool α} {i : Nat} {w : Worker α}
    (hw : p.workers[i]? = some w) (hb : busy w = false) : busyCount p < p.workers.length := by
  obtain ⟨l1, l2, hl, _⟩ := split_at_index hw
  unfold busyCount
  rw [hl]
  simp only [List.countP_append, List.countP_cons, hb, Bool.false_eq_true, if_false,
    Nat.add_zero, List.length_append, List.length_cons]
  have h1 := List.countP_le_length busy (l := l1)
  have h2 := List.countP_le_length busy (l := l2)
  omega

theorem busyCount_pos_of_busy {p : ThreadPool α} {i : Nat} {w : Worker α}
    (hw : p.workers[i]? = some w) (hb : busy w = true) : 0 < busyCount p := by
  obtain ⟨l1, l2, hl, _⟩ := split_at_index hw
  unfold busyCount
  rw [hl]
  simp only [List.countP_append, List.countP_cons, hb, if_true]
  omega

theorem reachable_run {threadCount : Nat} {s s1 : Sys α} {as : List (Action α)}
    (h : Reachable threadCount s) (hrun : run s as = some s1) : Reachable threadCount s1 := by
  obtain ⟨bs, hbs⟩ := h
  refine ⟨bs ++ as, ?_⟩
  rw [run_append, hbs]
  exact hrun

theorem reachable_step {threadCount : Nat} {s s1 : Sys α} {a : Action α}
    (h : Reachable threadCount s) (hs : s.step a = some s1) : Reachable threadCount s1 :=
  @reachable_run α threadCount s s1 [a] h (by simp [run, hs])

theorem run_dead_worker_stays {i : Nat} {w : Worker α} (hd : dead w = true) :
    ∀ (as : List (Action α)) (s s1 : Sys α), s.pool.workers[i]? = some w → run s as = some s1 →
      s1.pool.workers[i]? = some w :=
  run_preserves (fun s => s.pool.workers[i]? = some w) (fun s a s1 hP hs => by
    obtain ⟨p, hp, rfl⟩ := step_eq_some hs
    exact dead_worker_stays hp hP hd)

theorem run_workers_length : ∀ (as : List (Action α)) (s s1 : Sys α), run s as = some s1 →
    s1.pool.workers.length = s.pool.workers.length := by
  intro as s s1 h
  exact run_preserves (fun x => x.pool.workers.length = s.pool.workers.length)
    (fun x a x1 hP hs => by
      obtain ⟨p, hp, rfl⟩ := step_eq_some hs
      simp only
      rw [pool_step_workers_length hp]
      exact hP) as s s1 rfl h

theorem pool_step_stop_true {p p1 : ThreadPool α} {a : Action α} (h : p.step a = some p1)
    (hs : p.stop = true) : p1.stop = true := by
  cases ha : isShutdown a with
  | false => rw [pool_step_stop h ha]; exact hs
  | true =>
    cases a <;> simp [isShutdown] at ha
    simp only [ThreadPool.step, Option.some.injEq] at h
    subst h
    rfl

theorem idleState_reachable : Reachable 2 idleState := ⟨idleSchedule, by decide⟩

theorem drainedState_reachable : Reachable 1 drainedState :=
  ⟨drainPre ++ Action.shutdown :: drainPost, by decide⟩

/-- C11 (idempotent empty wait): in a pool to which nothing was submitted the
predicate of `wait()` holds right after construction and in every state
reached by a schedule without `enqueue` (worker steps, calls of `wait()`, the
destructor), and a call of `wait()` made there returns at once: the caller is
recorded as returned, not as blocked. -/
theorem empty_wait_returns (threadCount : Nat) (as : List (Action α)) (s : Sys α)
    (hno : ∀ a ∈ as, isEnqueue a = false) (hrun : run (init threadCount) as = some s) :
    (init threadCount : Sys α).pool.waitPred = true ∧ s.pool.waitPred = true ∧
      s.pool.step Action.callWait =
        some { s.pool with done := s.pool.done ++ [Waiter.returned] } := by
  have hU : Unused s :=
    run_preserves_on Unused (fun a => isEnqueue a = false)
      (fun x a x1 ha hP hs => unused_step ha hP hs) as _ s hno (unused_init threadCount) hrun
  have hq : s.pool.waitPred = true := (waitPred_iff _).mpr ⟨hU.1, hU.2.1⟩
  refine ⟨rfl, hq, ?_⟩
  simp only [ThreadPool.step, ThreadPool.callWait, hq, if_true]

theorem empty_wait_returns_witness :
    (init 2 : Sys Nat).pool.waitPred = true ∧ idleState.pool.waitPred = true ∧
      idleState.pool.step Action.callWait =
        some { idleState.pool with done := idleState.pool.done ++ [Waiter.returned] } :=
  empty_wait_returns 2 idleSchedule idleState (by decide) (by decide)

/-- C12 (the counter counts the busy workers): in every reachable state
`activeTasks` is the number of workers between their dequeue and their
decrement.  A step changes it in two cases only: the dequeue of a waiting
worker adds exactly 1, and the decrement of a worker whose task has returned
takes exactly 1 off a value that is at least 1.  So the unsigned counter never
wraps, in either direction. -/
theorem activeTasks_counts_busy (threadCount : Nat) (hK : threadCount < SIZE_RANGE)
    (s s1 : Sys α) (a : Action α) (h : Reachable threadCount s) (hs : s.step a = some s1) :
    s.pool.activeTasks = busyCount s.pool ∧ s1.pool.activeTasks = busyCount s1.pool ∧
      (s1.pool.activeTasks = s.pool.activeTasks ∨
        (∃ i t, a = Action.worker i ∧ s.pool.workers[i]? = some Worker.waiting ∧
          s1.pool.workers[i]? = some (Worker.holding t) ∧
          s1.pool.activeTasks = s.pool.activeTasks + 1) ∨
        (∃ i t, a = Action.worker i ∧ s.pool.workers[i]? = some (Worker.finished t) ∧
          s1.pool.workers[i]? = some Worker.notifying ∧
          0 < s.pool.activeTasks ∧ s1.pool.activeTasks + 1 = s.pool.activeTasks)) := by
  have h1 : Reachable threadCount s1 := reachable_step h hs
  have hact := reachable_active_eq hK h
  have hact1 := reachable_active_eq hK h1
  refine ⟨hact, hact1, ?_⟩
  have hlen := reachable_workers_length h
  have hlt := effectiveThreadCount_lt hK
  obtain ⟨p, hp, rfl⟩ := step_eq_some hs
  have htr := move_of_step hp
  simp only at hact1 ⊢
  have hset : ∀ {i : Nat} {w v : Worker α}, s.pool.workers[i]? = some w →
      (s.pool.workers.set i v)[i]? = some v := by
    intro i w v hw
    obtain ⟨hi, _⟩ := List.getElem?_eq_some.mp hw
    exact List.getElem?_set_self hi
  cases htr with
  | enqueue t => exact Or.inl rfl
  | shutdown => exact Or.inl rfl
  | callWait => exact Or.inl rfl
  | recheck j hj => exact Or.inl rfl
  | spurious j hj => exact Or.inl rfl
  | notify i j hw hj => exact Or.inl rfl
  | fault i t hw => exact Or.inl rfl
  | exit i hw hs ht => exact Or.inl rfl
  | block i hw hs ht => exact Or.inl rfl
  | dequeue i t rest hw ht =>
    refine Or.inr (Or.inl ⟨i, t, rfl, hw, hset hw, ?_⟩)
    have hb := busyCount_lt_of_not_busy hw rfl
    exact incr_eq (by omega)
  | start i t hw => exact Or.inl rfl
  | finish i t hw => exact Or.inl rfl
  | decrement i t hw =>
    have hb := busyCount_pos_of_busy hw rfl
    have hle := busyCount_le s.pool
    have hpos : 0 < s.pool.activeTasks := by omega
    refine Or.inr (Or.inr ⟨i, t, rfl, hw, hset hw, hpos, ?_⟩)
    simp only
    rw [decr_eq hpos (by omega)]
    omega
  | notifyNone i hw hn => exact Or.inl rfl

theorem activeTasks_counts_busy_witness :
    busyState.pool.activeTasks = busyCount busyState.pool ∧
      decrementedState.pool.activeTasks = busyCount decrementedState.pool ∧
      (decrementedState.pool.activeTasks = busyState.pool.activeTasks ∨
        (∃ i t, (Action.worker 1 : Action Nat) = Action.worker i ∧
          busyState.pool.workers[i]? = some Worker.waiting ∧
          decrementedState.pool.workers[i]? = some (Worker.holding t) ∧
          decrementedState.pool.activeTasks = busyState.pool.activeTasks + 1) ∨
        (∃ i t, (Action.worker 1 : Action Nat) = Action.worker i ∧
          busyState.pool.workers[i]? = some (Worker.finished t) ∧
          decrementedState.pool.workers[i]? = some Worker.notifying ∧
          0 < busyState.pool.activeTasks ∧
          decrementedState.pool.activeTasks + 1 = busyState.pool.activeTasks)) :=
  activeTasks_counts_busy 2 (by decide) busyState decrementedState (Action.worker 1)
    busyState_reachable (by decide)

/-- C13 (the shutdown flag is monotonic): `stop` is false after construction,
and once it is true it is true after every further sequence of operations
(`enqueue`, `wait`, worker steps, faults, the destructor). -/
theorem stop_monotonic (threadCount : Nat) (as : List (Action α)) (s s1 : Sys α)
    (hrun : run s as = some s1) (hs : s.pool.stop = true) :
    (create threadCount : ThreadPool α).stop = false ∧ s1.pool.stop = true := by
  refine ⟨rfl, ?_⟩
  refine run_preserves (fun x => x.pool.stop = true) ?_ as s s1 hs hrun
  intro x a x1 hP hx
  obtain ⟨p, hp, rfl⟩ := step_eq_some hx
  exact pool_step_stop_true hp hP

theorem stop_monotonic_witness :
    (create 1 : ThreadPool Nat).stop = false ∧ lateState.pool.stop = true :=
  stop_monotonic 1 [Action.enqueue 3, Action.callWait] drainedState lateState (by decide)
    (by decide)

/-- C15 (the worker set is fixed): in every reachable state, and in every
state a further schedule leads to, the number of workers is the effective
thread count of the constructor; and a worker that has left its loop is still
gone after any further schedule and has no step, so it never dequeues again. -/
theorem worker_set_fixed (threadCount : Nat) (as : List (Action α)) (s s1 : Sys α)
    (h : Reachable threadCount s) (hrun : run s as = some s1) :
    s.pool.workers.length = effectiveThreadCount threadCount ∧
      s1.pool.workers.length = effectiveThreadCount threadCount ∧
      ∀ i, s.pool.workers[i]? = some Worker.exited →
        s1.pool.workers[i]? = some Worker.exited ∧ s1.pool.step (Action.worker i) = none := by
  refine ⟨reachable_workers_length h, reachable_workers_length (reachable_run h hrun), ?_⟩
  intro i hi
  have h1 := run_dead_worker_stays (w := Worker.exited) rfl as s s1 hi hrun
  exact ⟨h1, dead_worker_disabled rfl h1 rfl⟩

theorem worker_set_fixed_witness :
    drainedState.pool.workers.length = effectiveThreadCount 1 ∧
      lateState.pool.workers.length = effectiveThreadCount 1 ∧
      lateState.pool.workers[0]? = some Worker.exited ∧
      lateState.pool.step (Action.worker 0) = none :=
  have h := worker_set_fixed 1 [Action.enqueue 3, Action.callWait] drainedState lateState
    drainedState_reachable (by decide)
  ⟨h.1, h.2.1, h.2.2 0 (by decide)⟩

/-- C20 (dequeue step): in a reachable state, the step of a waiting worker
`i` that finds the queue non-empty (`stop` set or not) is defined and takes the
head task: worker `i` holds it, the other workers are as before, the queue is
the old one without its head, `activeTasks` is larger by exactly 1, `stop` and
the wait set are unchanged, and the task is recorded as dequeued. -/
theorem dequeue_step (threadCount : Nat) (hK : threadCount < SIZE_RANGE) (s : Sys α)
    (i : Nat) (t : α) (rest : List α) (h : Reachable threadCount s)
    (hw : s.pool.workers[i]? = some Worker.waiting) (ht : s.pool.tasks = t :: rest) :
    ∃ s1, s.step (Action.worker i) = some s1 ∧
      s1.pool.workers = s.pool.workers.set i (Worker.holding t) ∧
      s1.pool.tasks = rest ∧ s1.pool.activeTasks = s.pool.activeTasks + 1 ∧
      s1.pool.stop = s.pool.stop ∧ s1.pool.done = s.pool.done ∧
      s1.hist.dequeued = s.hist.dequeued ++ [t] := by
  have hact := reachable_active_eq hK h
  have hlen := reachable_workers_length h
  have hlt := effectiveThreadCount_lt hK
  have hb := busyCount_lt_of_not_busy hw rfl
  have hinc : incr s.pool.activeTasks = s.pool.activeTasks + 1 := incr_eq (by omega)
  have hstep : s.pool.step (Action.worker i) = some
      { s.pool with workers := s.pool.workers.set i (Worker.holding t), tasks := rest,
                    activeTasks := incr s.pool.activeTasks } :=
    step_of_move (Move.dequeue s.pool i t rest hw ht)
  refine ⟨{ pool := { s.pool with workers := s.pool.workers.set i (Worker.holding t),
                                   tasks := rest, activeTasks := incr s.pool.activeTasks }
            hist := s.hist.record s.pool (Action.worker i) },
    by simp only [Sys.step, hstep], rfl, rfl, hinc, rfl, rfl, ?_⟩
  simp [History.record, hw, ht]

theorem dequeue_step_witness :
    ∃ s1, queuedState.step (Action.worker 1) = some s1 ∧
      s1.pool.workers = queuedState.pool.workers.set 1 (Worker.holding 8) ∧
      s1.pool.tasks = [] ∧ s1.pool.activeTasks = queuedState.pool.activeTasks + 1 ∧
      s1.pool.stop = queuedState.pool.stop ∧ s1.pool.done = queuedState.pool.done ∧
      s1.hist.dequeued = queuedState.hist.dequeued ++ [8] :=
  dequeue_step 2 (by decide) queuedState 1 8 [] ⟨queuedSchedule, by decide⟩ (by decide)
    (by decide)

/-! ## Tasks queued when the destructor runs -/

theorem record_dequeued (h : History α) (p : ThreadPool α) (a : Action α) :
    ∃ l, (h.record p a).dequeued = h.dequeued ++ l := by
  cases a with
  | worker i =>
    simp only [History.record]
    split
    · split
      · exact ⟨[], by simp⟩
      · split
        · exact ⟨[], by simp⟩
        · exact ⟨_, rfl⟩
    · exact ⟨[], by simp⟩
    · exact ⟨[], by simp⟩
    · exact ⟨[], by simp⟩
  | enqueue t => exact ⟨[], by simp [History.record]⟩
  | fault i => exact ⟨[], by simp [History.record]⟩
  | notify i j => exact ⟨[], by simp [History.record]⟩
  | shutdown => exact ⟨[], by simp [History.record]⟩
  | callWait => exact ⟨[], by simp [History.record]⟩
  | recheck j => exact ⟨[], by simp [History.record]⟩
  | spurious j => exact ⟨[], by simp [History.record]⟩

theorem flushed_step {S : List α} {s s1 : Sys α} {a : Action α} (hI : Inv s)
    (hF : Flushed S s) (h : s.step a = some s1) : Flushed S s1 := by
  obtain ⟨⟨l, hl⟩, hex⟩ := hF
  have hsub := step_submitted h
  have hI1 := inv_step hI h
  obtain ⟨p, hp, rfl⟩ := step_eq_some h
  obtain ⟨d, hd⟩ := record_dequeued s.hist s.pool a
  refine ⟨⟨l ++ submissions [a], by rw [hsub, hl, List.append_assoc]⟩, ?_⟩
  simp only at hsub hI1 ⊢
  have hgrow : s.pool.workers.any hasExited = true →
      S.length ≤ (s.hist.record s.pool a).dequeued.length := by
    intro hx
    have := hex hx
    rw [hd, List.length_append]
    omega
  have hother : ∀ {i : Nat} {w v : Worker α}, s.pool.workers[i]? = some w →
      hasExited v = false → (s.pool.workers.set i v).any hasExited = true →
      S.length ≤ (s.hist.record s.pool a).dequeued.length :=
    fun hw hv hx => hgrow (any_exited_of_set hw hv hx)
  have htr := move_of_step hp
  cases htr with
  | enqueue t => exact hgrow
  | shutdown => exact hgrow
  | callWait => exact hgrow
  | recheck j hj => exact hgrow
  | spurious j hj => exact hgrow
  | notify i j hw hj => exact hother hw rfl
  | fault i t hw => exact hother hw rfl
  | block i hw hs ht => exact hgrow
  | dequeue i t rest hw ht => exact hother hw rfl
  | start i t hw => exact hother hw rfl
  | finish i t hw => exact hother hw rfl
  | decrement i t hw => exact hother hw rfl
  | notifyNone i hw hn => exact hother hw rfl
  | exit i hw hs ht =>
    intro _
    have hfifo := hI1.fifo
    simp only [ht, List.append_nil] at hfifo
    rw [hfifo, hsub, hl]
    simp only [List.length_append]
    omega

theorem run_flushed {threadCount : Nat} {S : List α} :
    ∀ (as : List (Action α)) (s s1 : Sys α), Reachable threadCount s → Flushed S s →
      run s as = some s1 → Flushed S s1 := by
  intro as s s1 hr hF hrun
  have := run_preserves (fun x => Reachable threadCount x ∧ Flushed S x)
    (fun x a x1 hP hx =>
      ⟨reachable_step hP.1 hx,
        flushed_step (reachable_inv hP.1) hP.2 hx⟩) as s s1 ⟨hr, hF⟩ hrun
  exact this.2

theorem serialState_reachable : Reachable 1 serialState := ⟨serialSchedule, by decide⟩

theorem loadedState_reachable : Reachable 1 loadedState :=
  ⟨[Action.enqueue 7, Action.enqueue 8], by decide⟩

/-- The step of the destructor is always defined and only sets `stop`: queue,
`activeTasks` and workers are as before.  When it is taken in a reachable
state in which `stop` was still clear, then in every state a further schedule
(submissions included) leads to, a worker has left its loop only after every
task that was queued at that moment had been dequeued, in queue order; and
once all workers have left, so that the joins return, every dequeued task,
those among them, has been started and has completed. -/
theorem shutdown_flushes_queue (threadCount : Nat) (as : List (Action α)) (s s2 : Sys α)
    (h : Reachable threadCount s) (hstop : s.pool.stop = false)
    (hrun : run { s with pool := s.pool.shutdown } as = some s2) :
    s.step Action.shutdown = some { s with pool := s.pool.shutdown } ∧
      s.pool.shutdown.stop = true ∧ s.pool.shutdown.tasks = s.pool.tasks ∧
      s.pool.shutdown.activeTasks = s.pool.activeTasks ∧
      s.pool.shutdown.workers = s.pool.workers ∧
      (s2.pool.workers.any hasExited = true →
        s.hist.dequeued ++ s.pool.tasks <+: s2.hist.dequeued) ∧
      (s2.pool.joined = true →
        s.hist.dequeued ++ s.pool.tasks <+: s2.hist.dequeued ∧
        s2.hist.dequeued.Perm s2.hist.started ∧ s2.hist.dequeued.Perm s2.hist.completed) := by
  have hstep : s.step Action.shutdown = some { s with pool := s.pool.shutdown } := rfl
  have hr1 := reachable_step h hstep
  have hI := reachable_inv h
  have hF1 : Flushed (s.hist.dequeued ++ s.pool.tasks) { s with pool := s.pool.shutdown } := by
    refine ⟨⟨[], by simp [hI.fifo]⟩, fun hx => ?_⟩
    have := hI.exit hx
    rw [hstop] at this
    cases this
  have hF2 := run_flushed as _ s2 hr1 hF1 hrun
  have hr2 := reachable_run hr1 hrun
  have hI2 := reachable_inv hr2
  have hpre : s2.pool.workers.any hasExited = true →
      s.hist.dequeued ++ s.pool.tasks <+: s2.hist.dequeued := by
    intro hx
    obtain ⟨l, hl⟩ := hF2.1
    exact List.prefix_of_prefix_length_le ⟨l, hl.symm⟩ ⟨s2.pool.tasks, hI2.fifo⟩ (hF2.2 hx)
  refine ⟨hstep, rfl, rfl, rfl, rfl, hpre, ?_⟩
  intro hj
  have hpos : 0 < s2.pool.workers.length := by
    rw [reachable_workers_length hr2]
    unfold effectiveThreadCount
    omega
  have hb := busyCount_of_joined hj
  have hdeq := hI2.deq
  have hbod := hI2.run
  rw [held_eq_nil_of_busyCount hb] at hdeq
  rw [bodies_eq_nil_of_busyCount hb] at hbod
  have hc : s2.hist.dequeued.Perm s2.hist.completed := by
    rw [← Multiset.coe_eq_coe, hdeq]
    simp
  refine ⟨hpre (any_exited_of_joined hj hpos), ?_, hc⟩
  refine hc.trans ?_
  rw [← Multiset.coe_eq_coe, hbod]
  simp

/-- C16 (a raising task is not caught): when the body run by worker `i`
raises, the worker leaves its loop at that point: it is neither waiting nor
notifying afterwards, `activeTasks`, the queue and the record of completed
tasks are as before.  After any further schedule the worker is still in that
state and has no step, so the decrement for this task is never executed:
`activeTasks` stays positive and the predicate of `wait()` stays false. -/
theorem fault_not_caught (threadCount : Nat) (hK : threadCount < SIZE_RANGE)
    (as : List (Action α)) (s s2 : Sys α) (i : Nat) (t : α) (h : Reachable threadCount s)
    (hw : s.pool.workers[i]? = some (Worker.running t))
    (hrun : run { s with pool := { s.pool with workers := s.pool.workers.set i (Worker.faulted t) } }
      as = some s2) :
    s.step (Action.fault i) =
        some { s with pool := { s.pool with workers := s.pool.workers.set i (Worker.faulted t) } } ∧
      (s.pool.workers.set i (Worker.faulted t))[i]? = some (Worker.faulted t) ∧
      s2.pool.workers[i]? = some (Worker.faulted t) ∧
      s2.pool.step (Action.worker i) = none ∧
      s2.pool.step (Action.fault i) = none ∧
      (∀ j, s2.pool.step (Action.notify i j) = none) ∧
      0 < s2.pool.activeTasks ∧ s2.pool.waitPred = false := by
  have hp : s.pool.step (Action.fault i) =
      some { s.pool with workers := s.pool.workers.set i (Worker.faulted t) } :=
    step_of_move (Move.fault s.pool i t hw)
  have hstep : s.step (Action.fault i) =
      some { s with pool := { s.pool with workers := s.pool.workers.set i (Worker.faulted t) } } := by
    simp only [Sys.step, hp, History.record]
  have hset : (s.pool.workers.set i (Worker.faulted t))[i]? = some (Worker.faulted t) := by
    obtain ⟨hi, _⟩ := List.getElem?_eq_some.mp hw
    exact List.getElem?_set_self hi
  have hr1 := reachable_step h hstep
  have hr2 := reachable_run hr1 hrun
  have h2 := run_dead_worker_stays (w := Worker.faulted t) rfl as _ s2 hset hrun
  have hpos : 0 < s2.pool.activeTasks := by
    rw [reachable_active_eq hK hr2]
    exact busyCount_pos_of_busy h2 rfl
  refine ⟨hstep, hset, h2, dead_worker_disabled rfl h2 rfl, dead_worker_disabled rfl h2 rfl,
    fun j => dead_worker_disabled rfl h2 rfl, hpos, ?_⟩
  cases hq : s2.pool.waitPred with
  | false => rfl
  | true =>
    have := ((waitPred_iff _).mp hq).2
    omega

theorem fault_not_caught_witness :
    serialState.step (Action.fault 0) = some faultedState ∧
      (serialState.pool.workers.set 0 (Worker.faulted 8))[0]? = some (Worker.faulted 8) ∧
      afterFaultState.pool.workers[0]? = some (Worker.faulted 8) ∧
      afterFaultState.pool.step (Action.worker 0) = none ∧
      afterFaultState.pool.step (Action.fault 0) = none ∧
      (∀ j, afterFaultState.pool.step (Action.notify 0 j) = none) ∧
      0 < afterFaultState.pool.activeTasks ∧ afterFaultState.pool.waitPred = false :=
  fault_not_caught 1 (by decide) [Action.callWait, Action.enqueue 4] serialState afterFaultState
    0 8 serialState_reachable (by decide) (by decide)

/-! ## Termination of the worker steps -/

theorem weight_sum_set {l : List (Worker α)} {i : Nat} {w v : Worker α} (hw : l[i]? = some w) :
    ((l.set i v).map weight).sum + weight w = (l.map weight).sum + weight v := by
  obtain ⟨l1, l2, hl, hset⟩ := split_at_index hw
  rw [hset, hl]
  simp only [List.map_append, List.map_cons, List.sum_append, List.sum_cons]
  omega

/-- Every step but `enqueue` leaves `rank` where it is or lowers it, and a
step of the worker loop that changes the pool lowers it. -/
theorem rank_move [DecidableEq α] {p p1 : ThreadPool α} {a : Action α} (h : Move p a p1)
    (ha : isEnqueue a = false) :
    (if isWorkerStep a && decide (p1 ≠ p) then 1 else 0) + rank p1 ≤ rank p := by
  cases h with
  | enqueue t => simp [isEnqueue] at ha
  | shutdown => simp [isWorkerStep, rank, ThreadPool.shutdown]
  | callWait => simp [isWorkerStep, rank, ThreadPool.callWait]
  | recheck j hj => simp [isWorkerStep, rank]
  | spurious j hj => simp [isWorkerStep, rank]
  | block i hw hs ht => simp
  | notify i j hw hj =>
    have := weight_sum_set (v := Worker.waiting) hw
    simp only [rank, weight] at this ⊢
    split <;> omega
  | fault i t hw =>
    have := weight_sum_set (v := Worker.faulted t) hw
    simp only [rank, weight, isWorkerStep] at this ⊢
    simp only [Bool.false_and, Bool.false_eq_true, if_false]
    omega
  | exit i hw hs ht =>
    have := weight_sum_set (v := Worker.exited) hw
    simp only [rank, weight] at this ⊢
    split <;> omega
  | dequeue i t rest hw ht =>
    have := weight_sum_set (v := Worker.holding t) hw
    simp only [rank, weight, ht, List.length_cons] at this ⊢
    split <;> omega
  | start i t hw =>
    have := weight_sum_set (v := Worker.running t) hw
    simp only [rank, weight] at this ⊢
    split <;> omega
  | finish i t hw =>
    have := weight_sum_set (v := Worker.finished t) hw
    simp only [rank, weight] at this ⊢
    split <;> omega
  | decrement i t hw =>
    have := weight_sum_set (v := Worker.notifying) hw
    simp only [rank, weight] at this ⊢
    split <;> omega
  | notifyNone i hw hn =>
    have := weight_sum_set (v := Worker.waiting) hw
    simp only [rank, weight] at this ⊢
    split <;> omega

theorem progress_bound [DecidableEq α] :
    ∀ (as : List (Action α)) (s s1 : Sys α), (∀ a ∈ as, isEnqueue a = false) →
      run s as = some s1 → progress s as + rank s1.pool ≤ rank s.pool := by
  intro as
  induction as with
  | nil =>
    intro s s1 _ h
    simp only [run, Option.some.injEq] at h
    subst h
    simp [progress]
  | cons a as ih =>
    intro s s1 hno h
    simp only [run] at h
    cases hs : s.step a with
    | none => simp [hs] at h
    | some s2 =>
      rw [hs] at h
      have h1 := ih s2 s1 (fun b hb => hno b (List.mem_cons_of_mem _ hb)) h
      obtain ⟨p, hp, hs2⟩ := step_eq_some hs
      have h2 := rank_move (move_of_step hp) (hno a (List.mem_cons_self _ _))
      have hpool : s2.pool = p := by rw [hs2]
      simp only [progress, hs, hpool] at h1 ⊢
      omega

theorem workLeft_move {threadCount : Nat} (hK : threadCount < SIZE_RANGE) {s : Sys α}
    (h : Reachable threadCount s) {p1 : ThreadPool α} {a : Action α} (hm : Move s.pool a p1)
    (ha : isEnqueue a = false) :
    workLeft p1 ≤ workLeft s.pool ∧
      ∀ i, a = Action.worker i →
        ((s.pool.workers[i]? = some Worker.waiting ∧ s.pool.tasks ≠ []) ∨
          ∃ t, s.pool.workers[i]? = some (Worker.finished t)) →
        workLeft p1 + 1 = workLeft s.pool := by
  have hact := reachable_active_eq hK h
  have hlen := reachable_workers_length h
  have hlt := effectiveThreadCount_lt hK
  have hle := busyCount_le s.pool
  have key : ∀ {i k : Nat} {w w0 : Worker α}, s.pool.workers[k]? = some w →
      (Action.worker k : Action α) = Action.worker i → s.pool.workers[i]? = some w0 → w0 = w := by
    intro i k w w0 hk hki hi
    cases hki
    rw [hk] at hi
    cases hi
    rfl
  cases hm with
  | enqueue t => simp [isEnqueue] at ha
  | shutdown => exact ⟨le_refl _, fun i hi => by cases hi⟩
  | callWait => exact ⟨le_refl _, fun i hi => by cases hi⟩
  | recheck j hj => exact ⟨le_refl _, fun i hi => by cases hi⟩
  | spurious j hj => exact ⟨le_refl _, fun i hi => by cases hi⟩
  | notify k j hw hj => exact ⟨le_refl _, fun i hi => by cases hi⟩
  | fault k t hw => exact ⟨le_refl _, fun i hi => by cases hi⟩
  | exit k hw hs ht =>
    refine ⟨le_refl _, fun i hi hc => ?_⟩
    rcases hc with ⟨_, hne⟩ | ⟨t, hf⟩
    · exact absurd ht hne
    · cases key hw hi hf
  | block k hw hs ht =>
    refine ⟨le_refl _, fun i hi hc => ?_⟩
    rcases hc with ⟨_, hne⟩ | ⟨t, hf⟩
    · exact absurd ht hne
    · cases key hw hi hf
  | dequeue k t rest hw ht =>
    have hb := busyCount_lt_of_not_busy hw rfl
    have hinc : incr s.pool.activeTasks = s.pool.activeTasks + 1 := incr_eq (by omega)
    simp only [workLeft, ht, List.length_cons, hinc]
    exact ⟨by omega, fun _ _ _ => by omega⟩
  | start k t hw =>
    refine ⟨le_refl _, fun i hi hc => ?_⟩
    rcases hc with ⟨hwait, _⟩ | ⟨t0, hf⟩
    · cases key hw hi hwait
    · cases key hw hi hf
  | finish k t hw =>
    refine ⟨le_refl _, fun i hi hc => ?_⟩
    rcases hc with ⟨hwait, _⟩ | ⟨t0, hf⟩
    · cases key hw hi hwait
    · cases key hw hi hf
  | decrement k t hw =>
    have hb := busyCount_pos_of_busy hw rfl
    have hdec : decr s.pool.activeTasks = s.pool.activeTasks - 1 :=
      decr_eq (by omega) (by omega)
    simp only [workLeft, hdec]
    exact ⟨by omega, fun _ _ _ => by omega⟩
  | notifyNone k hw hn =>
    refine ⟨le_refl _, fun i hi hc => ?_⟩
    rcases hc with ⟨hwait, _⟩ | ⟨t0, hf⟩
    · cases key hw hi hwait
    · cases key hw hi hf

theorem no_fault_step {s s1 : Sys α} {a : Action α} (ha : isFault a = false)
    (hP : s.pool.workers.any hasFaulted = false) (h : s.step a = some s1) :
    s1.pool.workers.any hasFaulted = false := by
  obtain ⟨p, hp, rfl⟩ := step_eq_some h
  simp only
  have hset : ∀ {i : Nat} {v : Worker α}, hasFaulted v = false →
      (s.pool.workers.set i v).any hasFaulted = false := by
    intro i v hv
    rw [Bool.eq_false_iff] at hP ⊢
    intro hx
    apply hP
    rw [List.any_eq_true] at hx ⊢
    obtain ⟨w, hw, hwf⟩ := hx
    rcases List.mem_or_eq_of_mem_set hw with h1 | h1
    · exact ⟨w, h1, hwf⟩
    · rw [h1, hv] at hwf
      cases hwf
  cases move_of_step hp with
  | enqueue t => exact hP
  | shutdown => exact hP
  | callWait => exact hP
  | recheck j hj => exact hP
  | spurious j hj => exact hP
  | notify k j hw hj => exact hset rfl
  | fault k t hw => simp [isFault] at ha
  | exit k hw hs ht => exact hset rfl
  | block k hw hs ht => exact hP
  | dequeue k t rest hw ht => exact hset rfl
  | start k t hw => exact hset rfl
  | finish k t hw => exact hset rfl
  | decrement k t hw => exact hset rfl
  | notifyNone k hw hn => exact hset rfl

theorem served_step {s s1 : Sys α} {a : Action α} (ha : isEnqueue a = false)
    (hP : Served s) (h : s.step a = some s1) : Served s1 := by
  obtain ⟨p, hp, rfl⟩ := step_eq_some h
  unfold Served at hP ⊢
  simp only
  have hset : ∀ {i : Nat} {w v : Worker α}, s.pool.workers[i]? = some w →
      hasExited v = false → (s.pool.workers.set i v).all hasExited = false := by
    intro i w v hw hv
    obtain ⟨l1, l2, hl, hs⟩ := split_at_index hw
    rw [hs]
    simp [hv]
  cases move_of_step hp with
  | enqueue t => simp [isEnqueue] at ha
  | shutdown => exact hP
  | callWait => exact hP
  | recheck j hj => exact hP
  | spurious j hj => exact hP
  | notify k j hw hj => exact Or.inl (hset hw rfl)
  | fault k t hw => exact Or.inl (hset hw rfl)
  | exit k hw hs ht => exact Or.inr ht
  | block k hw hs ht => exact hP
  | dequeue k t rest hw ht => exact Or.inl (hset hw rfl)
  | start k t hw => exact Or.inl (hset hw rfl)
  | finish k t hw => exact Or.inl (hset hw rfl)
  | decrement k t hw => exact Or.inl (hset hw rfl)
  | notifyNone k hw hn => exact Or.inl (hset hw rfl)

theorem sys_step_of_pool {s : Sys α} {a : Action α} {p1 : ThreadPool α}
    (h : s.pool.step a = some p1) :
    s.step a = some { pool := p1, hist := s.hist.record s.pool a } := by
  simp only [Sys.step, h]

theorem set_changes {l : List (Worker α)} {i : Nat} {w v : Worker α} (hw : l[i]? = some w)
    (h : l.set i v = l) : v = w := by
  obtain ⟨hi, _⟩ := List.getElem?_eq_some.mp hw
  have h1 : (l.set i v)[i]? = some v := List.getElem?_set_self hi
  rw [h, hw] at h1
  exact (Option.some.inj h1).symm

/-- In a state that no step of the worker loop changes, every worker is
waiting or gone, and if one is waiting the queue is empty. -/
theorem settled_workers {s : Sys α} (hnf : s.pool.workers.any hasFaulted = false)
    (hS : Settled s) {i : Nat} {w : Worker α} (hw : s.pool.workers[i]? = some w) :
    idle w = true ∧ (w = Worker.waiting → s.pool.tasks = []) := by
  have use : ∀ {a : Action α} {p1 : ThreadPool α}, isWorkerStep a = true →
      Move s.pool a p1 → p1 = s.pool :=
    fun ha hm => hS _ _ ha (sys_step_of_pool (step_of_move hm))
  cases w with
  | waiting =>
    refine ⟨rfl, fun _ => ?_⟩
    cases ht : s.pool.tasks with
    | nil => rfl
    | cons t rest =>
      have h1 := use (a := Action.worker i) rfl (Move.dequeue s.pool i t rest hw ht)
      have h2 := congrArg ThreadPool.workers h1
      cases set_changes hw h2
  | holding t =>
    have h1 := use (a := Action.worker i) rfl (Move.start s.pool i t hw)
    cases set_changes hw (congrArg ThreadPool.workers h1)
  | running t =>
    have h1 := use (a := Action.worker i) rfl (Move.finish s.pool i t hw)
    cases set_changes hw (congrArg ThreadPool.workers h1)
  | finished t =>
    have h1 := use (a := Action.worker i) rfl (Move.decrement s.pool i t hw)
    cases set_changes hw (congrArg ThreadPool.workers h1)
  | notifying =>
    cases hc : s.pool.done.contains Waiter.blocked with
    | false =>
      have h1 := use (a := Action.worker i) rfl (Move.notifyNone s.pool i hw hc)
      cases set_changes hw (congrArg ThreadPool.workers h1)
    | true =>
      have hmem : Waiter.blocked ∈ s.pool.done := by simpa using hc
      obtain ⟨j, hj⟩ := List.mem_iff_getElem?.mp hmem
      have h1 := use (a := Action.notify i j) rfl (Move.notify s.pool i j hw hj)
      cases set_changes hw (congrArg ThreadPool.workers h1)
  | exited => exact ⟨rfl, fun hx => by cases hx⟩
  | faulted t =>
    have := mem_of_index hw
    rw [Bool.eq_false_iff] at hnf
    exact absurd (List.any_eq_true.mpr ⟨_, this, rfl⟩) hnf

theorem settled_quiet {threadCount : Nat} (hK : threadCount < SIZE_RANGE) {s : Sys α}
    (h : Reachable threadCount s) (hnf : s.pool.workers.any hasFaulted = false)
    (hserved : Served s) (hS : Settled s) : s.pool.tasks = [] ∧ s.pool.activeTasks = 0 := by
  have hidle : ∀ w ∈ s.pool.workers, idle w = true := by
    intro w hw
    obtain ⟨i, hi⟩ := List.mem_iff_getElem?.mp hw
    exact (settled_workers hnf hS hi).1
  have hb : busyCount s.pool = 0 := by
    unfold busyCount
    rw [List.countP_eq_zero]
    intro w hw
    have := hidle w hw
    cases w <;> simp_all [idle, busy]
  refine ⟨?_, by rw [reachable_active_eq hK h]; exact hb⟩
  rcases hserved with hlive | ht
  · rw [List.all_eq_false] at hlive
    obtain ⟨w, hw, hwe⟩ := hlive
    obtain ⟨i, hi⟩ := List.mem_iff_getElem?.mp hw
    have hw2 := settled_workers hnf hS hi
    have hidle_w := hw2.1
    cases w with
    | waiting => exact hw2.2 rfl
    | exited => simp [hasExited] at hwe
    | holding t => simp [idle] at hidle_w
    | running t => simp [idle] at hidle_w
    | finished t => simp [idle] at hidle_w
    | notifying => simp [idle] at hidle_w
    | faulted t => simp [idle] at hidle_w
  · exact ht

theorem finishedState_settled : Settled finishedState := by
  intro a s1 ha hs
  cases a with
  | worker i =>
    cases i with
    | zero =>
      have h0 : finishedState.step (Action.worker 0) = some finishedState := by decide
      rw [h0] at hs
      cases hs
      rfl
    | succ n => simp [Sys.step, ThreadPool.step, workerStep, finishedState] at hs
  | notify i j => simp [Sys.step, ThreadPool.step, notifyStep, finishedState] at hs
  | enqueue t => simp [isWorkerStep] at ha
  | fault i => simp [isWorkerStep] at ha
  | shutdown => simp [isWorkerStep] at ha
  | callWait => simp [isWorkerStep] at ha
  | recheck j => simp [isWorkerStep] at ha
  | spurious j => simp [isWorkerStep] at ha

/-- The worker steps in the model in which a worker at `cv.wait` may look at
the state at any time.  Take a reachable state with a worker still in its loop
and no faulted worker, and any schedule from it without `enqueue` and without
a raising task.  Then (1) the number of worker steps of the schedule that
change the pool is at most `rank` of the starting state; (2) `2 * (queue
length) + activeTasks` never grows along the schedule, and a dequeue step or a
decrement step taken next lowers it by exactly 1; (3) a waiting worker that
finds the queue non-empty has its dequeue step enabled; (4) once no worker
step changes the pool any more, the predicate of `wait()` holds and every
submitted task has completed. -/
theorem worker_steps_measure [DecidableEq α] (threadCount : Nat)
    (hK : threadCount < SIZE_RANGE) (as : List (Action α)) (s s2 : Sys α)
    (h : Reachable threadCount s) (hlive : s.pool.workers.all hasExited = false)
    (hnf : s.pool.workers.any hasFaulted = false)
    (hno : ∀ a ∈ as, isEnqueue a = false ∧ isFault a = false)
    (hrun : run s as = some s2) :
    progress s as + rank s2.pool ≤ rank s.pool ∧
      workLeft s2.pool ≤ workLeft s.pool ∧
      (∀ i s3, s2.step (Action.worker i) = some s3 →
        ((s2.pool.workers[i]? = some Worker.waiting ∧ s2.pool.tasks ≠ []) ∨
          ∃ t, s2.pool.workers[i]? = some (Worker.finished t)) →
        workLeft s3.pool + 1 = workLeft s2.pool) ∧
      (∀ i t rest, s2.pool.workers[i]? = some Worker.waiting → s2.pool.tasks = t :: rest →
        ∃ s3, s2.step (Action.worker i) = some s3 ∧
          s3.pool.workers[i]? = some (Worker.holding t) ∧ s3.pool.tasks = rest) ∧
      (Settled s2 → s2.pool.waitPred = true ∧ s2.hist.submitted.Perm s2.hist.completed) := by
  have hr2 := reachable_run h hrun
  have hnoE : ∀ a ∈ as, isEnqueue a = false := fun a ha => (hno a ha).1
  have hbound := progress_bound as s s2 hnoE hrun
  have hmono : workLeft s2.pool ≤ workLeft s.pool := by
    have := run_preserves_on
      (fun x => Reachable threadCount x ∧ workLeft x.pool ≤ workLeft s.pool)
      (fun a => isEnqueue a = false)
      (fun x a x1 ha hP hx => by
        obtain ⟨p, hp, hx1⟩ := step_eq_some hx
        have hm := (workLeft_move hK hP.1 (move_of_step hp) ha).1
        refine ⟨reachable_step hP.1 hx, ?_⟩
        rw [hx1]
        exact le_trans hm hP.2) as s s2 hnoE ⟨h, le_refl _⟩ hrun
    exact this.2
  have hnf2 : s2.pool.workers.any hasFaulted = false :=
    run_preserves_on (fun x => x.pool.workers.any hasFaulted = false)
      (fun a => isFault a = false) (fun x a x1 ha hP hx => no_fault_step ha hP hx)
      as s s2 (fun a ha => (hno a ha).2) hnf hrun
  have hserved2 : Served s2 :=
    run_preserves_on Served (fun a => isEnqueue a = false)
      (fun x a x1 ha hP hx => served_step ha hP hx) as s s2 hnoE (Or.inl hlive) hrun
  refine ⟨hbound, hmono, ?_, ?_, ?_⟩
  · intro i s3 hs3 hc
    obtain ⟨p, hp, rfl⟩ := step_eq_some hs3
    exact (workLeft_move hK hr2 (move_of_step hp) rfl).2 i rfl hc
  · intro i t rest hw ht
    have hp := step_of_move (Move.dequeue s2.pool i t rest hw ht)
    refine ⟨_, sys_step_of_pool hp, ?_, rfl⟩
    obtain ⟨hi, _⟩ := List.getElem?_eq_some.mp hw
    exact List.getElem?_set_self hi
  · intro hS
    obtain ⟨ht, ha⟩ := settled_quiet hK hr2 hnf2 hserved2 hS
    have hq : s2.pool.waitPred = true := (waitPred_iff _).mpr ⟨ht, ha⟩
    have hI := reachable_inv hr2
    have hb : busyCount s2.pool = 0 := by rw [← reachable_active_eq hK hr2]; exact ha
    have hdeq := hI.deq
    rw [held_eq_nil_of_busyCount hb] at hdeq
    have hfifo := hI.fifo
    rw [ht, List.append_nil] at hfifo
    refine ⟨hq, ?_⟩
    rw [← hfifo, ← Multiset.coe_eq_coe, hdeq]
    simp

/-- C18 fails on the code for two waiters: after `twoWaitersSchedule` the
queue is empty and `activeTasks` is 0, the first waiter has returned, but the
second one is still asleep in `done.wait`; the worker is back at line 27 and
no step of the worker loop changes the state, so no notification will come. -/
theorem second_waiter_stays_blocked :
    run (init 1) twoWaitersSchedule = some strandedState ∧
      strandedState.pool.waitPred = true ∧
      strandedState.pool.done[0]? = some Waiter.returned ∧
      strandedState.pool.done[1]? = some Waiter.blocked ∧
      (∀ i j, strandedState.step (Action.notify i j) = none) ∧
      (∀ i s1, strandedState.step (Action.worker i) = some s1 → s1 = strandedState) ∧
      strandedState.step (Action.recheck 1) = none := by
  refine ⟨by decide, by decide, by decide, by decide, ?_, ?_, by decide⟩
  · intro i j
    cases i with
    | zero => simp [Sys.step, ThreadPool.step, notifyStep, strandedState]
    | succ n => simp [Sys.step, ThreadPool.step, notifyStep, strandedState]
  · intro i s1 hs
    cases i with
    | zero =>
      have h0 : strandedState.step (Action.worker 0) = some strandedState := by decide
      rw [h0] at hs
      exact (Option.some.inj hs).symm
    | succ n => simp [Sys.step, ThreadPool.step, workerStep, strandedState] at hs

end Sys

namespace Locked

/-! ## The locking discipline -/

theorem sampleState_reachable : Reachable 2 sampleState := ⟨sampleEvents, by decide⟩

theorem workerOp_discipline {d d1 : Shared α} {w w1 : Line α} {op : LockOp}
    (h : workerOp d w = some (w1, op, d1)) :
    (op = LockOp.acquire → w.holds = false ∧ w1.holds = true) ∧
      (op = LockOp.release → w.holds = true ∧ w1.holds = false) ∧
      (op = LockOp.keep → w1.holds = w.holds) ∧
      (w.holds = false → d1 = d) := by
  cases w with
  | gone => simp [workerOp] at h
  | pop =>
    simp only [workerOp] at h
    split at h
    · simp at h
    · simp only [Option.some.injEq, Prod.mk.injEq] at h
      obtain ⟨rfl, rfl, rfl⟩ := h
      simp [Line.holds]
  | check =>
    simp only [workerOp] at h
    split at h <;> simp only [Option.some.injEq, Prod.mk.injEq] at h <;>
      obtain ⟨rfl, rfl, rfl⟩ := h <;> simp [Line.holds]
  | test =>
    simp only [workerOp] at h
    split at h <;> simp only [Option.some.injEq, Prod.mk.injEq] at h <;>
      obtain ⟨rfl, rfl, rfl⟩ := h <;> simp [Line.holds]
  | _ =>
    simp only [workerOp, Option.some.injEq, Prod.mk.injEq] at h
    obtain ⟨rfl, rfl, rfl⟩ := h
    simp [Line.holds]

theorem clientOp_discipline {d d1 : Shared α} {b : Bool} {c c1 : Client α} {op : LockOp}
    (h : clientOp d b c = some (c1, op, d1)) :
    (op = LockOp.acquire → c.holds = false ∧ c1.holds = true) ∧
      (op = LockOp.release → c.holds = true ∧ c1.holds = false) ∧
      (op = LockOp.keep → c1.holds = c.holds) ∧
      (c.holds = false → d1 = d) := by
  cases c with
  | finished => simp [clientOp] at h
  | dJoin =>
    simp only [clientOp] at h
    split at h
    · simp only [Option.some.injEq, Prod.mk.injEq] at h
      obtain ⟨rfl, rfl, rfl⟩ := h
      simp [Client.holds]
    · simp at h
  | wCheck =>
    simp only [clientOp] at h
    split at h <;> simp only [Option.some.injEq, Prod.mk.injEq] at h <;>
      obtain ⟨rfl, rfl, rfl⟩ := h <;> simp [Client.holds]
  | _ =>
    simp only [clientOp, Option.some.injEq, Prod.mk.injEq] at h
    obtain ⟨rfl, rfl, rfl⟩ := h
    simp [Client.holds]

/-- What `lockAfter` allows, given that the statement respects the control
points at which its thread owns the mutex. -/
theorem handover_of_lockAfter {m m1 : Option Tid} {x : Tid} {op : LockOp} {hb ha : Bool}
    (hown : hb = true ↔ m = some x) (h : lockAfter m x op = some m1)
    (h1 : op = LockOp.acquire → hb = false ∧ ha = true)
    (h2 : op = LockOp.release → hb = true ∧ ha = false)
    (h3 : op = LockOp.keep → ha = hb) :
    Handover m m1 x ∧ (ha = true ↔ m1 = some x) := by
  cases op with
  | acquire =>
    simp only [lockAfter] at h
    split at h
    · rename_i hm
      simp only [Option.some.injEq] at h
      subst h
      exact ⟨Or.inr (Or.inl ⟨hm, rfl⟩), by simp [(h1 rfl).2]⟩
    · simp at h
  | release =>
    simp only [lockAfter, Option.some.injEq] at h
    subst h
    exact ⟨Or.inr (Or.inr ⟨hown.mp (h2 rfl).1, rfl⟩), by simp [(h2 rfl).2]⟩
  | keep =>
    simp only [lockAfter, Option.some.injEq] at h
    subst h
    exact ⟨Or.inl rfl, by rw [h3 rfl]; exact hown⟩

theorem owns_other {β : Type u} {hold : β → Bool} {tag : Nat → Tid} {l : List β}
    {m m1 : Option Tid} {x : Tid} (ho : Owns hold tag l m) (hh : Handover m m1 x)
    (hx : ∀ k, tag k ≠ x) : Owns hold tag l m1 := by
  intro k b hk
  have := ho k b hk
  rcases hh with h | ⟨h, h1⟩ | ⟨h, h1⟩
  · rw [h]; exact this
  · rw [h] at this
    rw [h1]
    constructor
    · intro hb
      exact absurd (this.mp hb) (by simp)
    · intro he
      exact absurd (Option.some.inj he).symm (hx k)
  · rw [h] at this
    rw [h1]
    constructor
    · intro hb
      exact absurd (Option.some.inj (this.mp hb)).symm (hx k)
    · intro he
      cases he

theorem owns_actor {β : Type u} {hold : β → Bool} {tag : Nat → Tid} {l : List β}
    {m m1 : Option Tid} {i : Nat} {b b1 : β} (ho : Owns hold tag l m)
    (hinj : ∀ j k, tag j = tag k → j = k) (hb : l[i]? = some b)
    (hh : Handover m m1 (tag i)) (h1 : hold b1 = true ↔ m1 = some (tag i)) :
    Owns hold tag (l.set i b1) m1 := by
  intro k c hk
  by_cases hik : i = k
  · subst hik
    obtain ⟨hi, _⟩ := List.getElem?_eq_some.mp hb
    rw [List.getElem?_set_self hi] at hk
    cases hk
    exact h1
  · rw [List.getElem?_set_ne hik] at hk
    have := ho k c hk
    rcases hh with h | ⟨h, h2⟩ | ⟨h, h2⟩
    · rw [h]; exact this
    · rw [h] at this
      rw [h2]
      constructor
      · intro hc
        exact absurd (this.mp hc) (by simp)
      · intro he
        exact absurd (hinj _ _ (Option.some.inj he)) hik
    · rw [h] at this
      rw [h2]
      constructor
      · intro hc
        exact absurd (hinj _ _ (Option.some.inj (this.mp hc))) hik
      · intro he
        cases he

theorem exclusive_start (threadCount : Nat) : Exclusive (start threadCount : State α) := by
  refine ⟨?_, ?_, ?_⟩
  · intro k b hk
    have hb : b = Line.top := by
      have := Sys.mem_of_index hk
      simp only [start, List.mem_replicate] at this
      exact this.2
    subst hb
    simp [Line.holds, start]
  · intro k b hk
    simp [start] at hk
  · intro j hj
    simp [start] at hj

theorem owner_exists {m m1 : Option Tid} {x : Tid} {n : Nat} (hh : Handover m m1 x)
    (hlen : ∀ j, m = some (Tid.client j) → j < n)
    (hx : ∀ j, x = Tid.client j → j < n) : ∀ j, m1 = some (Tid.client j) → j < n := by
  intro j hj
  rcases hh with h | ⟨_, h1⟩ | ⟨_, h1⟩
  · rw [h] at hj; exact hlen j hj
  · rw [h1] at hj
    exact hx j (Option.some.inj hj)
  · rw [h1] at hj
    cases hj

theorem exclusive_step {s s1 : State α} {e : Event α} (hE : Exclusive s)
    (h : step s e = some s1) : Exclusive s1 := by
  obtain ⟨hw, hc, hlen⟩ := hE
  cases e with
  | invoke c =>
    simp only [step] at h
    split at h
    · rename_i hentry
      simp only [Option.some.injEq] at h
      subst h
      have hnot : c.holds = false := by cases c <;> simp_all [Client.entry, Client.holds]
      refine ⟨hw, ?_, ?_⟩
      · intro k b hk
        simp only at hk ⊢
        rcases Nat.lt_or_ge k s.clients.length with hlt | hge
        · rw [List.getElem?_append_left hlt] at hk
          exact hc k b hk
        · rw [List.getElem?_append_right hge] at hk
          cases hj : k - s.clients.length with
          | zero =>
            simp only [hj, List.getElem?_cons_zero, Option.some.injEq] at hk
            subst hk
            constructor
            · intro hb
              rw [hnot] at hb
              cases hb
            · intro hm
              have := hlen k hm
              omega
          | succ n => simp [hj] at hk
      · intro j hj
        have := hlen j hj
        simp only [List.length_append, List.length_singleton]
        omega
    · simp at h
  | exec x =>
    cases x with
    | worker i =>
      simp only [step] at h
      cases hwi : s.workers[i]? with
      | none => simp [hwi] at h
      | some w =>
        simp only [hwi] at h
        cases hop : workerOp s.shared w with
        | none => simp [hop] at h
        | some r =>
          obtain ⟨w1, op, d1⟩ := r
          simp only [hop] at h
          cases hm : lockAfter s.mutex (Tid.worker i) op with
          | none => simp [hm] at h
          | some m =>
            simp only [hm, Option.some.injEq] at h
            subst h
            obtain ⟨h1, h2, h3, _⟩ := workerOp_discipline hop
            obtain ⟨hh, hown⟩ := handover_of_lockAfter (hw i w hwi) hm h1 h2 h3
            exact ⟨owns_actor hw (fun j k hjk => by cases hjk; rfl) hwi hh hown,
              owns_other hc hh (fun k hk => by cases hk),
              owner_exists hh hlen (fun j hj => by cases hj)⟩
    | client j =>
      simp only [step] at h
      cases hcj : s.clients[j]? with
      | none => simp [hcj] at h
      | some c =>
        simp only [hcj] at h
        cases hop : clientOp s.shared (joinable s) c with
        | none => simp [hop] at h
        | some r =>
          obtain ⟨c1, op, d1⟩ := r
          simp only [hop] at h
          cases hm : lockAfter s.mutex (Tid.client j) op with
          | none => simp [hm] at h
          | some m =>
            simp only [hm, Option.some.injEq] at h
            subst h
            obtain ⟨h1, h2, h3, _⟩ := clientOp_discipline hop
            obtain ⟨hh, hown⟩ := handover_of_lockAfter (hc j c hcj) hm h1 h2 h3
            obtain ⟨hj, _⟩ := List.getElem?_eq_some.mp hcj
            refine ⟨owns_other hw hh (fun k hk => by cases hk),
              owns_actor hc (fun a b hab => by cases hab; rfl) hcj hh hown, ?_⟩
            simp only [List.length_set]
            exact owner_exists hh hlen (fun k hk => by cases hk; exact hj)

theorem exclusive_of_reachable {threadCount : Nat} {s : State α}
    (h : Reachable threadCount s) : Exclusive s := by
  obtain ⟨es, hes⟩ := h
  have key : ∀ (es : List (Event α)) (s0 s1 : State α), Exclusive s0 → run s0 es = some s1 →
      Exclusive s1 := by
    intro es
    induction es with
    | nil =>
      intro s0 s1 h0 hr
      simp only [run, Option.some.injEq] at hr
      exact hr ▸ h0
    | cons e es ih =>
      intro s0 s1 h0 hr
      simp only [run] at hr
      cases hs : step s0 e with
      | none => simp [hs] at hr
      | some s2 =>
        rw [hs] at hr
        exact ih s2 s1 (exclusive_step h0 hs) hr
  exact key es _ s (exclusive_start threadCount) hes

theorem mutation_by_owner {s s1 : State α} {e : Event α} (hE : Exclusive s)
    (h : step s e = some s1) (hne : s1.shared ≠ s.shared) :
    ∃ x, e = Event.exec x ∧ s.mutex = some x := by
  obtain ⟨hw, hc, _⟩ := hE
  cases e with
  | invoke c =>
    simp only [step] at h
    split at h
    · simp only [Option.some.injEq] at h
      subst h
      exact absurd rfl hne
    · simp at h
  | exec x =>
    refine ⟨x, rfl, ?_⟩
    cases x with
    | worker i =>
      simp only [step] at h
      cases hwi : s.workers[i]? with
      | none => simp [hwi] at h
      | some w =>
        simp only [hwi] at h
        cases hop : workerOp s.shared w with
        | none => simp [hop] at h
        | some r =>
          obtain ⟨w1, op, d1⟩ := r
          simp only [hop] at h
          cases hm : lockAfter s.mutex (Tid.worker i) op with
          | none => simp [hm] at h
          | some m =>
            simp only [hm, Option.some.injEq] at h
            subst h
            have hd := (workerOp_discipline hop).2.2.2
            cases hh : w.holds with
            | true => exact (hw i w hwi).mp hh
            | false => exact absurd (hd hh) hne
    | client j =>
      simp only [step] at h
      cases hcj : s.clients[j]? with
      | none => simp [hcj] at h
      | some c =>
        simp only [hcj] at h
        cases hop : clientOp s.shared (joinable s) c with
        | none => simp [hop] at h
        | some r =>
          obtain ⟨c1, op, d1⟩ := r
          simp only [hop] at h
          cases hm : lockAfter s.mutex (Tid.client j) op with
          | none => simp [hm] at h
          | some m =>
            simp only [hm, Option.some.injEq] at h
            subst h
            have hd := (clientOp_discipline hop).2.2.2
            cases hh : c.holds with
            | true => exact (hc j c hcj).mp hh
            | false => exact absurd (hd hh) hne

/-- C19 (locking discipline): in every reachable state of the statement-level
model a thread is inside a locked scope exactly when it owns the mutex; a step
that changes the queue, `stop` or `activeTasks` is a statement of the thread
that owns the mutex; a worker inside a task body does not own it.  After the
dequeue and the increment the worker releases the mutex (line 37) before it
calls the task (line 39), the call leaves the mutex alone, and the worker
acquires it again only for the decrement (lines 42-43) and releases it right
after (line 44). -/
theorem locking_discipline (threadCount : Nat) (s s1 : State α) (e : Event α)
    (h : Reachable threadCount s) (hs : step s e = some s1) :
    Exclusive s ∧
      (s1.shared ≠ s.shared → ∃ x, e = Event.exec x ∧ s.mutex = some x) ∧
      (∀ i t, s.workers[i]? = some (Line.call t) → s.mutex ≠ some (Tid.worker i)) ∧
      (∀ (d : Shared α) (t : α),
        workerOp d (Line.count t) =
            some (Line.unlock1 t, LockOp.keep,
              { d with activeTasks := ThreadPool.incr d.activeTasks }) ∧
          workerOp d (Line.unlock1 t) = some (Line.call t, LockOp.release, d) ∧
          workerOp d (Line.call t) = some (Line.lock2, LockOp.keep, d) ∧
          workerOp d Line.lock2 = some (Line.dec, LockOp.acquire, d) ∧
          workerOp d Line.dec =
            some (Line.unlock2, LockOp.keep,
              { d with activeTasks := ThreadPool.decr d.activeTasks }) ∧
          workerOp d Line.unlock2 = some (Line.notify, LockOp.release, d)) := by
  have hE := exclusive_of_reachable h
  refine ⟨hE, mutation_by_owner hE hs, ?_, fun d t => ⟨rfl, rfl, rfl, rfl, rfl, rfl⟩⟩
  intro i t hi hm
  have := (hE.1 i _ hi).mpr hm
  simp [Line.holds] at this

theorem locking_discipline_witness :
    Exclusive sampleState ∧
      (∃ x, (Event.exec (Tid.worker 1) : Event Nat) = Event.exec x ∧
        sampleState.mutex = some x) ∧
      sampleState.mutex ≠ some (Tid.worker 0) :=
  have h := locking_discipline 2 sampleState countedState (Event.exec (Tid.worker 1))
    sampleState_reachable (by decide)
  ⟨h.1, h.2.1 (by decide), h.2.2.1 0 7 (by decide)⟩

end Locked

namespace Sys

open ThreadPool

/-! ## The completion step and `wait()` as an observation -/

theorem notify_enabled (x : Sys α) {i : Nat}
    (hn : x.pool.workers[i]? = some Worker.notifying) :
    (x.step (Action.worker i)).isSome = true ∨
      ∃ j, (x.step (Action.notify i j)).isSome = true := by
  cases hc : x.pool.done.contains Waiter.blocked with
  | false =>
    left
    rw [sys_step_of_pool (step_of_move (Move.notifyNone _ i hn hc))]
    rfl
  | true =>
    right
    have hmem : Waiter.blocked ∈ x.pool.done := by simpa using hc
    obtain ⟨j, hj⟩ := List.mem_iff_getElem?.mp hmem
    refine ⟨j, ?_⟩
    rw [sys_step_of_pool (step_of_move (Move.notify _ i j hn hj))]
    rfl

/-- C21 (completion step): in a reachable state, the step of a worker `i`
whose task body has returned is defined; it lowers `activeTasks` by exactly 1
and leaves the queue, `stop`, the wait set and the record as they are.  The
next step of that worker, the notification of line 45 (one of its two forms
is enabled), takes it back to waiting, whether `stop` is set or not, and
changes neither the queue nor `stop` nor `activeTasks`. -/
theorem completion_step (threadCount : Nat) (hK : threadCount < SIZE_RANGE) (s : Sys α)
    (i : Nat) (t : α) (h : Reachable threadCount s)
    (hw : s.pool.workers[i]? = some (Worker.finished t)) :
    ∃ s1, s.step (Action.worker i) = some s1 ∧
      s1.pool.activeTasks + 1 = s.pool.activeTasks ∧
      s1.pool.tasks = s.pool.tasks ∧ s1.pool.stop = s.pool.stop ∧
      s1.pool.done = s.pool.done ∧ s1.hist = s.hist ∧
      s1.pool.workers = s.pool.workers.set i Worker.notifying ∧
      ((s1.step (Action.worker i)).isSome = true ∨
        ∃ j, (s1.step (Action.notify i j)).isSome = true) ∧
      ∀ a s2, actor a = some i → s1.step a = some s2 →
        s2.pool.workers[i]? = some Worker.waiting ∧ s2.pool.tasks = s.pool.tasks ∧
        s2.pool.stop = s.pool.stop ∧ s2.pool.activeTasks = s1.pool.activeTasks := by
  have hact := reachable_active_eq hK h
  have hlen := reachable_workers_length h
  have hlt := effectiveThreadCount_lt hK
  have hle := busyCount_le s.pool
  have hb := busyCount_pos_of_busy hw rfl
  have hpos : 0 < s.pool.activeTasks := by omega
  have hdec : decr s.pool.activeTasks = s.pool.activeTasks - 1 := decr_eq hpos (by omega)
  have hp := step_of_move (Move.decrement s.pool i t hw)
  obtain ⟨hi, _⟩ := List.getElem?_eq_some.mp hw
  have hn : (s.pool.workers.set i Worker.notifying)[i]? = some (Worker.notifying : Worker α) :=
    List.getElem?_set_self hi
  have hrec : s.hist.record s.pool (Action.worker i) = s.hist := by
    simp only [History.record, hw]
  refine ⟨{ pool := { s.pool with workers := s.pool.workers.set i Worker.notifying,
                                   activeTasks := decr s.pool.activeTasks }
            hist := s.hist.record s.pool (Action.worker i) },
    sys_step_of_pool hp, by simp only [hdec]; omega, rfl, rfl, rfl, hrec, rfl, ?_, ?_⟩
  · exact notify_enabled _ hn
  · intro a s2 ha hs2
    obtain ⟨p2, hp2, rfl⟩ := step_eq_some hs2
    have hm := move_of_step hp2
    simp only at hm ⊢
    have hlen2 : i < (s.pool.workers.set i (Worker.notifying : Worker α)).length := by
      rw [List.length_set]
      exact hi
    have hback : ((s.pool.workers.set i (Worker.notifying : Worker α)).set i Worker.waiting)[i]?
        = some Worker.waiting := List.getElem?_set_self hlen2
    have clash : ∀ {k : Nat} {w : Worker α},
        (s.pool.workers.set i (Worker.notifying : Worker α))[k]? = some w →
        some k = some i → w = Worker.notifying := by
      intro k w hk hki
      cases hki
      rw [hn] at hk
      exact (Option.some.inj hk).symm
    cases hm with
    | enqueue t0 => simp [actor] at ha
    | shutdown => simp [actor] at ha
    | callWait => simp [actor] at ha
    | recheck j hj => simp [actor] at ha
    | spurious j hj => simp [actor] at ha
    | notify k j hk hj =>
      simp only [actor, Option.some.injEq] at ha
      subst ha
      exact ⟨hback, rfl, rfl, rfl⟩
    | notifyNone k hk hc =>
      simp only [actor, Option.some.injEq] at ha
      subst ha
      exact ⟨hback, rfl, rfl, rfl⟩
    | fault k t0 hk => cases clash hk ha
    | exit k hk hs0 ht0 => cases clash hk ha
    | block k hk hs0 ht0 => cases clash hk ha
    | dequeue k t0 rest hk ht0 => cases clash hk ha
    | start k t0 hk => cases clash hk ha
    | finish k t0 hk => cases clash hk ha
    | decrement k t0 hk => cases clash hk ha

theorem completion_step_witness :
    ∃ s1, busyState.step (Action.worker 1) = some s1 ∧
      s1.pool.activeTasks + 1 = busyState.pool.activeTasks ∧
      s1.pool.tasks = busyState.pool.tasks ∧ s1.pool.stop = busyState.pool.stop ∧
      s1.pool.done = busyState.pool.done ∧ s1.hist = busyState.hist ∧
      s1.pool.workers = busyState.pool.workers.set 1 Worker.notifying ∧
      ((s1.step (Action.worker 1)).isSome = true ∨
        ∃ j, (s1.step (Action.notify 1 j)).isSome = true) ∧
      ∀ a s2, actor a = some 1 → s1.step a = some s2 →
        s2.pool.workers[1]? = some Worker.waiting ∧ s2.pool.tasks = busyState.pool.tasks ∧
        s2.pool.stop = busyState.pool.stop ∧ s2.pool.activeTasks = s1.pool.activeTasks :=
  completion_step 2 (by decide) busyState 1 8 busyState_reachable (by decide)

theorem wait_step_frame {p p1 : ThreadPool α} {a : Action α} (ha : isWaitStep a = true)
    (h : p.step a = some p1) :
    p1.tasks = p.tasks ∧ p1.stop = p.stop ∧ p1.activeTasks = p.activeTasks ∧
      p1.workers = p.workers := by
  cases move_of_step h with
  | callWait => exact ⟨rfl, rfl, rfl, rfl⟩
  | recheck j hj => exact ⟨rfl, rfl, rfl, rfl⟩
  | spurious j hj => exact ⟨rfl, rfl, rfl, rfl⟩
  | enqueue t => simp [isWaitStep] at ha
  | shutdown => simp [isWaitStep] at ha
  | notify i j hw hj => simp [isWaitStep] at ha
  | fault i t hw => simp [isWaitStep] at ha
  | exit i hw hs ht => simp [isWaitStep] at ha
  | block i hw hs ht => simp [isWaitStep] at ha
  | dequeue i t rest hw ht => simp [isWaitStep] at ha
  | start i t hw => simp [isWaitStep] at ha
  | finish i t hw => simp [isWaitStep] at ha
  | decrement i t hw => simp [isWaitStep] at ha
  | notifyNone i hw hn => simp [isWaitStep] at ha

theorem wait_record (h : History α) (p : ThreadPool α) {a : Action α}
    (ha : isWaitStep a = true) : h.record p a = h := by
  cases a <;> simp [isWaitStep] at ha <;> rfl

/-- C22 (`wait()` is a pure observation): the steps of a call of `wait()`
(the entry, a wake-up, the evaluation of the predicate after a wake-up) leave
the queue, `stop`, `activeTasks`, the workers and the record of the run as
they are, over any number of such steps; the entry is always defined; and in
the statement-level model no statement of `wait()` writes the shared data. -/
theorem wait_is_observation (as : List (Action α)) (s s1 : Sys α)
    (hwait : ∀ a ∈ as, isWaitStep a = true) (hrun : run s as = some s1) :
    s1.pool.tasks = s.pool.tasks ∧ s1.pool.stop = s.pool.stop ∧
      s1.pool.activeTasks = s.pool.activeTasks ∧ s1.pool.workers = s.pool.workers ∧
      s1.hist = s.hist ∧
      (∀ p : ThreadPool α, ∃ p1, p.step Action.callWait = some p1 ∧ p1.tasks = p.tasks ∧
        p1.stop = p.stop ∧ p1.activeTasks = p.activeTasks ∧ p1.workers = p.workers) ∧
      (∀ (d d1 : Locked.Shared α) (b : Bool) (c c1 : Locked.Client α) (op : Locked.LockOp),
        c.inWait = true → Locked.clientOp d b c = some (c1, op, d1) → d1 = d) := by
  have hframe := run_preserves_on
    (fun x => x.pool.tasks = s.pool.tasks ∧ x.pool.stop = s.pool.stop ∧
      x.pool.activeTasks = s.pool.activeTasks ∧ x.pool.workers = s.pool.workers ∧
      x.hist = s.hist)
    (fun a => isWaitStep a = true)
    (fun x a x1 ha hP hx => by
      obtain ⟨p, hp, rfl⟩ := step_eq_some hx
      obtain ⟨h1, h2, h3, h4⟩ := wait_step_frame ha hp
      obtain ⟨g1, g2, g3, g4, g5⟩ := hP
      simp only
      exact ⟨h1.trans g1, h2.trans g2, h3.trans g3, h4.trans g4,
        (wait_record x.hist x.pool ha).trans g5⟩)
    as s s1 hwait ⟨rfl, rfl, rfl, rfl, rfl⟩ hrun
  obtain ⟨g1, g2, g3, g4, g5⟩ := hframe
  refine ⟨g1, g2, g3, g4, g5, fun p => ⟨p.callWait, rfl, rfl, rfl, rfl, rfl⟩, ?_⟩
  intro d d1 b c c1 op hc hop
  cases c <;> simp [Locked.Client.inWait] at hc
  · simp only [Locked.clientOp, Option.some.injEq, Prod.mk.injEq] at hop
    exact hop.2.2.symm
  · simp only [Locked.clientOp] at hop
    split at hop <;> simp only [Option.some.injEq, Prod.mk.injEq] at hop <;> exact hop.2.2.symm
  · simp only [Locked.clientOp, Option.some.injEq, Prod.mk.injEq] at hop
    exact hop.2.2.symm
  · simp only [Locked.clientOp, Option.some.injEq, Prod.mk.injEq] at hop
    exact hop.2.2.symm
  · simp only [Locked.clientOp, Option.some.injEq, Prod.mk.injEq] at hop
    exact hop.2.2.symm

theorem wait_is_observation_witness :
    observedState.pool.tasks = wokenState.pool.tasks ∧
      observedState.pool.stop = wokenState.pool.stop ∧
      observedState.pool.activeTasks = wokenState.pool.activeTasks ∧
      observedState.pool.workers = wokenState.pool.workers ∧
      observedState.hist = wokenState.hist :=
  have h := wait_is_observation [Action.recheck 0, Action.callWait] wokenState observedState
    (by decide) (by decide)
  ⟨h.1, h.2.1, h.2.2.1, h.2.2.2.1, h.2.2.2.2.1⟩

end Sys

namespace Cv

variable {α : Type u}

open ThreadPool Sys

/-! ## The wait set of `cv`: runs and their projection -/

theorem cv_step_act {s s1 : State α} {a : Action α} (h : step s (Event.act a) = some s1) :
    dormant s a = false ∧ ∃ x, s.sys.step a = some x ∧ s1 = after s x a := by
  simp only [step] at h
  cases hd : dormant s a with
  | true => simp [hd] at h
  | false =>
    simp only [hd, Bool.false_eq_true, if_false] at h
    cases hx : s.sys.step a with
    | none => simp [hx] at h
    | some x =>
      simp only [hx, Option.some.injEq] at h
      exact ⟨rfl, x, rfl, h.symm⟩

theorem cv_after_sys (s : State α) (x : Sys α) (a : Action α) : (after s x a).sys = x := by
  cases a <;> rfl

theorem cv_step_sys {s s1 : State α} {e : Event α} (h : step s e = some s1) :
    Sys.run s.sys (acts [e]) = some s1.sys := by
  cases e with
  | act a =>
    obtain ⟨_, x, hx, rfl⟩ := cv_step_act h
    simp only [acts, Sys.run, hx, cv_after_sys]
  | notifyOne k =>
    cases k with
    | none =>
      simp only [step] at h
      split at h
      · cases h; rfl
      · cases h
    | some k =>
      simp only [step] at h
      split at h
      · cases h; rfl
      · cases h
  | notifyAll =>
    simp only [step] at h
    split at h
    · cases h; rfl
    · cases h
  | spuriousWake i =>
    simp only [step] at h
    split at h
    · cases h; rfl
    · cases h

theorem cv_acts_cons (e : Event α) (es : List (Event α)) : acts (e :: es) = acts [e] ++ acts es := by
  cases e <;> rfl

theorem cv_run_acts : ∀ (es : List (Event α)) (s s2 : State α), run s es = some s2 →
    Sys.run s.sys (acts es) = some s2.sys := by
  intro es
  induction es with
  | nil =>
    intro s s2 h
    simp only [run, Option.some.injEq] at h
    subst h
    rfl
  | cons e es ih =>
    intro s s2 h
    simp only [run] at h
    cases hs : step s e with
    | none => simp [hs] at h
    | some s1 =>
      rw [hs] at h
      rw [cv_acts_cons, Sys.run_append, cv_step_sys hs]
      exact ih s1 s2 h

theorem cv_reachable_sys {threadCount : Nat} {s : State α} (h : Reachable threadCount s) :
    Sys.Reachable threadCount s.sys := by
  obtain ⟨es, hes⟩ := h
  exact ⟨acts es, cv_run_acts es _ s hes⟩

theorem cv_run_preserves (P : State α → Prop) (Q : Event α → Prop)
    (hstep : ∀ s e s1, Q e → P s → step s e = some s1 → P s1) :
    ∀ (es : List (Event α)) (s s1 : State α), (∀ e ∈ es, Q e) → P s → run s es = some s1 →
      P s1 := by
  intro es
  induction es with
  | nil =>
    intro s s1 _ hP h
    simp only [run, Option.some.injEq] at h
    subst h
    exact hP
  | cons e es ih =>
    intro s s1 hQ hP h
    simp only [run] at h
    cases hs : step s e with
    | none => simp [hs] at h
    | some s2 =>
      rw [hs] at h
      exact ih s2 s1 (fun b hb => hQ b (List.mem_cons_of_mem _ hb))
        (hstep s e s2 (hQ e (List.mem_cons_self _ _)) hP hs) h

theorem cv_run_append (s : State α) (es fs : List (Event α)) :
    run s (es ++ fs) = (run s es).bind (fun s1 => run s1 fs) := by
  induction es generalizing s with
  | nil => rfl
  | cons e es ih =>
    simp only [List.cons_append, run]
    cases step s e with
    | none => rfl
    | some s1 => exact ih s1

theorem cv_reachable_run {threadCount : Nat} {s s1 : State α} {es : List (Event α)}
    (h : Reachable threadCount s) (hrun : run s es = some s1) : Reachable threadCount s1 := by
  obtain ⟨es0, h0⟩ := h
  refine ⟨es0 ++ es, ?_⟩
  rw [cv_run_append, h0]
  exact hrun

theorem cv_reachable_step {threadCount : Nat} {s s1 : State α} {e : Event α}
    (h : Reachable threadCount s) (hs : step s e = some s1) : Reachable threadCount s1 :=
  @cv_reachable_run α threadCount s s1 [e] h (by simp [run, hs])

/-! ## The wait set of `cv`: no lost wake-up -/

theorem awake_of_not_asleep {l : List Bool} {i : Nat} (hi : i < l.length)
    (h : l[i]? ≠ some true) : l[i]? = some false := by
  rw [List.getElem?_eq_getElem hi] at h ⊢
  cases hb : l[i] with
  | true => simp [hb] at h
  | false => rfl

theorem asleep_of_contains {l : List Bool} (h : l.contains true = true) :
    ∃ i : Nat, l[i]? = some true := by
  have hmem : true ∈ l := by simpa using h
  exact List.mem_iff_getElem?.mp hmem

theorem not_asleep_of_contains {l : List Bool} (h : l.contains true = false) (i : Nat) :
    l[i]? ≠ some true := by
  intro hi
  have hmem : true ∈ l := List.mem_iff_getElem?.mpr ⟨i, hi⟩
  have : l.contains true = true := by simpa using hmem
  rw [h] at this
  cases this

theorem sleeps_iff (s : State α) (i : Nat) : sleeps s i = true ↔ s.asleep[i]? = some true := by
  simp [sleeps]

theorem getElem?_set_true {l : List Bool} {i j : Nat} {b : Bool}
    (h : (l.set i b)[j]? = some (!b)) : l[j]? = some (!b) := by
  by_cases hij : i = j
  · subst hij
    by_cases hi : i < l.length
    · rw [List.getElem?_set_self hi] at h
      cases b <;> simp at h
    · rw [List.getElem?_eq_none (by simpa using hi)] at h
      cases h
  · rwa [List.getElem?_set_ne hij] at h

theorem cv_inv_init (threadCount : Nat) : Inv (init threadCount : State α) := by
  refine ⟨by simp [init, Sys.init, create], ?_, ?_, ?_⟩
  · intro i hi
    simp only [init] at hi
    rw [List.getElem?_replicate] at hi
    split at hi <;> cases hi
  · intro hs
    simp [init, Sys.init, create] at hs
  · intro ht
    simp [init, Sys.init, create] at ht

/-- The invariant after a step that replaces the control point of a worker
that is awake. -/
theorem cv_inv_set {s s1 : State α} {i : Nat} {w v : Worker α} (hI : Inv s)
    (hw : s.sys.pool.workers[i]? = some w) (hawake : sleeps s i = false)
    (hasl : s1.asleep = s.asleep) (hall : s1.notifyAllDue = s.notifyAllDue) (hstop : s1.sys.pool.stop = s.sys.pool.stop)
    (hwk : s1.sys.pool.workers = s.sys.pool.workers.set i v)
    (hv : s1.sys.pool.tasks ≠ [] → hasExited v = false) : Inv s1 := by
  obtain ⟨hi, _⟩ := List.getElem?_eq_some.mp hw
  have hne : s.asleep[i]? ≠ some true := by
    intro h
    rw [(sleeps_iff s i).mpr h] at hawake
    cases hawake
  refine ⟨?_, ?_, ?_, ?_⟩
  · rw [hasl, hwk, List.length_set]
    exact hI.len
  · intro j hj
    rw [hasl] at hj
    have hji : i ≠ j := by
      intro h
      subst h
      exact hne hj
    rw [hwk, List.getElem?_set_ne hji]
    exact hI.waiting j hj
  · intro hs hex
    rw [hasl] at hex
    rw [hstop] at hs
    rw [hall]
    exact hI.stopped hs hex
  · intro ht
    refine Or.inr (Or.inl ⟨i, v, ?_, hv ht, ?_⟩)
    · rw [hwk]
      exact List.getElem?_set_self hi
    · rw [hasl]
      exact awake_of_not_asleep (by rw [hI.len]; exact hi) hne

/-- The invariant after a step that leaves the workers and the wait set as
they are. -/
theorem cv_inv_same {s s1 : State α} (hI : Inv s)
    (hasl : s1.asleep = s.asleep) (hwk : s1.sys.pool.workers = s.sys.pool.workers)
    (hone : s.notifyOneDue ≤ s1.notifyOneDue) (hall : s.notifyAllDue ≤ s1.notifyAllDue)
    (hstop : s1.sys.pool.stop = true → s.sys.pool.stop = true ∨ 0 < s1.notifyAllDue)
    (htasks : s1.sys.pool.tasks ≠ [] → s.sys.pool.tasks ≠ [] ∨ 0 < s1.notifyOneDue) :
    Inv s1 := by
  refine ⟨by rw [hasl, hwk]; exact hI.len, ?_, ?_, ?_⟩
  · intro j hj
    rw [hasl] at hj
    rw [hwk]
    exact hI.waiting j hj
  · intro hs hex
    rw [hasl] at hex
    rcases hstop hs with h | h
    · exact lt_of_lt_of_le (hI.stopped h hex) hall
    · exact h
  · intro ht
    rcases htasks ht with h | h
    · rcases hI.queued h with h1 | h1 | h1
      · exact Or.inl (lt_of_lt_of_le h1 hone)
      · rw [hasl, hwk]
        exact Or.inr (Or.inl h1)
      · rw [hwk]
        exact Or.inr (Or.inr h1)
    · exact Or.inl h

/-- The invariant after a step that only takes workers out of the wait set,
as far as the wait set itself goes. -/
theorem cv_inv_wake {s s1 : State α} (hI : Inv s) (hsys : s1.sys = s.sys)
    (hlen : s1.asleep.length = s.asleep.length)
    (hsub : ∀ j : Nat, s1.asleep[j]? = some true → s.asleep[j]? = some true)
    (hall : s1.asleep = s.asleep.map (fun _ => false) ∨ s1.notifyAllDue = s.notifyAllDue)
    (hq : s1.sys.pool.tasks ≠ [] →
      0 < s1.notifyOneDue ∨
        (∃ (i : Nat) (w : Worker α), s1.sys.pool.workers[i]? = some w ∧ hasExited w = false ∧
          s1.asleep[i]? = some false) ∨
        s1.sys.pool.workers.all hasExited = true) : Inv s1 := by
  refine ⟨by rw [hlen, hsys]; exact hI.len, ?_, ?_, hq⟩
  · intro j hj
    rw [hsys]
    exact hI.waiting j (hsub j hj)
  · intro hs hex
    rcases hall with h | h
    · obtain ⟨j, hj⟩ := hex
      rw [h, List.getElem?_map] at hj
      cases hx : s.asleep[j]? with
      | none => simp [hx] at hj
      | some b => simp [hx] at hj
    · rw [h]
      rw [hsys] at hs
      obtain ⟨j, hj⟩ := hex
      exact hI.stopped hs ⟨j, hsub j hj⟩

/-- Somebody is awake and in the loop, or all have left, when nobody sleeps. -/
theorem awake_or_gone {s : State α} (hI : Inv s) {l : List Bool}
    (hlen : l.length = s.asleep.length) (hnone : ∀ j : Nat, l[j]? ≠ some true) :
    (∃ (i : Nat) (w : Worker α), s.sys.pool.workers[i]? = some w ∧ hasExited w = false ∧
        l[i]? = some false) ∨ s.sys.pool.workers.all hasExited = true := by
  by_cases hall : s.sys.pool.workers.all hasExited = true
  · exact Or.inr hall
  · left
    simp only [Bool.not_eq_true] at hall
    rw [List.all_eq_false] at hall
    obtain ⟨w, hw, hwe⟩ := hall
    obtain ⟨i, hi⟩ := List.mem_iff_getElem?.mp hw
    obtain ⟨hlt, _⟩ := List.getElem?_eq_some.mp hi
    refine ⟨i, w, hi, by simpa using hwe, ?_⟩
    exact awake_of_not_asleep (by rw [hlen, hI.len]; exact hlt) (hnone i)

theorem goesToSleep_iff (p : ThreadPool α) (i : Nat) :
    goesToSleep p i = true ↔
      p.workers[i]? = some Worker.waiting ∧ p.stop = false ∧ p.tasks = [] := by
  unfold goesToSleep
  cases hw : p.workers[i]? with
  | none => simp
  | some w =>
    cases w <;> simp [workPred]

theorem cv_inv_step {s s1 : State α} {e : Event α} (hI : Inv s) (h : step s e = some s1) :
    Inv s1 := by
  cases e with
  | act a =>
    obtain ⟨hd, x, hx, rfl⟩ := cv_step_act h
    obtain ⟨hm, _⟩ := sys_move hx
    have hact : ∀ i, actor a = some i → sleeps s i = false := by
      intro i hi
      simpa [dormant, hi] using hd
    generalize hp1 : x.pool = p1 at hm
    cases hm with
    | enqueue t =>
      refine cv_inv_same hI rfl ?_ (Nat.le_succ _) (le_refl _) ?_ ?_
      · simp [after, cv_after_sys, hp1, ThreadPool.enqueue]
      · intro hs
        left
        simpa [after, hp1, ThreadPool.enqueue] using hs
      · intro _
        right
        simp [after]
    | shutdown =>
      refine cv_inv_same hI rfl ?_ (le_refl _) (Nat.le_succ _) ?_ ?_
      · simp [after, hp1, ThreadPool.shutdown]
      · intro _
        right
        simp [after]
      · intro ht
        left
        simpa [after, hp1, ThreadPool.shutdown] using ht
    | callWait =>
      refine cv_inv_same hI rfl ?_ (le_refl _) (le_refl _) ?_ ?_
      · simp [after, hp1, ThreadPool.callWait]
      · intro hs
        left
        simpa [after, hp1, ThreadPool.callWait] using hs
      · intro ht
        left
        simpa [after, hp1, ThreadPool.callWait] using ht
    | recheck j hj =>
      refine cv_inv_same hI rfl ?_ (le_refl _) (le_refl _) ?_ ?_
      · simp [after, hp1]
      · intro hs
        left
        simpa [after, hp1] using hs
      · intro ht
        left
        simpa [after, hp1] using ht
    | spurious j hj =>
      refine cv_inv_same hI rfl ?_ (le_refl _) (le_refl _) ?_ ?_
      · simp [after, hp1]
      · intro hs
        left
        simpa [after, hp1] using hs
      · intro ht
        left
        simpa [after, hp1] using ht
    | notify i j hw hj =>
      refine cv_inv_set (v := Worker.waiting) hI hw (hact i rfl) rfl rfl ?_ ?_ (fun _ => rfl)
      · simp [after, hp1]
      · simp [after, hp1]
    | fault i t hw =>
      refine cv_inv_set (v := Worker.faulted t) hI hw (hact i rfl) rfl rfl ?_ ?_
        (fun _ => rfl)
      · simp [after, hp1]
      · simp [after, hp1]
    | exit i hw hs ht =>
      have hg : goesToSleep s.sys.pool i = false := by
        rw [Bool.eq_false_iff, Ne, goesToSleep_iff]
        intro hc
        rw [hs] at hc
        cases hc.2.1
      refine cv_inv_set (v := Worker.exited) hI hw (hact i rfl) ?_ rfl ?_ ?_ ?_
      · simp [after, hg]
      · simp [after, hp1]
      · simp [after, hp1]
      · intro hne
        exact absurd (by simpa [after, hp1] using ht) hne
    | block i hw hs ht =>
      have hg : goesToSleep s.sys.pool i = true := (goesToSleep_iff _ _).mpr ⟨hw, hs, ht⟩
      obtain ⟨hi, _⟩ := List.getElem?_eq_some.mp hw
      have hpool : (after s x (Action.worker i)).sys.pool = s.sys.pool := by
        simp [after, hp1]
      have hasl : (after s x (Action.worker i)).asleep = s.asleep.set i true := by
        simp [after, hg]
      refine ⟨?_, ?_, ?_, ?_⟩
      · rw [hasl, hpool, List.length_set]
        exact hI.len
      · intro j hj
        rw [hpool]
        rw [hasl] at hj
        by_cases hij : i = j
        · subst hij
          exact hw
        · rw [List.getElem?_set_ne hij] at hj
          exact hI.waiting j hj
      · intro hst
        rw [hpool, hs] at hst
        cases hst
      · intro hne
        rw [hpool] at hne
        exact absurd ht hne
    | dequeue i t rest hw ht =>
      have hg : goesToSleep s.sys.pool i = false := by
        rw [Bool.eq_false_iff, Ne, goesToSleep_iff]
        intro hc
        rw [ht] at hc
        cases hc.2.2
      refine cv_inv_set (v := Worker.holding t) hI hw (hact i rfl) ?_ rfl ?_ ?_
        (fun _ => rfl)
      · simp [after, hg]
      · simp [after, hp1]
      · simp [after, hp1]
    | start i t hw =>
      have hg : goesToSleep s.sys.pool i = false := by
        rw [Bool.eq_false_iff, Ne, goesToSleep_iff, hw]
        intro hc
        cases hc.1
      refine cv_inv_set (v := Worker.running t) hI hw (hact i rfl) ?_ rfl ?_ ?_
        (fun _ => rfl)
      · simp [after, hg]
      · simp [after, hp1]
      · simp [after, hp1]
    | finish i t hw =>
      have hg : goesToSleep s.sys.pool i = false := by
        rw [Bool.eq_false_iff, Ne, goesToSleep_iff, hw]
        intro hc
        cases hc.1
      refine cv_inv_set (v := Worker.finished t) hI hw (hact i rfl) ?_ rfl ?_ ?_
        (fun _ => rfl)
      · simp [after, hg]
      · simp [after, hp1]
      · simp [after, hp1]
    | decrement i t hw =>
      have hg : goesToSleep s.sys.pool i = false := by
        rw [Bool.eq_false_iff, Ne, goesToSleep_iff, hw]
        intro hc
        cases hc.1
      refine cv_inv_set (v := Worker.notifying) hI hw (hact i rfl) ?_ rfl ?_ ?_
        (fun _ => rfl)
      · simp [after, hg]
      · simp [after, hp1]
      · simp [after, hp1]
    | notifyNone i hw hn =>
      have hg : goesToSleep s.sys.pool i = false := by
        rw [Bool.eq_false_iff, Ne, goesToSleep_iff, hw]
        intro hc
        cases hc.1
      refine cv_inv_set (v := Worker.waiting) hI hw (hact i rfl) ?_ rfl ?_ ?_
        (fun _ => rfl)
      · simp [after, hg]
      · simp [after, hp1]
      · simp [after, hp1]
  | notifyOne k =>
    cases k with
    | none =>
      simp only [step] at h
      split at h
      · rename_i hc
        cases h
        refine cv_inv_wake hI rfl rfl (fun j hj => hj) (Or.inr rfl) ?_
        intro _
        exact Or.inr (awake_or_gone hI rfl (not_asleep_of_contains hc.2))
      · cases h
    | some k =>
      simp only [step] at h
      split at h
      · rename_i hc
        cases h
        have hk := (sleeps_iff s k).mp hc.2
        obtain ⟨hklt, _⟩ := List.getElem?_eq_some.mp hk
        refine cv_inv_wake hI rfl (List.length_set _ _ _)
          (fun j hj => getElem?_set_true (b := false) hj) (Or.inr rfl) ?_
        intro _
        refine Or.inr (Or.inl ⟨k, Worker.waiting, hI.waiting k hk, rfl, ?_⟩)
        exact List.getElem?_set_self hklt
      · cases h
  | notifyAll =>
    simp only [step] at h
    split at h
    · cases h
      have hnone : ∀ j : Nat, (s.asleep.map (fun _ => false))[j]? ≠ some true := by
        intro j hj
        rw [List.getElem?_map] at hj
        cases hx : s.asleep[j]? with
        | none => simp [hx] at hj
        | some b => simp [hx] at hj
      refine cv_inv_wake hI rfl (List.length_map _ _) (fun j hj => absurd hj (hnone j))
        (Or.inl rfl) ?_
      intro ht
      rcases hI.queued ht with h1 | h1 | h1
      · exact Or.inl h1
      · exact Or.inr (awake_or_gone hI (List.length_map _ _) hnone)
      · exact Or.inr (Or.inr h1)
    · cases h
  | spuriousWake i =>
    simp only [step] at h
    split at h
    · rename_i hc
      cases h
      have hk := (sleeps_iff s i).mp hc
      obtain ⟨hklt, _⟩ := List.getElem?_eq_some.mp hk
      refine cv_inv_wake hI rfl (List.length_set _ _ _)
        (fun j hj => getElem?_set_true (b := false) hj) (Or.inr rfl) ?_
      intro _
      refine Or.inr (Or.inl ⟨i, Worker.waiting, hI.waiting i hk, rfl, ?_⟩)
      exact List.getElem?_set_self hklt
    · cases h

theorem cv_reachable_inv {threadCount : Nat} {s : State α} (h : Reachable threadCount s) :
    Inv s := by
  obtain ⟨es, hes⟩ := h
  exact cv_run_preserves Inv (fun _ => True) (fun _ _ _ _ hP hx => cv_inv_step hP hx) es _ s
    (fun _ _ => trivial) (cv_inv_init threadCount) hes

/-! ## The wait set of `cv`: every internal event lowers the potential -/

theorem count_false_set_true {l : List Bool} {i : Nat} (h : l[i]? = some false) :
    (l.set i true).count false + 1 = l.count false := by
  obtain ⟨l1, l2, hl, hset⟩ := split_at_index h
  rw [hset, hl]
  simp [List.count_append, List.count_cons]
  omega

theorem count_false_set_false {l : List Bool} {i : Nat} (h : l[i]? = some true) :
    (l.set i false).count false = l.count false + 1 := by
  obtain ⟨l1, l2, hl, hset⟩ := split_at_index h
  rw [hset, hl]
  simp [List.count_append, List.count_cons]
  omega

theorem count_false_map (l : List Bool) : (l.map (fun _ => false)).count false = l.length := by
  induction l with
  | nil => rfl
  | cons b l ih => simp [List.count_cons, ih]

theorem potential_act {s : State α} {x : Sys α} {a : Action α} (hI : Inv s)
    (hd : dormant s a = false) (hx : s.sys.step a = some x) :
    (if internal (Event.act a) then 1 else 0) + potential (after s x a) ≤
      potential s + credit s.asleep.length (Event.act a) := by
  obtain ⟨hm, _⟩ := sys_move hx
  generalize hp1 : x.pool = p1 at hm
  have hsame : ∀ {i : Nat} {w : Worker α}, s.sys.pool.workers[i]? = some w →
      w ≠ Worker.waiting → (after s x (Action.worker i)).asleep = s.asleep := by
    intro i w hw hne
    have hg : goesToSleep s.sys.pool i = false := by
      rw [Bool.eq_false_iff, Ne, goesToSleep_iff, hw]
      intro hc
      exact hne (Option.some.inj hc.1)
    simp [after, hg]
  cases hm with
  | enqueue t =>
    simp [potential, after, internal, credit, Sys.rank, hp1, ThreadPool.enqueue]
    omega
  | shutdown =>
    simp [potential, after, internal, credit, Sys.rank, hp1, ThreadPool.shutdown]
    ring_nf
    omega
  | callWait => simp [potential, after, internal, credit, Sys.rank, hp1, ThreadPool.callWait]
  | recheck j hj => simp [potential, after, internal, credit, Sys.rank, hp1]
  | spurious j hj => simp [potential, after, internal, credit, Sys.rank, hp1]
  | notify i j hw hj =>
    have := weight_sum_set (v := Worker.waiting) hw
    simp only [potential, after, internal, credit, Sys.rank, hp1, weight, if_true] at this ⊢
    omega
  | fault i t hw =>
    have := weight_sum_set (v := Worker.faulted t) hw
    simp only [potential, after, internal, credit, Sys.rank, hp1, weight] at this ⊢
    simp only [Bool.false_eq_true, if_false]
    omega
  | exit i hw hs ht =>
    have := weight_sum_set (v := Worker.exited) hw
    have hg : goesToSleep s.sys.pool i = false := by
      rw [Bool.eq_false_iff, Ne, goesToSleep_iff]
      intro hc
      rw [hs] at hc
      cases hc.2.1
    simp only [potential, after, internal, credit, Sys.rank, hp1, weight, hg, if_true] at this ⊢
    simp only [Bool.false_eq_true, if_false]
    omega
  | block i hw hs ht =>
    have hg : goesToSleep s.sys.pool i = true := (goesToSleep_iff _ _).mpr ⟨hw, hs, ht⟩
    obtain ⟨hi, _⟩ := List.getElem?_eq_some.mp hw
    have hne : s.asleep[i]? ≠ some true := by
      intro h
      have : sleeps s i = true := (sleeps_iff s i).mpr h
      simp [dormant, actor, this] at hd
    have hawake := awake_of_not_asleep (by rw [hI.len]; exact hi) hne
    have hc := count_false_set_true hawake
    simp only [potential, after, internal, credit, hp1, hg, if_true, List.length_set]
    omega
  | dequeue i t rest hw ht =>
    have := weight_sum_set (v := Worker.holding t) hw
    have hg : goesToSleep s.sys.pool i = false := by
      rw [Bool.eq_false_iff, Ne, goesToSleep_iff]
      intro hc
      rw [ht] at hc
      cases hc.2.2
    simp only [potential, after, internal, credit, Sys.rank, hp1, weight, hg, if_true, ht,
      List.length_cons] at this ⊢
    simp only [Bool.false_eq_true, if_false]
    omega
  | start i t hw =>
    have := weight_sum_set (v := Worker.running t) hw
    have ha := hsame hw (by intro h; cases h)
    simp only [potential, internal, credit, Sys.rank, weight, if_true, ha] at this ⊢
    simp only [after, hp1]
    omega
  | finish i t hw =>
    have := weight_sum_set (v := Worker.finished t) hw
    have ha := hsame hw (by intro h; cases h)
    simp only [potential, internal, credit, Sys.rank, weight, if_true, ha] at this ⊢
    simp only [after, hp1]
    omega
  | decrement i t hw =>
    have := weight_sum_set (v := Worker.notifying) hw
    have ha := hsame hw (by intro h; cases h)
    simp only [potential, internal, credit, Sys.rank, weight, if_true, ha] at this ⊢
    simp only [after, hp1]
    omega
  | notifyNone i hw hn =>
    have := weight_sum_set (v := Worker.waiting) hw
    have ha := hsame hw (by intro h; cases h)
    simp only [potential, internal, credit, Sys.rank, weight, if_true, ha] at this ⊢
    simp only [after, hp1]
    omega

/-- Every internal event lowers the potential by at least 1; no other event
raises it by more than its credit. -/
theorem potential_step {s s1 : State α} {e : Event α} (hI : Inv s) (h : step s e = some s1) :
    (if internal e then 1 else 0) + potential s1 ≤ potential s + credit s.asleep.length e := by
  cases e with
  | act a =>
    obtain ⟨hd, x, hx, rfl⟩ := cv_step_act h
    exact potential_act hI hd hx
  | notifyOne k =>
    cases k with
    | none =>
      simp only [step] at h
      split at h
      · rename_i hc
        cases h
        simp only [potential, internal, credit, if_true]
        omega
      · cases h
    | some k =>
      simp only [step] at h
      split at h
      · rename_i hc
        cases h
        have hk := count_false_set_false ((sleeps_iff s k).mp hc.2)
        simp only [potential, internal, credit, if_true, List.length_set, hk]
        omega
      · cases h
  | notifyAll =>
    simp only [step] at h
    split at h
    · rename_i hc
      cases h
      have hle : s.asleep.count false ≤ s.asleep.length := List.count_le_length _ _
      simp only [potential, internal, credit, if_true, List.length_map, count_false_map]
      obtain ⟨d, hd⟩ : ∃ d, s.notifyAllDue = d + 1 := ⟨s.notifyAllDue - 1, by omega⟩
      rw [hd, Nat.add_sub_cancel, Nat.mul_succ]
      omega
    · cases h
  | spuriousWake i =>
    simp only [step] at h
    split at h
    · rename_i hc
      cases h
      have hk := count_false_set_false ((sleeps_iff s i).mp hc)
      simp only [potential, internal, credit, List.length_set, hk]
      simp only [Bool.false_eq_true, if_false]
      omega
    · cases h

theorem cv_step_length {s s1 : State α} {e : Event α} (h : step s e = some s1) :
    s1.asleep.length = s.asleep.length := by
  cases e with
  | act a =>
    obtain ⟨hd, x, hx, rfl⟩ := cv_step_act h
    cases a <;> simp [after]
    split <;> simp
  | notifyOne k =>
    cases k with
    | none =>
      simp only [step] at h
      split at h
      · cases h; rfl
      · cases h
    | some k =>
      simp only [step] at h
      split at h
      · cases h; simp
      · cases h
  | notifyAll =>
    simp only [step] at h
    split at h
    · cases h; simp
    · cases h
  | spuriousWake i =>
    simp only [step] at h
    split at h
    · cases h; simp
    · cases h

/-- Along any run, the internal events number at most the potential at the
start plus the credits of the events of the run. -/
theorem potential_run : ∀ (es : List (Event α)) (s s1 : State α), Inv s → run s es = some s1 →
    es.countP internal + potential s1 ≤ potential s + credits s.asleep.length es := by
  intro es
  induction es with
  | nil =>
    intro s s1 _ h
    simp only [run, Option.some.injEq] at h
    subst h
    simp [credits]
  | cons e es ih =>
    intro s s1 hI h
    simp only [run] at h
    cases hs : step s e with
    | none => simp [hs] at h
    | some s2 =>
      rw [hs] at h
      have h1 := ih s2 s1 (cv_inv_step hI hs) h
      have h2 := potential_step hI hs
      rw [cv_step_length hs] at h1
      simp only [credits, List.map_cons, List.sum_cons, List.countP_cons] at h1 ⊢
      split at h2 <;> rename_i hint <;> simp only [hint] at h2 ⊢ <;> simp at h2 ⊢ <;> omega

/-! ## The wait set of `cv`: where a run comes to a halt -/

theorem cv_step_of_sys {s : State α} {a : Action α} {x : Sys α} (hd : dormant s a = false)
    (hx : s.sys.step a = some x) : step s (Event.act a) = some (after s x a) := by
  simp only [step, hd, hx, Bool.false_eq_true, if_false]

theorem internal_credit {e : Event α} (n : Nat) (h : internal e = true) : credit n e = 0 := by
  cases e with
  | act a => cases a <;> simp [internal] at h <;> rfl
  | notifyOne k => rfl
  | notifyAll => rfl
  | spuriousWake i => simp [internal] at h

/-- In a state without an enabled internal event no notification is owed, and
every worker is asleep in `cv.wait` or has left its loop. -/
theorem halted_state {s : State α} (hI : Inv s) (hH : Halted s)
    (hnf : s.sys.pool.workers.any hasFaulted = false) :
    s.notifyOneDue = 0 ∧ s.notifyAllDue = 0 ∧
      ∀ (i : Nat) (w : Worker α), s.sys.pool.workers[i]? = some w →
        w = Worker.exited ∨ (w = Worker.waiting ∧ s.asleep[i]? = some true) := by
  refine ⟨?_, ?_, ?_⟩
  · by_contra hne
    have hpos : 0 < s.notifyOneDue := Nat.pos_of_ne_zero hne
    cases hc : s.asleep.contains true with
    | false =>
      have h1 : step s (Event.notifyOne none) =
          some { s with notifyOneDue := s.notifyOneDue - 1 } := by
        simp only [step]
        exact if_pos ⟨hpos, hc⟩
      rw [hH (Event.notifyOne none) rfl] at h1
      cases h1
    | true =>
      obtain ⟨k, hk⟩ := asleep_of_contains hc
      have h1 : step s (Event.notifyOne (some k)) =
          some { s with asleep := s.asleep.set k false, notifyOneDue := s.notifyOneDue - 1 } := by
        simp only [step]
        exact if_pos ⟨hpos, (sleeps_iff s k).mpr hk⟩
      rw [hH (Event.notifyOne (some k)) rfl] at h1
      cases h1
  · by_contra hne
    have hpos : 0 < s.notifyAllDue := Nat.pos_of_ne_zero hne
    have h1 : step s Event.notifyAll =
        some { s with asleep := s.asleep.map (fun _ => false),
                      notifyAllDue := s.notifyAllDue - 1 } := by
      simp only [step]
      exact if_pos hpos
    rw [hH Event.notifyAll rfl] at h1
    cases h1
  · intro i w hw
    cases hsl : sleeps s i with
    | true =>
      have hi := (sleeps_iff s i).mp hsl
      have := hI.waiting i hi
      rw [hw] at this
      exact Or.inr ⟨Option.some.inj this, hi⟩
    | false =>
      left
      have hd : ∀ a : Action α, actor a = some i → dormant s a = false := by
        intro a ha
        simp [dormant, ha, hsl]
      have stuck : ∀ (a : Action α) (p1 : ThreadPool α), Move s.sys.pool a p1 →
          internal (Event.act a) = true → actor a = some i → False := by
        intro a p1 hm hint ha
        have h1 := cv_step_of_sys (hd a ha) (sys_step_of_pool (step_of_move hm))
        rw [hH _ hint] at h1
        cases h1
      cases w with
      | exited => rfl
      | waiting =>
        exfalso
        cases hs : s.sys.pool.stop with
        | true =>
          cases ht : s.sys.pool.tasks with
          | nil => exact stuck _ _ (Move.exit s.sys.pool i hw hs ht) rfl rfl
          | cons t rest => exact stuck _ _ (Move.dequeue s.sys.pool i t rest hw ht) rfl rfl
        | false =>
          cases ht : s.sys.pool.tasks with
          | nil => exact stuck _ _ (Move.block s.sys.pool i hw hs ht) rfl rfl
          | cons t rest => exact stuck _ _ (Move.dequeue s.sys.pool i t rest hw ht) rfl rfl
      | holding t => exact (stuck _ _ (Move.start s.sys.pool i t hw) rfl rfl).elim
      | running t => exact (stuck _ _ (Move.finish s.sys.pool i t hw) rfl rfl).elim
      | finished t => exact (stuck _ _ (Move.decrement s.sys.pool i t hw) rfl rfl).elim
      | notifying =>
        exfalso
        cases hc : s.sys.pool.done.contains Waiter.blocked with
        | false => exact stuck _ _ (Move.notifyNone s.sys.pool i hw hc) rfl rfl
        | true =>
          have hmem : Waiter.blocked ∈ s.sys.pool.done := by simpa using hc
          obtain ⟨j, hj⟩ := List.mem_iff_getElem?.mp hmem
          exact stuck (Action.notify i j) _ (Move.notify s.sys.pool i j hw hj) rfl rfl
      | faulted t =>
        have := mem_of_index hw
        rw [Bool.eq_false_iff] at hnf
        exact absurd (List.any_eq_true.mpr ⟨_, this, rfl⟩) hnf

/-- Where the run has come to a halt, all workers have left when `stop` is
set, and also when a task is still queued. -/
theorem halted_joined {s : State α} (hI : Inv s) (hH : Halted s)
    (hnf : s.sys.pool.workers.any hasFaulted = false) :
    (s.sys.pool.stop = true → s.sys.pool.joined = true) ∧
      (s.sys.pool.tasks ≠ [] → s.sys.pool.joined = true) := by
  obtain ⟨hone, hall, hw⟩ := halted_state hI hH hnf
  refine ⟨?_, ?_⟩
  · intro hs
    unfold joined
    rw [List.all_eq_true]
    intro w hmem
    obtain ⟨i, hi⟩ := List.mem_iff_getElem?.mp hmem
    rcases hw i w hi with hx | ⟨_, hx⟩
    · subst hx
      rfl
    · have := hI.stopped hs ⟨i, hx⟩
      omega
  · intro ht
    rcases hI.queued ht with h1 | ⟨i, w, hi, hwe, hawake⟩ | h1
    · omega
    · rcases hw i w hi with hx | ⟨_, hx⟩
      · subst hx
        cases hwe
      · rw [hawake] at hx
        cases hx
    · exact h1

/-- Where the run has come to a halt nothing is counted as active. -/
theorem halted_quiet {threadCount : Nat} (hK : threadCount < SIZE_RANGE) {s : State α}
    (h : Reachable threadCount s) (hH : Halted s)
    (hnf : s.sys.pool.workers.any hasFaulted = false) : s.sys.pool.activeTasks = 0 := by
  obtain ⟨hone, hall, hw⟩ := halted_state (cv_reachable_inv h) hH hnf
  rw [reachable_active_eq hK (cv_reachable_sys h)]
  unfold busyCount
  rw [List.countP_eq_zero]
  intro w hmem
  obtain ⟨i, hi⟩ := List.mem_iff_getElem?.mp hmem
  rcases hw i w hi with hx | ⟨hx, _⟩ <;> subst hx <;> simp [busy]

/-- From every state a run of internal events leads to a halt, in at most as
many events as the potential tells. -/
theorem cv_halts : ∀ (n : Nat) (s : State α), potential s ≤ n → Inv s →
    ∃ (fs : List (Event α)) (s1 : State α), (∀ e ∈ fs, internal e = true) ∧
      fs.length ≤ potential s ∧ run s fs = some s1 ∧ Halted s1 := by
  intro n
  induction n with
  | zero =>
    intro s hn hI
    refine ⟨[], s, fun e he => absurd he (List.not_mem_nil e), Nat.zero_le _, rfl, ?_⟩
    intro e he
    cases hs : step s e with
    | none => rfl
    | some s1 =>
      have := potential_step hI hs
      rw [internal_credit _ he, he] at this
      simp at this
      omega
  | succ n ih =>
    intro s hn hI
    by_cases hH : Halted s
    · exact ⟨[], s, fun e he => absurd he (List.not_mem_nil e), Nat.zero_le _, rfl, hH⟩
    · unfold Halted at hH
      push_neg at hH
      obtain ⟨e, he, hne⟩ := hH
      cases hs : step s e with
      | none => exact absurd hs hne
      | some s1 =>
        have hp := potential_step hI hs
        rw [internal_credit _ he, he] at hp
        simp only [if_true, Nat.add_zero] at hp
        obtain ⟨fs, s2, hfs, hlen, hrun, hH2⟩ := ih s1 (by omega) (cv_inv_step hI hs)
        refine ⟨e :: fs, s2, ?_, ?_, ?_, hH2⟩
        · intro b hb
          rcases List.mem_cons.mp hb with hb | hb
          · rw [hb]
            exact he
          · exact hfs b hb
        · simp only [List.length_cons]
          omega
        · simp only [run, hs]
          exact hrun

theorem acts_mem {es : List (Event α)} {a : Action α} (h : a ∈ acts es) : Event.act a ∈ es := by
  induction es with
  | nil => cases h
  | cons e es ih =>
    cases e with
    | act b =>
      simp only [acts, List.mem_cons] at h
      rcases h with h | h
      · rw [h]
        exact List.mem_cons_self _ _
      · exact List.mem_cons_of_mem _ (ih h)
    | notifyOne k => exact List.mem_cons_of_mem _ (ih h)
    | notifyAll => exact List.mem_cons_of_mem _ (ih h)
    | spuriousWake i => exact List.mem_cons_of_mem _ (ih h)

theorem internal_not_push {e : Event α} (h : internal e = true) :
    isPush e = false ∧ isRaise e = false := by
  cases e with
  | act a => cases a <;> simp [internal] at h <;> exact ⟨rfl, rfl⟩
  | notifyOne k => exact ⟨rfl, rfl⟩
  | notifyAll => exact ⟨rfl, rfl⟩
  | spuriousWake i => exact ⟨rfl, rfl⟩

theorem acts_no_enqueue {es : List (Event α)} (h : ∀ e ∈ es, isPush e = false) :
    ∀ a ∈ acts es, isEnqueue a = false := by
  intro a ha
  have := h _ (acts_mem ha)
  cases a <;> first | rfl | simp [isPush] at this

theorem acts_no_fault {es : List (Event α)} (h : ∀ e ∈ es, isRaise e = false) :
    ∀ a ∈ acts es, isFault a = false := by
  intro a ha
  have := h _ (acts_mem ha)
  cases a <;> first | rfl | simp [isRaise] at this

/-! ## The wait set of `cv`: every accepted task is executed -/

theorem cv_run_served {s s2 : State α} {es : List (Event α)}
    (hno : ∀ e ∈ es, isPush e = false ∧ isRaise e = false) (hrun : run s es = some s2)
    (hserved : Served s.sys) (hnf : s.sys.pool.workers.any hasFaulted = false) :
    Served s2.sys ∧ s2.sys.pool.workers.any hasFaulted = false := by
  have hsys := cv_run_acts es s s2 hrun
  constructor
  · exact run_preserves_on Served (fun a => isEnqueue a = false)
      (fun x a x1 ha hP hx => served_step ha hP hx) (acts es) s.sys s2.sys
      (acts_no_enqueue (fun e he => (hno e he).1)) hserved hsys
  · exact run_preserves_on (fun x => x.pool.workers.any hasFaulted = false)
      (fun a => isFault a = false) (fun x a x1 ha hP hx => no_fault_step ha hP hx)
      (acts es) s.sys s2.sys (acts_no_fault (fun e he => (hno e he).2)) hnf hsys

/-- Where the run has come to a halt with a worker left in its loop, the pool
is quiescent and every submitted task has completed. -/
theorem halted_served {threadCount : Nat} (hK : threadCount < SIZE_RANGE) {s : State α}
    (h : Reachable threadCount s) (hH : Halted s)
    (hnf : s.sys.pool.workers.any hasFaulted = false) (hserved : Served s.sys) :
    s.sys.pool.waitPred = true ∧ s.sys.hist.submitted.Perm s.sys.hist.completed := by
  have hI := cv_reachable_inv h
  have ha := halted_quiet hK h hH hnf
  have ht : s.sys.pool.tasks = [] := by
    rcases hserved with hlive | ht
    · by_contra hne
      have hj := (halted_joined hI hH hnf).2 hne
      unfold joined at hj
      rw [hj] at hlive
      cases hlive
    · exact ht
  have hr := cv_reachable_sys h
  have hIs := reachable_inv hr
  have hb : busyCount s.sys.pool = 0 := by rw [← reachable_active_eq hK hr]; exact ha
  have hdeq := hIs.deq
  rw [held_eq_nil_of_busyCount hb] at hdeq
  have hfifo := hIs.fifo
  rw [ht, List.append_nil] at hfifo
  refine ⟨(waitPred_iff _).mpr ⟨ht, ha⟩, ?_⟩
  rw [← hfifo, ← Multiset.coe_eq_coe, hdeq]
  simp

theorem notifiedState_reachable : Reachable 1 notifiedState := ⟨wakeEvents, by decide⟩

theorem sleepingState_halted : Halted sleepingState := by
  intro e he
  cases e with
  | act a =>
    cases a with
    | worker i =>
      cases i with
      | zero => decide
      | succ n =>
        simp [step, dormant, actor, sleeps, sleepingState, Sys.step, ThreadPool.step, workerStep,
          finishedState]
    | notify i j =>
      simp [step, dormant, actor, sleeps, sleepingState, Sys.step, ThreadPool.step, notifyStep,
        finishedState]
    | enqueue t => simp [internal] at he
    | fault i => simp [internal] at he
    | shutdown => simp [internal] at he
    | callWait => simp [internal] at he
    | recheck j => simp [internal] at he
    | spurious j => simp [internal] at he
  | notifyOne k =>
    cases k with
    | none => simp [step, sleepingState]
    | some k => simp [step, sleepingState]
  | notifyAll => simp [step, sleepingState]
  | spuriousWake i => simp [internal] at he

/-- C17 (every accepted task is eventually executed), in the model with the
wait set of `cv`: take a reachable state with a worker still in its loop and
no faulted worker, and any sequence of events from it without `enqueue` and
without a raising task.  Then (1) the internal events of the sequence (worker
steps and notifications owed) number at most `potential` of the starting state
plus the credits of the sequence, which are 1 for every spurious wake-up and
one more than the number of workers for the destructor: only finitely many
worker steps are possible; (2) `2 * (queue length) + activeTasks` never grows,
and a dequeue step or a decrement step taken next lowers it by exactly 1; (3)
every worker at the wait has its dequeue step enabled while the queue is
non-empty: at once when it is awake, and after its wake-up when it is asleep
(a worker asleep takes no step of its own); (4) no wake-up is lost: while a
task is queued, a `notify_one` is still owed or some worker in its loop is
awake; (5) in a state without an enabled internal event the predicate of
`wait()` holds and every submitted task has completed; (6) such a state is
reached by a run of internal events, of at most `potential` events. -/
theorem worker_steps_terminate (threadCount : Nat)
    (hK : threadCount < SIZE_RANGE) (es : List (Event α)) (s s2 : State α)
    (h : Reachable threadCount s) (hlive : s.sys.pool.workers.all hasExited = false)
    (hnf : s.sys.pool.workers.any hasFaulted = false)
    (hno : ∀ e ∈ es, isPush e = false ∧ isRaise e = false)
    (hrun : run s es = some s2) :
    es.countP internal + potential s2 ≤ potential s + credits s.asleep.length es ∧
      workLeft s2.sys.pool ≤ workLeft s.sys.pool ∧
      (∀ i s3, step s2 (Event.act (Action.worker i)) = some s3 →
        ((s2.sys.pool.workers[i]? = some Worker.waiting ∧ s2.sys.pool.tasks ≠ []) ∨
          ∃ t, s2.sys.pool.workers[i]? = some (Worker.finished t)) →
        workLeft s3.sys.pool + 1 = workLeft s2.sys.pool) ∧
      (∀ i t rest, s2.sys.pool.workers[i]? = some Worker.waiting →
        s2.sys.pool.tasks = t :: rest →
        ∃ s3, run s2 (if sleeps s2 i = true
              then [Event.spuriousWake i, Event.act (Action.worker i)]
              else [Event.act (Action.worker i)]) = some s3 ∧
          s3.sys.pool.workers[i]? = some (Worker.holding t) ∧ s3.sys.pool.tasks = rest) ∧
      (∀ i, sleeps s2 i = true → step s2 (Event.act (Action.worker i)) = none) ∧
      (s2.sys.pool.tasks ≠ [] →
        0 < s2.notifyOneDue ∨
          ∃ (i : Nat) (w : Worker α), s2.sys.pool.workers[i]? = some w ∧ hasExited w = false ∧
            s2.asleep[i]? = some false) ∧
      (Halted s2 →
        s2.sys.pool.waitPred = true ∧ s2.sys.hist.submitted.Perm s2.sys.hist.completed) ∧
      (∃ (fs : List (Event α)) (s3 : State α), (∀ e ∈ fs, internal e = true) ∧
        fs.length ≤ potential s2 ∧ run s2 fs = some s3 ∧ Halted s3 ∧
        s3.sys.pool.waitPred = true ∧ s3.sys.hist.submitted.Perm s3.sys.hist.completed) := by
  have hI := cv_reachable_inv h
  have hr2 := cv_reachable_run h hrun
  have hI2 := cv_reachable_inv hr2
  have hsys := cv_run_acts es s s2 hrun
  have hrs2 := cv_reachable_sys hr2
  have hmono : workLeft s2.sys.pool ≤ workLeft s.sys.pool := by
    have := run_preserves_on
      (fun x => Sys.Reachable threadCount x ∧ workLeft x.pool ≤ workLeft s.sys.pool)
      (fun a => isEnqueue a = false)
      (fun x a x1 ha hP hx => by
        obtain ⟨p, hp, hx1⟩ := step_eq_some hx
        have hm := (workLeft_move hK hP.1 (move_of_step hp) ha).1
        refine ⟨reachable_step hP.1 hx, ?_⟩
        rw [hx1]
        exact le_trans hm hP.2) (acts es) s.sys s2.sys
      (acts_no_enqueue (fun e he => (hno e he).1)) ⟨cv_reachable_sys h, le_refl _⟩ hsys
    exact this.2
  obtain ⟨hserved2, hnf2⟩ := cv_run_served hno hrun (Or.inl hlive) hnf
  refine ⟨potential_run es s s2 hI hrun, hmono, ?_, ?_, ?_, ?_, ?_, ?_⟩
  · intro i s3 hs3 hc
    obtain ⟨_, x, hx, rfl⟩ := cv_step_act hs3
    rw [cv_after_sys]
    obtain ⟨p, hp, rfl⟩ := step_eq_some hx
    exact (workLeft_move hK hrs2 (move_of_step hp) rfl).2 i rfl hc
  · intro i t rest hw ht
    obtain ⟨x, hx, h1, h2⟩ : ∃ x, s2.sys.step (Action.worker i) = some x ∧
        x.pool.workers[i]? = some (Worker.holding t) ∧ x.pool.tasks = rest := by
      have hp := step_of_move (Move.dequeue s2.sys.pool i t rest hw ht)
      refine ⟨_, sys_step_of_pool hp, ?_, rfl⟩
      obtain ⟨hi, _⟩ := List.getElem?_eq_some.mp hw
      exact List.getElem?_set_self hi
    cases hsl : sleeps s2 i with
    | false =>
      have hd : dormant s2 (Action.worker i) = false := by simp [dormant, actor, hsl]
      refine ⟨after s2 x (Action.worker i), ?_, ?_, ?_⟩
      · simp only [Bool.false_eq_true, if_false, run, cv_step_of_sys hd hx]
      · rw [cv_after_sys]
        exact h1
      · rw [cv_after_sys]
        exact h2
    | true =>
      have hk := (sleeps_iff s2 i).mp hsl
      obtain ⟨hklt, _⟩ := List.getElem?_eq_some.mp hk
      have hwake : step s2 (Event.spuriousWake i) =
          some { s2 with asleep := s2.asleep.set i false } := by
        simp only [step]
        exact if_pos hsl
      have hd : dormant { s2 with asleep := s2.asleep.set i false } (Action.worker i) = false := by
        simp [dormant, actor, sleeps, List.getElem?_set_self hklt]
      refine ⟨after { s2 with asleep := s2.asleep.set i false } x (Action.worker i), ?_, ?_, ?_⟩
      · simp only [if_true, run, hwake]
        rw [cv_step_of_sys hd hx]
      · rw [cv_after_sys]
        exact h1
      · rw [cv_after_sys]
        exact h2
  · intro i hsl
    simp [step, dormant, actor, hsl]
  · intro ht
    rcases hI2.queued ht with h1 | h1 | h1
    · exact Or.inl h1
    · exact Or.inr h1
    · rcases hserved2 with h2 | h2
      · rw [h1] at h2
        cases h2
      · exact absurd h2 ht
  · intro hH
    exact halted_served hK hr2 hH hnf2 hserved2
  · obtain ⟨fs, s3, hfs, hlen, hrun3, hH3⟩ := cv_halts (potential s2) s2 (le_refl _) hI2
    obtain ⟨hserved3, hnf3⟩ :=
      cv_run_served (fun e he => internal_not_push (hfs e he)) hrun3 hserved2 hnf2
    exact ⟨fs, s3, hfs, hlen, hrun3, hH3,
      halted_served hK (cv_reachable_run hr2 hrun3) hH3 hnf3 hserved3⟩

theorem worker_steps_terminate_witness :
    serveEvents.countP internal + potential sleepingState ≤
        potential notifiedState + credits notifiedState.asleep.length serveEvents ∧
      workLeft sleepingState.sys.pool ≤ workLeft notifiedState.sys.pool ∧
      (sleepingState.sys.pool.waitPred = true ∧
        sleepingState.sys.hist.submitted.Perm sleepingState.sys.hist.completed) :=
  have h := worker_steps_terminate 1 (by decide) serveEvents notifiedState sleepingState
    notifiedState_reachable (by decide) (by decide) (by decide) (by decide)
  ⟨h.1, h.2.1, h.2.2.2.2.2.2.1 sleepingState_halted⟩

/-! ## The wait set of `cv`: the destructor cancels nothing -/

theorem unnotifiedState_reachable : Reachable 1 unnotifiedState :=
  ⟨[Event.act (Action.worker 0), Event.act (Action.enqueue 7), Event.act (Action.enqueue 8)],
    by decide⟩

theorem joinedState_halted : Halted joinedState := by
  intro e he
  cases e with
  | act a =>
    cases a with
    | worker i =>
      cases i with
      | zero => decide
      | succ n =>
        simp [step, dormant, actor, sleeps, joinedState, Sys.step, ThreadPool.step, workerStep]
    | notify i j =>
      cases i with
      | zero =>
        simp [step, dormant, actor, sleeps, joinedState, Sys.step, ThreadPool.step, notifyStep]
      | succ n =>
        simp [step, dormant, actor, sleeps, joinedState, Sys.step, ThreadPool.step, notifyStep]
    | enqueue t => simp [internal] at he
    | fault i => simp [internal] at he
    | shutdown => simp [internal] at he
    | callWait => simp [internal] at he
    | recheck j => simp [internal] at he
    | spurious j => simp [internal] at he
  | notifyOne k =>
    cases k with
    | none => simp [step, joinedState]
    | some k => simp [step, joinedState]
  | notifyAll => simp [step, joinedState]
  | spuriousWake i => simp [internal] at he

/-- C14 (destruction cancels nothing), in the model with the wait set of
`cv`.  The step of the destructor (lines 52-55) is enabled in every state; it
sets `stop`, owes the `notify_all` of line 56, and leaves the queue,
`activeTasks`, the workers, the wait set and the record as they are.  Take it
in a reachable state with `stop` clear and no faulted worker, and let any
sequence of events without a raising task follow (calls of `enqueue`
included).  Then (1) a worker has left its loop only after every task queued
at that moment was dequeued, in queue order, and once all workers have left
every dequeued task has been started and has completed; (2) the internal
events of the sequence number at most `potential` plus the credits of the
sequence; (3) a state without an enabled internal event is a state in which
all workers have left; (4) such a state is reached from where the sequence
ends by a run of internal events of at most `potential` events, and in it the
tasks queued when the destructor ran are all dequeued, started and
completed. -/
theorem destruction_cancels_nothing (threadCount : Nat) (es : List (Event α))
    (s s1 s2 : State α) (h : Reachable threadCount s) (hstop : s.sys.pool.stop = false)
    (hnf : s.sys.pool.workers.any hasFaulted = false)
    (hs1 : step s (Event.act Action.shutdown) = some s1)
    (hno : ∀ e ∈ es, isRaise e = false) (hrun : run s1 es = some s2) :
    (∀ x : State α, (step x (Event.act Action.shutdown)).isSome = true) ∧
      s1.sys.pool.stop = true ∧ s1.notifyAllDue = s.notifyAllDue + 1 ∧
      s1.sys.pool.tasks = s.sys.pool.tasks ∧ s1.sys.pool.activeTasks = s.sys.pool.activeTasks ∧
      s1.sys.pool.workers = s.sys.pool.workers ∧ s1.asleep = s.asleep ∧
      s1.sys.hist = s.sys.hist ∧
      (s2.sys.pool.workers.any hasExited = true →
        s.sys.hist.dequeued ++ s.sys.pool.tasks <+: s2.sys.hist.dequeued) ∧
      (s2.sys.pool.joined = true →
        s.sys.hist.dequeued ++ s.sys.pool.tasks <+: s2.sys.hist.dequeued ∧
        s2.sys.hist.dequeued.Perm s2.sys.hist.started ∧
        s2.sys.hist.dequeued.Perm s2.sys.hist.completed) ∧
      es.countP internal + potential s2 ≤ potential s1 + credits s.asleep.length es ∧
      (Halted s2 → s2.sys.pool.joined = true) ∧
      (∃ (fs : List (Event α)) (s3 : State α), (∀ e ∈ fs, internal e = true) ∧
        fs.length ≤ potential s2 ∧ run s2 fs = some s3 ∧ Halted s3 ∧
        s3.sys.pool.joined = true ∧
        s.sys.hist.dequeued ++ s.sys.pool.tasks <+: s3.sys.hist.dequeued ∧
        s3.sys.hist.dequeued.Perm s3.sys.hist.started ∧
        s3.sys.hist.dequeued.Perm s3.sys.hist.completed) := by
  have hen : ∀ x : State α, step x (Event.act Action.shutdown) =
      some { x with sys := { x.sys with pool := x.sys.pool.shutdown }
                    notifyAllDue := x.notifyAllDue + 1 } := fun x => rfl
  rw [hen s] at hs1
  cases hs1
  have hr1 : Reachable threadCount
      { s with sys := { s.sys with pool := s.sys.pool.shutdown }
               notifyAllDue := s.notifyAllDue + 1 } := cv_reachable_step h (hen s)
  have hI1 := cv_reachable_inv hr1
  have hr2 := cv_reachable_run hr1 hrun
  have hI2 := cv_reachable_inv hr2
  have hkeep : ∀ (gs : List (Event α)) (x y : State α), (∀ e ∈ gs, isRaise e = false) →
      run x gs = some y → x.sys.pool.stop = true → x.sys.pool.workers.any hasFaulted = false →
      y.sys.pool.stop = true ∧ y.sys.pool.workers.any hasFaulted = false := by
    intro gs x y hg hxy hst hf
    have hsys := cv_run_acts gs x y hxy
    constructor
    · exact run_preserves (fun z => z.pool.stop = true)
        (fun z a z1 hP hz => by
          obtain ⟨p, hp, rfl⟩ := step_eq_some hz
          exact pool_step_stop_true hp hP) (acts gs) x.sys y.sys hst hsys
    · exact run_preserves_on (fun z => z.pool.workers.any hasFaulted = false)
        (fun a => isFault a = false) (fun z a z1 ha hP hz => no_fault_step ha hP hz)
        (acts gs) x.sys y.sys (acts_no_fault hg) hf hsys
  obtain ⟨hstop2, hnf2⟩ := hkeep es _ s2 hno hrun rfl hnf
  have hsafe := shutdown_flushes_queue threadCount (acts es) s.sys s2.sys (cv_reachable_sys h)
    hstop (cv_run_acts es _ s2 hrun)
  refine ⟨fun x => by rw [hen x]; rfl, rfl, rfl, rfl, rfl, rfl, rfl, rfl, hsafe.2.2.2.2.2.1,
    hsafe.2.2.2.2.2.2, ?_, ?_, ?_⟩
  · have := potential_run es _ s2 hI1 hrun
    exact this
  · intro hH
    exact (halted_joined hI2 hH hnf2).1 hstop2
  · obtain ⟨fs, s3, hfs, hlen, hrun3, hH3⟩ := cv_halts (potential s2) s2 (le_refl _) hI2
    obtain ⟨hstop3, hnf3⟩ :=
      hkeep fs s2 s3 (fun e he => (internal_not_push (hfs e he)).2) hrun3 hstop2 hnf2
    have hI3 := cv_reachable_inv (cv_reachable_run hr2 hrun3)
    have hj3 := (halted_joined hI3 hH3 hnf3).1 hstop3
    have hrun13 : run { s with sys := { s.sys with pool := s.sys.pool.shutdown }
                               notifyAllDue := s.notifyAllDue + 1 } (es ++ fs) = some s3 := by
      rw [cv_run_append, hrun]
      exact hrun3
    have hsafe3 := shutdown_flushes_queue threadCount (acts (es ++ fs)) s.sys s3.sys
      (cv_reachable_sys h) hstop (cv_run_acts (es ++ fs) _ s3 hrun13)
    exact ⟨fs, s3, hfs, hlen, hrun3, hH3, hj3, hsafe3.2.2.2.2.2.2 hj3⟩

theorem destruction_cancels_nothing_witness :
    stoppedState.sys.pool.stop = true ∧
      stoppedState.sys.pool.tasks = unnotifiedState.sys.pool.tasks ∧
      stoppedState.sys.pool.activeTasks = unnotifiedState.sys.pool.activeTasks ∧
      (unnotifiedState.sys.hist.dequeued ++ unnotifiedState.sys.pool.tasks <+:
          joinedState.sys.hist.dequeued ∧
        joinedState.sys.hist.dequeued.Perm joinedState.sys.hist.started ∧
        joinedState.sys.hist.dequeued.Perm joinedState.sys.hist.completed) ∧
      drainEvents.countP internal + potential joinedState ≤
        potential stoppedState + credits unnotifiedState.asleep.length drainEvents ∧
      joinedState.sys.pool.joined = true :=
  have h := destruction_cancels_nothing 1 drainEvents unnotifiedState stoppedState joinedState
    unnotifiedState_reachable (by decide) (by decide) (by decide) (by decide) (by decide)
  ⟨h.2.1, h.2.2.2.1, h.2.2.2.2.1, h.2.2.2.2.2.2.2.2.2.1 (by decide), h.2.2.2.2.2.2.2.2.2.2.1,
    h.2.2.2.2.2.2.2.2.2.2.2.1 joinedState_halted⟩

end Cv

namespace SystemInfo

/-! ## Percentages -/

theorem toInt_small {v : Nat} (h : v < 2 ^ 31) : toInt v = (v : Int) := by
  unfold toInt
  omega

theorem percent_le_hundred {used total : Nat} (hu : used ≤ total) :
    (used * 100 % UINT64_RANGE) / total ≤ 100 := by
  apply Nat.div_le_of_le_mul
  have := Nat.mod_le (used * 100) UINT64_RANGE
  nlinarith

/-- C23 (`calculatePercentage` without overflow): the result is 0 when
`total` is 0, whatever `used` is; for `0 < total`, `used ≤ total` and
`used * 100 < 2^64` it is the integer quotient `100 * used / total`, a value
between 0 and 100; and `calculatePercentage(8192, 16384)` is 50. -/
theorem calculatePercentage_exact (used total : Nat) (hpos : 0 < total) (hu : used ≤ total)
    (hno : used * 100 < 2 ^ 64) :
    (∀ u, calculatePercentage u 0 = 0) ∧
      calculatePercentage used total = ((100 * used / total : Nat) : Int) ∧
      0 ≤ calculatePercentage used total ∧ calculatePercentage used total ≤ 100 ∧
      calculatePercentage 8192 16384 = 50 := by
  have hval : calculatePercentage used total = ((100 * used / total : Nat) : Int) := by
    have hle := percent_le_hundred hu
    unfold calculatePercentage
    rw [if_neg (by omega)]
    rw [toInt_small (by omega)]
    rw [Nat.mod_eq_of_lt (by unfold UINT64_RANGE; exact hno), Nat.mul_comm]
  have hle : 100 * used / total ≤ 100 := by
    apply Nat.div_le_of_le_mul
    nlinarith
  refine ⟨fun u => rfl, hval, ?_, ?_, by decide⟩
  · rw [hval]
    exact Int.natCast_nonneg _
  · rw [hval]
    exact_mod_cast hle

theorem calculatePercentage_exact_witness :
    (∀ u, calculatePercentage u 0 = 0) ∧
      calculatePercentage 3 7 = ((100 * 3 / 7 : Nat) : Int) ∧
      0 ≤ calculatePercentage 3 7 ∧ calculatePercentage 3 7 ≤ 100 ∧
      calculatePercentage 8192 16384 = 50 :=
  calculatePercentage_exact 3 7 (by decide) (by decide) (by decide)

/-- Over the whole range of `uint64_t` the result of `calculatePercentage`
still lies between 0 and 100 when `used ≤ total`. -/
theorem calculatePercentage_range (used total : Nat) (hu : used ≤ total) :
    0 ≤ calculatePercentage used total ∧ calculatePercentage used total ≤ 100 := by
  unfold calculatePercentage
  split
  · exact ⟨le_refl _, by decide⟩
  · rename_i h0
    have hle := percent_le_hundred hu
    rw [toInt_small (by omega)]
    exact ⟨Int.natCast_nonneg _, by exact_mod_cast hle⟩

/-- C24 (`calculatePercentage` over the full range): for every `total > 0`
and every `used ≤ total`, whatever their size, the result is the integer
quotient of the 64-bit product `used * 100`, that is of `used * 100` reduced
modulo `2^64`, by `total`; it lies between 0 and 100; and it is the quotient
`100 * used / total` itself whenever the product fits 64 bits. -/
theorem calculatePercentage_wrapped (used total : Nat) (hpos : 0 < total) (hu : used ≤ total) :
    calculatePercentage used total = (((used * 100 % 2 ^ 64) / total : Nat) : Int) ∧
      0 ≤ calculatePercentage used total ∧ calculatePercentage used total ≤ 100 ∧
      (used * 100 < 2 ^ 64 →
        calculatePercentage used total = ((100 * used / total : Nat) : Int)) := by
  have hle := percent_le_hundred hu
  have hval : calculatePercentage used total =
      (((used * 100 % 2 ^ 64) / total : Nat) : Int) := by
    unfold calculatePercentage
    rw [if_neg (by omega), toInt_small (by omega)]
    rfl
  refine ⟨hval, ?_, ?_, ?_⟩
  · rw [hval]
    exact Int.natCast_nonneg _
  · rw [hval]
    exact_mod_cast hle
  · intro hno
    rw [hval, Nat.mod_eq_of_lt hno, Nat.mul_comm]

theorem calculatePercentage_wrapped_witness :
    calculatePercentage (2 ^ 63) (2 ^ 63) = (((2 ^ 63 * 100 % 2 ^ 64) / 2 ^ 63 : Nat) : Int) ∧
      0 ≤ calculatePercentage (2 ^ 63) (2 ^ 63) ∧ calculatePercentage (2 ^ 63) (2 ^ 63) ≤ 100 ∧
      calculatePercentage (2 ^ 63) (2 ^ 63) = 0 :=
  have h := calculatePercentage_wrapped (2 ^ 63) (2 ^ 63) (by decide) (by decide)
  ⟨h.1, h.2.1, h.2.2.1, by decide⟩

/-! ## Memory usage -/

/-- C28 (`fetchMemoryInfo` on Linux): for a reading of `sysinfo` with
`freeram ≤ totalram` and `totalram * mem_unit * 50 < 2^64`, the total and the
free bytes are the exact products, `used_bytes` is half of their difference,
`usage_percent` is the integer quotient `100 * used_bytes / total_bytes` (0
when `total_bytes` is 0), and `usage_percent` is between 0 and 50. -/
theorem fetchMemoryInfo_usage (si : SysinfoReading) (memory : Memory)
    (hfree : si.freeram ≤ si.totalram) (hsmall : si.totalram * si.mem_unit * 50 < 2 ^ 64) :
    (fetchMemoryInfo (some si) memory).total_bytes = si.totalram * si.mem_unit ∧
      (fetchMemoryInfo (some si) memory).free_bytes = si.freeram * si.mem_unit ∧
      (fetchMemoryInfo (some si) memory).used_bytes =
        ((fetchMemoryInfo (some si) memory).total_bytes -
          (fetchMemoryInfo (some si) memory).free_bytes) / 2 ∧
      (fetchMemoryInfo (some si) memory).usage_percent =
        (if (fetchMemoryInfo (some si) memory).total_bytes = 0 then 0
         else ((100 * (fetchMemoryInfo (some si) memory).used_bytes /
                (fetchMemoryInfo (some si) memory).total_bytes : Nat) : Int)) ∧
      0 ≤ (fetchMemoryInfo (some si) memory).usage_percent ∧
      (fetchMemoryInfo (some si) memory).usage_percent ≤ 50 := by
  obtain ⟨totalram, freeram, mem_unit⟩ := si
  simp only at hfree hsmall
  have hfm : freeram * mem_unit ≤ totalram * mem_unit := Nat.mul_le_mul_right _ hfree
  have ht : totalram * mem_unit % UINT64_RANGE = totalram * mem_unit :=
    Nat.mod_eq_of_lt (by unfold UINT64_RANGE; omega)
  have hf : freeram * mem_unit % UINT64_RANGE = freeram * mem_unit :=
    Nat.mod_eq_of_lt (by unfold UINT64_RANGE; omega)
  have hsub : (totalram * mem_unit + UINT64_RANGE - freeram * mem_unit) % UINT64_RANGE =
      totalram * mem_unit - freeram * mem_unit := by
    unfold UINT64_RANGE
    omega
  simp only [fetchMemoryInfo, ht, hf, hsub]
  generalize hT : totalram * mem_unit = T at *
  generalize hF : freeram * mem_unit = F at *
  have hused : (T - F) / 2 * 100 ≤ T * 50 := by omega
  have hm : (T - F) / 2 * 100 % UINT64_RANGE = (T - F) / 2 * 100 :=
    Nat.mod_eq_of_lt (by unfold UINT64_RANGE; omega)
  rw [hm]
  refine ⟨trivial, trivial, trivial, ?_⟩
  by_cases h0 : T = 0
  · subst h0
    simp
  · have hpos : 0 < T := Nat.pos_of_ne_zero h0
    have hq : (T - F) / 2 * 100 / T ≤ 50 := by
      apply Nat.div_le_of_le_mul
      omega
    rw [if_pos hpos, if_neg h0, toInt_small (by omega), Nat.mul_comm 100]
    exact ⟨rfl, Int.natCast_nonneg _, by exact_mod_cast hq⟩

theorem fetchMemoryInfo_usage_witness :
    (fetchMemoryInfo (some ⟨4000000, 1000000, 4096⟩) Memory.zero).total_bytes = 16384000000 ∧
      (fetchMemoryInfo (some ⟨4000000, 1000000, 4096⟩) Memory.zero).used_bytes = 6144000000 ∧
      (fetchMemoryInfo (some ⟨4000000, 1000000, 4096⟩) Memory.zero).usage_percent = 37 ∧
      (fetchMemoryInfo (some ⟨4000000, 1000000, 4096⟩) Memory.zero).usage_percent ≤ 50 :=
  have h := fetchMemoryInfo_usage ⟨4000000, 1000000, 4096⟩ Memory.zero (by decide) (by decide)
  ⟨h.1, by decide, by decide, h.2.2.2.2.2⟩

/-! ## Uptime -/

theorem decimal_length_le (n e : Nat) (he : 0 < e) (h : n < 10 ^ e) :
    (decimal n).length ≤ e :=
  Nat.repr_length n e he h

theorem decimal2_length {n : Nat} (h : n < 100) : (decimal2 n).length = 2 := by
  have := decimal_length_le n 2 (by decide) h
  simp only [decimal2, List.length_append, List.length_replicate]
  omega

theorem snprintf_short {text : List Char} (h : text.length ≤ 63) : snprintf 64 text = text :=
  List.take_of_length_le h

theorem uptime_fields (seconds : Nat) :
    (seconds % 86400) / 3600 < 24 ∧ (seconds % 3600) / 60 < 60 ∧ seconds % 60 < 60 ∧
      seconds / 86400 * 86400 + (seconds % 86400) / 3600 * 3600 + (seconds % 3600) / 60 * 60
        + seconds % 60 = seconds := by
  omega

/-- The text of `formatUptime` (sysinfo.cpp) fits the buffer: nothing is cut off. -/
theorem formatUptime_text (seconds : Nat) (hs : seconds < 2 ^ 64) :
    formatUptime seconds =
      if seconds / 86400 > 0 then
        String.mk (decimal (seconds / 86400) ++ "d ".toList ++
          decimal2 ((seconds % 86400) / 3600) ++ "h ".toList ++
          decimal2 ((seconds % 3600) / 60) ++ "m".toList)
      else if (seconds % 86400) / 3600 > 0 then
        String.mk (decimal ((seconds % 86400) / 3600) ++ "h ".toList ++
          decimal2 ((seconds % 3600) / 60) ++ "m".toList)
      else String.mk (decimal ((seconds % 3600) / 60) ++ "m".toList) := by
  obtain ⟨hh, hm, _, _⟩ := uptime_fields seconds
  have hd := decimal_length_le (seconds / 86400) 20 (by decide) (by omega)
  have hh1 := decimal_length_le ((seconds % 86400) / 3600) 2 (by decide) (by omega)
  have hm1 := decimal_length_le ((seconds % 3600) / 60) 2 (by decide) (by omega)
  have hh2 := decimal2_length (n := (seconds % 86400) / 3600) (by omega)
  have hm2 := decimal2_length (n := (seconds % 3600) / 60) (by omega)
  have e1 : "d ".toList.length = 2 := rfl
  have e2 : "h ".toList.length = 2 := rfl
  have e3 : "m".toList.length = 1 := rfl
  unfold formatUptime
  simp only
  rw [snprintf_short (by simp only [List.length_append, e1, e2, e3, hh2, hm2]; omega),
    snprintf_short (by simp only [List.length_append, e2, e3, hm2]; omega),
    snprintf_short (by simp only [List.length_append, e3]; omega)]

/-- The text of `formatUptime` (sysinfo.win.cpp) fits the buffer as well. -/
theorem formatUptimeWin_text (seconds : Nat) (hs : seconds < 2 ^ 64) :
    Win.formatUptime seconds =
      if seconds / 86400 > 0 then
        String.mk (decimal (seconds / 86400) ++ "d ".toList ++
          decimal2 ((seconds % 86400) / 3600) ++ "h ".toList ++
          decimal2 ((seconds % 3600) / 60) ++ "m ".toList ++ decimal2 (seconds % 60) ++
          "s".toList)
      else if (seconds % 86400) / 3600 > 0 then
        String.mk (decimal ((seconds % 86400) / 3600) ++ "h ".toList ++
          decimal2 ((seconds % 3600) / 60) ++ "m ".toList ++ decimal2 (seconds % 60) ++
          "s".toList)
      else if (seconds % 3600) / 60 > 0 then
        String.mk (decimal ((seconds % 3600) / 60) ++ "m ".toList ++ decimal2 (seconds % 60) ++
          "s".toList)
      else String.mk (decimal (seconds % 60) ++ "s".toList) := by
  obtain ⟨hh, hm, hsec, _⟩ := uptime_fields seconds
  have hd := decimal_length_le (seconds / 86400) 20 (by decide) (by omega)
  have hh1 := decimal_length_le ((seconds % 86400) / 3600) 2 (by decide) (by omega)
  have hm1 := decimal_length_le ((seconds % 3600) / 60) 2 (by decide) (by omega)
  have hs1 := decimal_length_le (seconds % 60) 2 (by decide) (by omega)
  have hh2 := decimal2_length (n := (seconds % 86400) / 3600) (by omega)
  have hm2 := decimal2_length (n := (seconds % 3600) / 60) (by omega)
  have hs2 := decimal2_length (n := seconds % 60) (by omega)
  have e1 : "d ".toList.length = 2 := rfl
  have e2 : "h ".toList.length = 2 := rfl
  have e3 : "m ".toList.length = 2 := rfl
  have e4 : "s".toList.length = 1 := rfl
  unfold Win.formatUptime
  simp only
  rw [snprintf_short (by simp only [List.length_append, e1, e2, e3, e4, hh2, hm2, hs2]; omega),
    snprintf_short (by simp only [List.length_append, e2, e3, e4, hm2, hs2]; omega),
    snprintf_short (by simp only [List.length_append, e3, e4, hs2]; omega),
    snprintf_short (by simp only [List.length_append, e4]; omega)]

/-- C25 (`formatUptime` of sysinfo.cpp): the hours field is below 24, the
minutes field below 60, the three fields account for `seconds` up to less than
a minute, the padded fields have exactly two characters, and the text is
`<d>d <hh>h <mm>m` for a positive number of days, `<h>h <mm>m` for no days
and a positive number of hours, `<m>m` otherwise; `formatUptime(3665)` is
`1h 01m` and `formatUptime(90061)` is `1d 01h 01m`. -/
theorem formatUptime_fields (seconds : Nat) (hs : seconds < 2 ^ 64) :
    (seconds % 86400) / 3600 < 24 ∧ (seconds % 3600) / 60 < 60 ∧
      seconds / 86400 * 86400 + (seconds % 86400) / 3600 * 3600 + (seconds % 3600) / 60 * 60
        ≤ seconds ∧
      seconds < seconds / 86400 * 86400 + (seconds % 86400) / 3600 * 3600 +
        (seconds % 3600) / 60 * 60 + 60 ∧
      (decimal2 ((seconds % 86400) / 3600)).length = 2 ∧
      (decimal2 ((seconds % 3600) / 60)).length = 2 ∧
      (0 < seconds / 86400 →
        formatUptime seconds =
          String.mk (decimal (seconds / 86400) ++ "d ".toList ++
            decimal2 ((seconds % 86400) / 3600) ++ "h ".toList ++
            decimal2 ((seconds % 3600) / 60) ++ "m".toList)) ∧
      (seconds / 86400 = 0 → 0 < (seconds % 86400) / 3600 →
        formatUptime seconds =
          String.mk (decimal ((seconds % 86400) / 3600) ++ "h ".toList ++
            decimal2 ((seconds % 3600) / 60) ++ "m".toList)) ∧
      (seconds / 86400 = 0 → (seconds % 86400) / 3600 = 0 →
        formatUptime seconds = String.mk (decimal ((seconds % 3600) / 60) ++ "m".toList)) ∧
      formatUptime 3665 = "1h 01m" ∧ formatUptime 90061 = "1d 01h 01m" := by
  obtain ⟨hh, hm, hsec, hsum⟩ := uptime_fields seconds
  have htext := formatUptime_text seconds hs
  refine ⟨hh, hm, by omega, by omega, decimal2_length (by omega), decimal2_length (by omega),
    ?_, ?_, ?_, by decide, by decide⟩
  · intro hd
    rw [htext, if_pos hd]
  · intro hd hh0
    rw [htext, if_neg (by omega), if_pos hh0]
  · intro hd hh0
    rw [htext, if_neg (by omega), if_neg (by omega)]

theorem formatUptime_fields_witness :
    (90061 % 86400) / 3600 < 24 ∧ (90061 % 3600) / 60 < 60 ∧
      formatUptime 90061 =
        String.mk (decimal (90061 / 86400) ++ "d ".toList ++
          decimal2 ((90061 % 86400) / 3600) ++ "h ".toList ++
          decimal2 ((90061 % 3600) / 60) ++ "m".toList) ∧
      formatUptime 90061 = "1d 01h 01m" :=
  have h := formatUptime_fields 90061 (by decide)
  ⟨h.1, h.2.1, h.2.2.2.2.2.2.1 (by decide), h.2.2.2.2.2.2.2.2.2.2⟩

/-- C26, as the code has it: the two definitions of `formatUptime` are
different functions.  For a minute or more, the text of sysinfo.win.cpp is the
text of sysinfo.cpp followed by a blank and a seconds field `<ss>s` of two
digits; below one minute sysinfo.cpp prints `0m` and sysinfo.win.cpp prints
`<s>s`.  So the days, hours and minutes are printed alike, and the two strings
differ for every value of `seconds`. -/
theorem formatUptime_win_appends_seconds (seconds : Nat) (hs : seconds < 2 ^ 64) :
    (60 ≤ seconds →
        Win.formatUptime seconds =
          formatUptime seconds ++
            String.mk (" ".toList ++ decimal2 (seconds % 60) ++ "s".toList)) ∧
      (seconds < 60 →
        formatUptime seconds = "0m" ∧
          Win.formatUptime seconds = String.mk (decimal seconds ++ "s".toList)) ∧
      (decimal2 (seconds % 60)).length = 2 ∧
      Win.formatUptime seconds ≠ formatUptime seconds := by
  obtain ⟨hh, hm, hsec, hsum⟩ := uptime_fields seconds
  have em : "m ".toList = "m".toList ++ " ".toList := rfl
  have happ : ∀ a b : List Char, String.mk a ++ String.mk b = String.mk (a ++ b) :=
    fun a b => rfl
  have hlong : 60 ≤ seconds →
      Win.formatUptime seconds =
        formatUptime seconds ++
          String.mk (" ".toList ++ decimal2 (seconds % 60) ++ "s".toList) := by
    intro h60
    rw [formatUptimeWin_text seconds hs, formatUptime_text seconds hs]
    by_cases hd : seconds / 86400 > 0
    · rw [if_pos hd, if_pos hd, happ, em]
      simp only [List.append_assoc]
    · rw [if_neg hd, if_neg hd]
      by_cases hh0 : (seconds % 86400) / 3600 > 0
      · rw [if_pos hh0, if_pos hh0, happ, em]
        simp only [List.append_assoc]
      · rw [if_neg hh0, if_neg hh0, if_pos (by omega), happ, em]
        simp only [List.append_assoc]
  have hshort : seconds < 60 →
      formatUptime seconds = "0m" ∧
        Win.formatUptime seconds = String.mk (decimal seconds ++ "s".toList) := by
    intro h60
    rw [formatUptimeWin_text seconds hs, formatUptime_text seconds hs]
    have h1 : seconds / 86400 = 0 := by omega
    have h2 : (seconds % 86400) / 3600 = 0 := by omega
    have h3 : (seconds % 3600) / 60 = 0 := by omega
    have h4 : seconds % 60 = seconds := by omega
    rw [h1, h2, h3, h4]
    exact ⟨by decide, by simp⟩
  refine ⟨hlong, hshort, decimal2_length (by omega), ?_⟩
  intro heq
  have em1 : "m".toList = ['m'] := rfl
  have es : "s".toList = ['s'] := rfl
  have h1 : (formatUptime seconds).data.getLast? = some 'm' := by
    rw [formatUptime_text seconds hs]
    split
    · (simp only [em1, List.getLast?_append, List.getLast?_singleton]; rfl)
    · split <;> (simp only [em1, List.getLast?_append, List.getLast?_singleton]; rfl)
  have h2 : (Win.formatUptime seconds).data.getLast? = some 's' := by
    rw [formatUptimeWin_text seconds hs]
    split
    · (simp only [es, List.getLast?_append, List.getLast?_singleton]; rfl)
    · split
      · (simp only [es, List.getLast?_append, List.getLast?_singleton]; rfl)
      · split <;> (simp only [es, List.getLast?_append, List.getLast?_singleton]; rfl)
  rw [heq, h1] at h2
  cases h2

theorem formatUptime_win_appends_seconds_witness :
    Win.formatUptime 3665 =
        formatUptime 3665 ++ String.mk (" ".toList ++ decimal2 (3665 % 60) ++ "s".toList) ∧
      (decimal2 (3665 % 60)).length = 2 ∧
      Win.formatUptime 3665 ≠ formatUptime 3665 :=
  have h := formatUptime_win_appends_seconds 3665 (by decide)
  ⟨h.1 (by decide), h.2.2.1, h.2.2.2⟩

/-- C26 as stated fails: for 3665 seconds sysinfo.cpp returns `1h 01m` and
sysinfo.win.cpp returns `1h 01m 05s`; for 42 seconds they return `0m` and
`42s`. -/
theorem formatUptime_platforms_differ :
    formatUptime 3665 = "1h 01m" ∧ Win.formatUptime 3665 = "1h 01m 05s" ∧
      Win.formatUptime 3665 ≠ formatUptime 3665 ∧
      formatUptime 42 = "0m" ∧ Win.formatUptime 42 = "42s" := by
  decide

/-! ## Byte counts -/

theorem roundToMultiple_one (n : Nat) : roundToMultiple 1 n = n := by
  unfold roundToMultiple
  simp only [Nat.div_one, Nat.mod_one, Nat.mul_zero, Nat.mul_one]
  rw [if_neg (by omega)]

theorem roundToMultiple_le (u n : Nat) (hu : 0 < u) : roundToMultiple u n ≤ n + u / 2 := by
  have hdm := Nat.div_add_mod n u
  have hr := Nat.mod_lt n hu
  unfold roundToMultiple
  simp only
  rw [Nat.mul_comm] at hdm
  split
  · rename_i hc
    rw [Nat.add_mul, Nat.one_mul]
    omega
  · omega

theorem roundToMultiple_ge (u n : Nat) : n / u * u ≤ roundToMultiple u n := by
  unfold roundToMultiple
  simp only
  split
  · exact Nat.mul_le_mul_right _ (Nat.le_succ _)
  · exact le_refl _

theorem toDouble_small {n : Nat} (h : n < 2 ^ 53) : toDouble n = n := by
  unfold toDouble
  have he : Nat.log2 n - 52 = 0 := by
    by_cases h0 : n = 0
    · subst h0
      simp [Nat.log2]
    · have := (Nat.log2_lt h0 (k := 53)).mpr h
      omega
  rw [he]
  exact roundToMultiple_one n

theorem toDouble_large {n : Nat} (h : 2 ^ 53 ≤ n) : 2 ^ 52 ≤ toDouble n := by
  have h0 : n ≠ 0 := by
    intro hn
    subst hn
    simp at h
  have hlog : 53 ≤ Nat.log2 n := (Nat.le_log2 h0).mpr h
  have hpow : 2 ^ Nat.log2 n ≤ n := (Nat.le_log2 h0).mp (le_refl _)
  unfold toDouble
  refine le_trans ?_ (roundToMultiple_ge _ _)
  have hsplit : 2 ^ Nat.log2 n = 2 ^ 52 * 2 ^ (Nat.log2 n - 52) := by
    rw [← Nat.pow_add]
    congr 1
    omega
  have hq : 2 ^ 52 ≤ n / 2 ^ (Nat.log2 n - 52) := by
    rw [Nat.le_div_iff_mul_le (Nat.pos_pow_of_pos _ (by decide))]
    rw [← hsplit]
    exact hpow
  calc 2 ^ 52 = 2 ^ 52 * 1 := by omega
    _ ≤ n / 2 ^ (Nat.log2 n - 52) * 2 ^ (Nat.log2 n - 52) :=
      Nat.mul_le_mul hq (Nat.one_le_two_pow)

theorem toDouble_below {n : Nat} (h : n < 2 ^ 60 - 64) : toDouble n < 2 ^ 60 := by
  rcases Nat.lt_or_ge n (2 ^ 53) with hs | hl
  · rw [toDouble_small hs]
    omega
  · have h0 : n ≠ 0 := by
      intro hn
      subst hn
      simp at hl
    have hlog : Nat.log2 n < 60 := (Nat.log2_lt h0).mpr (by omega)
    have hu : 2 ^ (Nat.log2 n - 52) ≤ 2 ^ 7 :=
      Nat.pow_le_pow_right (by decide) (by omega)
    have := roundToMultiple_le (2 ^ (Nat.log2 n - 52)) n (Nat.pos_pow_of_pos _ (by decide))
    unfold toDouble
    omega

theorem toDouble_rounds_up {n : Nat} (hlo : 2 ^ 60 - 64 ≤ n) (hhi : n < 2 ^ 60) :
    toDouble n = 2 ^ 60 := by
  have h0 : n ≠ 0 := by
    intro hn
    subst hn
    simp at hlo
  have h1 : 59 ≤ Nat.log2 n := (Nat.le_log2 h0).mpr (by omega)
  have h2 : Nat.log2 n < 60 := (Nat.log2_lt h0).mpr hhi
  have he : Nat.log2 n - 52 = 7 := by omega
  unfold toDouble roundToMultiple
  rw [he]
  simp only
  split <;> omega

theorem scaleLoop_step {v : ℚ} {u : Nat} (hv : 1024 ≤ v) (hu : u < 5) :
    scaleLoop v u = scaleLoop (v / 1024) (u + 1) := by
  rw [scaleLoop, if_pos ⟨hv, hu⟩]

theorem scaleLoop_stop {v : ℚ} {u : Nat} (h : v < 1024 ∨ 5 ≤ u) : scaleLoop v u = (v, u) := by
  rw [scaleLoop, if_neg]
  intro hc
  rcases h with h | h
  · exact absurd hc.1 (not_le.mpr h)
  · omega

theorem scaleLoop_iter : ∀ (n u : Nat) (v : ℚ), u + n ≤ 5 → 0 < n → (1024 : ℚ) ^ n ≤ v →
    scaleLoop v u = scaleLoop (v / 1024 ^ n) (u + n) := by
  intro n
  induction n with
  | zero => intro u v _ h0; omega
  | succ k ih =>
    intro u v hu _ hv
    have h1024 : (1024 : ℚ) ≤ v := by
      refine le_trans ?_ hv
      calc (1024 : ℚ) = 1024 ^ 1 := by norm_num
        _ ≤ 1024 ^ (k + 1) := pow_le_pow_right₀ (by norm_num) (by omega)
    rw [scaleLoop_step h1024 (by omega)]
    rcases Nat.eq_zero_or_pos k with hk | hk
    · subst hk
      norm_num
    · have hv1 : (1024 : ℚ) ^ k ≤ v / 1024 := by
        rw [le_div_iff₀ (by norm_num)]
        calc (1024 : ℚ) ^ k * 1024 = 1024 ^ (k + 1) := by ring
          _ ≤ v := hv
      rw [ih (u + 1) (v / 1024) (by omega) hk hv1]
      have e1 : v / 1024 / 1024 ^ k = v / 1024 ^ (k + 1) := by
        rw [div_div]
        congr 1
        ring
      rw [e1, Nat.add_assoc, Nat.add_comm 1 k]

/-- The loop applied to an integer value `m`. -/
theorem scaleLoop_nat (m : Nat) :
    scaleLoop (m : ℚ) 0 =
      ((m : ℚ) / 1024 ^ (min 5 (Nat.log 1024 m)), min 5 (Nat.log 1024 m)) := by
  have hlt : m < 1024 ^ (Nat.log 1024 m + 1) := Nat.lt_pow_succ_log_self (by decide) m
  rcases Nat.eq_zero_or_pos (min 5 (Nat.log 1024 m)) with hk | hk
  · have hlog : Nat.log 1024 m = 0 := by omega
    rw [hk]
    rw [hlog] at hlt
    have hm : (m : ℚ) < 1024 := by exact_mod_cast (by simpa using hlt)
    rw [scaleLoop_stop (Or.inl hm)]
    simp
  · have hm0 : m ≠ 0 := by
      intro h0
      subst h0
      simp at hk
    have hge : 1024 ^ (min 5 (Nat.log 1024 m)) ≤ m :=
      le_trans (Nat.pow_le_pow_right (by decide) (Nat.min_le_right _ _))
        (Nat.pow_log_le_self 1024 hm0)
    have hgeq : (1024 : ℚ) ^ (min 5 (Nat.log 1024 m)) ≤ (m : ℚ) := by exact_mod_cast hge
    rw [scaleLoop_iter (min 5 (Nat.log 1024 m)) 0 (m : ℚ) (by omega) hk hgeq]
    rw [Nat.zero_add]
    apply scaleLoop_stop
    rcases Nat.lt_or_ge (Nat.log 1024 m) 5 with h5 | h5
    · left
      have hk5 : min 5 (Nat.log 1024 m) = Nat.log 1024 m := by omega
      rw [hk5, div_lt_iff₀ (by positivity)]
      calc (m : ℚ) < ((1024 ^ (Nat.log 1024 m + 1) : Nat) : ℚ) := by exact_mod_cast hlt
        _ = 1024 * 1024 ^ Nat.log 1024 m := by push_cast; ring
    · right
      omega

theorem formatBytes_parts (bytes : Nat) :
    (formatBytes bytes).value = (scaleLoop (toDouble bytes) 0).1 ∧
      (formatBytes bytes).suffix = units[(scaleLoop (toDouble bytes) 0).2]? ∧
      (formatBytes bytes).decimals =
        (if (scaleLoop (toDouble bytes) 0).1 < 10 ∧ (scaleLoop (toDouble bytes) 0).2 > 0 then 2
         else 1) := by
  unfold formatBytes
  simp only
  split <;> exact ⟨rfl, rfl, rfl⟩

theorem scale_count (bytes : Nat) :
    min 5 (Nat.log 1024 (toDouble bytes)) = min 5 (Nat.log 1024 bytes) := by
  rcases Nat.lt_or_ge bytes (2 ^ 53) with hs | hl
  · rw [toDouble_small hs]
  · have h1 : 5 ≤ Nat.log 1024 bytes := Nat.le_log_of_pow_le (by decide) (by omega)
    have h2 : 5 ≤ Nat.log 1024 (toDouble bytes) :=
      Nat.le_log_of_pow_le (by decide) (le_trans (by norm_num) (toDouble_large hl))
    omega

theorem formatBytes_scaled (bytes : Nat) :
    (formatBytes bytes).value = (toDouble bytes : ℚ) / 1024 ^ (min 5 (Nat.log 1024 bytes)) ∧
      (formatBytes bytes).suffix = units[min 5 (Nat.log 1024 bytes)]? := by
  obtain ⟨hv, hs, _⟩ := formatBytes_parts bytes
  rw [hv, hs, scaleLoop_nat, scale_count]
  exact ⟨rfl, rfl⟩

theorem formatBytes_example {bytes k : Nat} (hs : bytes < 2 ^ 53) (hk : 0 < k) (hk5 : k ≤ 5)
    (hb : bytes = 1024 ^ k) :
    formatBytes bytes = { value := 1, decimals := 2, suffix := units[k]? } := by
  have hlog : Nat.log 1024 bytes = k :=
    Nat.log_eq_of_pow_le_of_lt_pow (le_of_eq hb.symm)
      (by rw [hb]; exact Nat.pow_lt_pow_right (by decide) (Nat.lt_succ_self k))
  have hmin : min 5 (Nat.log 1024 bytes) = k := by omega
  have hloop : scaleLoop (toDouble bytes) 0 = (1, k) := by
    rw [scaleLoop_nat, scale_count, hmin, toDouble_small hs, hb]
    have : ((1024 ^ k : Nat) : ℚ) / 1024 ^ k = 1 := by
      push_cast
      exact div_self (by positivity)
    rw [this]
  unfold formatBytes
  simp only [hloop]
  rw [if_pos ⟨by norm_num, hk⟩]

/-- C27, as the code has it: `formatBytes` divides by 1024 exactly
`k = min(5, floor(log_1024(bytes)))` times (no time for `bytes < 1024`), the
index into `units` is `k`, at most 5, so the read is inside the table and the
suffix is the `k`-th of B, KiB, MiB, GiB, TiB, PiB; the scaled value, which is
the `double` nearest to `bytes` divided by `1024^k`, is below 1024 for every
input below `1024^6 - 64` and is exactly 1024 for the inputs from
`1024^6 - 64` to `1024^6 - 1`, which the conversion to `double` rounds up to
`1024^6`; 1024, 1048576 and 1073741824 give the value 1 with the suffixes KiB,
MiB and GiB. -/
theorem formatBytes_scaling (bytes : Nat) (hb : bytes < 2 ^ 64) :
    scaleLoop (toDouble bytes) 0 =
        ((toDouble bytes : ℚ) / 1024 ^ (min 5 (Nat.log 1024 bytes)),
          min 5 (Nat.log 1024 bytes)) ∧
      (bytes < 1024 → min 5 (Nat.log 1024 bytes) = 0) ∧
      min 5 (Nat.log 1024 bytes) ≤ 5 ∧
      (formatBytes bytes).suffix = units[min 5 (Nat.log 1024 bytes)]? ∧
      (formatBytes bytes).suffix ≠ none ∧
      (bytes < 1024 ^ 6 - 64 → (formatBytes bytes).value < 1024) ∧
      (1024 ^ 6 - 64 ≤ bytes → bytes < 1024 ^ 6 → (formatBytes bytes).value = 1024) ∧
      formatBytes 1024 = { value := 1, decimals := 2, suffix := some "KiB" } ∧
      formatBytes 1048576 = { value := 1, decimals := 2, suffix := some "MiB" } ∧
      formatBytes 1073741824 = { value := 1, decimals := 2, suffix := some "GiB" } := by
  obtain ⟨hval, hsuf⟩ := formatBytes_scaled bytes
  have hk5 : min 5 (Nat.log 1024 bytes) ≤ 5 := Nat.min_le_left _ _
  refine ⟨by rw [scaleLoop_nat, scale_count], ?_, hk5, hsuf, ?_, ?_, ?_,
    formatBytes_example (k := 1) (by norm_num) (by decide) (by decide) (by norm_num),
    formatBytes_example (k := 2) (by norm_num) (by decide) (by decide) (by norm_num),
    formatBytes_example (k := 3) (by norm_num) (by decide) (by decide) (by norm_num)⟩
  · intro hsmall
    have : Nat.log 1024 bytes = 0 := Nat.log_of_lt hsmall
    omega
  · rw [hsuf]
    intro hnone
    rw [List.getElem?_eq_none_iff] at hnone
    simp only [units, List.length_cons, List.length_nil] at hnone
    omega
  · intro hlt
    rw [hval, div_lt_iff₀ (by positivity)]
    rcases Nat.lt_or_ge (Nat.log 1024 bytes) 5 with h5 | h5
    · have hk : min 5 (Nat.log 1024 bytes) = Nat.log 1024 bytes := by omega
      have hup : bytes < 1024 ^ (Nat.log 1024 bytes + 1) :=
        Nat.lt_pow_succ_log_self (by decide) bytes
      have hpow : 1024 ^ (Nat.log 1024 bytes + 1) ≤ 1024 ^ 5 :=
        Nat.pow_le_pow_right (by decide) (by omega)
      rw [hk, toDouble_small (by omega)]
      calc (bytes : ℚ) < ((1024 ^ (Nat.log 1024 bytes + 1) : Nat) : ℚ) := by exact_mod_cast hup
        _ = 1024 * 1024 ^ Nat.log 1024 bytes := by push_cast; ring
    · have hk : min 5 (Nat.log 1024 bytes) = 5 := by omega
      have := toDouble_below hlt
      rw [hk]
      calc ((toDouble bytes : Nat) : ℚ) < ((2 ^ 60 : Nat) : ℚ) := by exact_mod_cast this
        _ = 1024 * 1024 ^ 5 := by norm_num
  · intro hlo hhi
    have hlo2 : 2 ^ 60 - 64 ≤ bytes := by omega
    have hhi2 : bytes < 2 ^ 60 := by omega
    have h5 : 5 ≤ Nat.log 1024 bytes := Nat.le_log_of_pow_le (by decide) (by omega)
    have hk : min 5 (Nat.log 1024 bytes) = 5 := by omega
    rw [hval, hk, toDouble_rounds_up hlo2 hhi2]
    norm_num

theorem formatBytes_scaling_witness :
    (formatBytes 1000000).suffix = units[min 5 (Nat.log 1024 1000000)]? ∧
      (formatBytes 1000000).suffix ≠ none ∧ (formatBytes 1000000).value < 1024 ∧
      formatBytes 1024 = { value := 1, decimals := 2, suffix := some "KiB" } :=
  have h := formatBytes_scaling 1000000 (by decide)
  ⟨h.2.2.2.1, h.2.2.2.2.1, h.2.2.2.2.2.1 (by decide), h.2.2.2.2.2.2.2.1⟩

/-- C27 as stated fails: `1024^6 - 1` is below `1024^6`, but its conversion to
`double` is `1024^6`, so after five divisions the scaled value is 1024, not
below 1024. -/
theorem formatBytes_value_not_below :
    (1024 ^ 6 - 1 : Nat) < 1024 ^ 6 ∧ toDouble (1024 ^ 6 - 1) = 1024 ^ 6 ∧
      (formatBytes (1024 ^ 6 - 1)).value = 1024 ∧
      (formatBytes (1024 ^ 6 - 1)).suffix = some "PiB" ∧
      ¬ (formatBytes (1024 ^ 6 - 1)).value < 1024 := by
  have hd : toDouble (1024 ^ 6 - 1) = 1024 ^ 6 := by
    rw [toDouble_rounds_up (by norm_num) (by norm_num)]
    norm_num
  have hlog : Nat.log 1024 (1024 ^ 6 - 1) = 5 :=
    Nat.log_eq_of_pow_le_of_lt_pow (by norm_num) (by norm_num)
  obtain ⟨hval, hsuf⟩ := formatBytes_scaled (1024 ^ 6 - 1)
  rw [hlog, hd] at hval
  rw [hlog] at hsuf
  have hv : (formatBytes (1024 ^ 6 - 1)).value = 1024 := by
    rw [hval]
    norm_num
  refine ⟨by norm_num, hd, hv, ?_, ?_⟩
  · rw [hsuf]
    rfl
  · rw [hv]
    norm_num

end SystemInfo

end NacFetch
